import Mathlib

/-!
# ArUco dictionary: codeword codec, identification and generation

A shallow embedding of `modules/aruco/src/dictionary.cpp`.

* A `CV_8UC1` matrix is a `Mat`: its dimensions and a total map from
  `(row, col)` to the stored `unsigned char`.
* A `1 × nbytes` matrix of `Vec4b` (one codeword) is a `List Vec4b`; the
  `bytesList` of a dictionary is the list of its rows.
* `unsigned char` arithmetic carries an explicit `% 256`; `int` values are
  `Int`/`Nat`, exact as long as `markerSize * markerSize + 1` fits an `int`
  (`markerSize ≤ 46340`): beyond, the `int` products and the casts
  `(int)bits.total()` of the source overflow and the definitions are not those
  of the source. The one conversion that leaves the `int` range for small
  markers, `int(bits.total() * bits.total())`, is modelled with its wrap-around.
* A read `ptr[i]` outside a buffer yields `default` (all zero); the source
  reads the adjacent memory there, so a value computed from such a read is
  that of the definition only.
* Loops are folds over `List.range`; a loop with `break` is a recursion over
  the remaining indices; the `while` loop of the generator takes a bound
  `fuel` on its number of iterations.
* A failed `CV_Assert` is the result `none`.
* The values returned by `rand()` are a parameter of the generator.
* `Mat::push_back`, of the OpenCV core, appends one row when the row has the
  number of byte positions of the rows of the matrix, or when the matrix is
  empty; `pushBack` appends the row in every case, also the row of no byte
  position that is the encoding of an empty `Mat`.
-/

namespace Aruco

/-! ## The codec and the dictionary -/

/-- Hamming weight look up table from 0 to 255 (`hammingWeightLUT`). -/
def hammingWeightLUT : List Nat := [
    0, 1, 1, 2, 1, 2, 2, 3, 1, 2, 2, 3, 2, 3, 3, 4, 1, 2, 2, 3, 2, 3, 3, 4, 2, 3, 3, 4, 3, 4, 4, 5,
    1, 2, 2, 3, 2, 3, 3, 4, 2, 3, 3, 4, 3, 4, 4, 5, 2, 3, 3, 4, 3, 4, 4, 5, 3, 4, 4, 5, 4, 5, 5, 6,
    1, 2, 2, 3, 2, 3, 3, 4, 2, 3, 3, 4, 3, 4, 4, 5, 2, 3, 3, 4, 3, 4, 4, 5, 3, 4, 4, 5, 4, 5, 5, 6,
    2, 3, 3, 4, 3, 4, 4, 5, 3, 4, 4, 5, 4, 5, 5, 6, 3, 4, 4, 5, 4, 5, 5, 6, 4, 5, 5, 6, 5, 6, 6, 7,
    1, 2, 2, 3, 2, 3, 3, 4, 2, 3, 3, 4, 3, 4, 4, 5, 2, 3, 3, 4, 3, 4, 4, 5, 3, 4, 4, 5, 4, 5, 5, 6,
    2, 3, 3, 4, 3, 4, 4, 5, 3, 4, 4, 5, 4, 5, 5, 6, 3, 4, 4, 5, 4, 5, 5, 6, 4, 5, 5, 6, 5, 6, 6, 7,
    2, 3, 3, 4, 3, 4, 4, 5, 3, 4, 4, 5, 4, 5, 5, 6, 3, 4, 4, 5, 4, 5, 5, 6, 4, 5, 5, 6, 5, 6, 6, 7,
    3, 4, 4, 5, 4, 5, 5, 6, 4, 5, 5, 6, 5, 6, 6, 7, 4, 5, 5, 6, 5, 6, 6, 7, 5, 6, 6, 7, 6, 7, 7, 8]

/-- Four bytes, one per rotation (`cv::Vec4b`). -/
structure Vec4b where
  v0 : Nat
  v1 : Nat
  v2 : Nat
  v3 : Nat
deriving DecidableEq, Repr, Inhabited

/-- Component `v[k]` of a `Vec4b`. -/
def Vec4b.get (v : Vec4b) (k : Nat) : Nat :=
  match k with
  | 0 => v.v0
  | 1 => v.v1
  | 2 => v.v2
  | _ => v.v3

/-- A `CV_8UC1` matrix: `at_ row col` is `at<unsigned char>(row, col)`. -/
structure Mat where
  rows : Nat
  cols : Nat
  at_ : Nat → Nat → Nat

/-- Number of elements, `Mat::total()`. -/
def Mat.total (m : Mat) : Nat := m.rows * m.cols

/-- Assignment `m.at<unsigned char>(row, col) = v`. -/
def Mat.set (m : Mat) (row col v : Nat) : Mat :=
  { m with at_ := fun r c => if r = row ∧ c = col then v else m.at_ r c }

/-- The matrix `Mat(rows, cols, CV_8UC1, Scalar::all(0))`. -/
def Mat.zeros (rows cols : Nat) : Mat := ⟨rows, cols, fun _ _ => 0⟩

/-- A matrix given by the list of its rows (cells outside the lists read 0). -/
def Mat.ofRows (n : Nat) (l : List (List Nat)) : Mat :=
  ⟨n, n, fun r c => (l.getD r []).getD c 0⟩

/-- The default-constructed, empty `Mat`. -/
def Mat.empty : Mat := ⟨0, 0, fun _ _ => 0⟩

/-- The expression `x << 1` stored back into an `unsigned char`. -/
def shl1 (x : Nat) : Nat := (x * 2) % 256

/-- The expression `x++` on an `unsigned char`. -/
def incr (x : Nat) : Nat := (x + 1) % 256

/-- Number of bytes of a codeword with `total` bits:
`nbytes = total / 8; if(total % 8 != 0) nbytes++`. -/
def nbytesOf (total : Nat) : Nat :=
  if total % 8 ≠ 0 then total / 8 + 1 else total / 8

/-- Loop state of `Dictionary::getByteListFromBits`. -/
structure ByteListState where
  candidateByteList : List Vec4b
  currentBit : Nat
  currentByte : Nat

/-- The update of the four bytes `candidateByteList.ptr< Vec4b >(0)[currentByte]` in the
inner loop of `Dictionary::getByteListFromBits` at `(row, col)`. The indices are those of
the source for a square matrix, where none of them is negative. -/
def shiftCell (bits : Mat) (v : Vec4b) (row col : Nat) : Vec4b :=
  -- circular shift
  let v : Vec4b := ⟨shl1 v.v0, shl1 v.v1, shl1 v.v2, shl1 v.v3⟩
  -- increment if bit is 1
  let v : Vec4b := if bits.at_ row col ≠ 0 then { v with v0 := incr v.v0 } else v
  let v : Vec4b :=
    if bits.at_ col (bits.cols - 1 - row) ≠ 0 then { v with v1 := incr v.v1 } else v
  let v : Vec4b :=
    if bits.at_ (bits.rows - 1 - row) (bits.cols - 1 - col) ≠ 0 then
      { v with v2 := incr v.v2 } else v
  if bits.at_ (bits.rows - 1 - col) row ≠ 0 then { v with v3 := incr v.v3 } else v

/-- Body of the inner loop of `Dictionary::getByteListFromBits` at `(row, col)`. -/
def byteListCell (bits : Mat) (s : ByteListState) (row col : Nat) : ByteListState :=
  let v := shiftCell bits (s.candidateByteList.getD s.currentByte default) row col
  let l := s.candidateByteList.set s.currentByte v
  let currentBit := incr s.currentBit
  if currentBit = 8 then
    -- next byte
    ⟨l, 0, s.currentByte + 1⟩
  else ⟨l, currentBit, s.currentByte⟩

/-- Transform matrix of bits to list of bytes in the 4 rotations
(`Dictionary::getByteListFromBits`). -/
def getByteListFromBits (bits : Mat) : List Vec4b :=
  let nbytes := nbytesOf (bits.cols * bits.rows)
  let init : ByteListState := ⟨List.replicate nbytes ⟨0, 0, 0, 0⟩, 0, 0⟩
  ((List.range bits.rows).foldl
    (fun s row => (List.range bits.cols).foldl (fun s col => byteListCell bits s row col) s)
    init).candidateByteList

/-- The table `base2List` of `Dictionary::getBitsFromByteList`. -/
def base2List : List Nat := [128, 64, 32, 16, 8, 4, 2, 1]

/-- Loop state of `Dictionary::getBitsFromByteList`. -/
structure BitsState where
  bits : Mat
  currentByteIdx : Nat
  currentByte : Nat
  currentBit : Nat

/-- Body of the inner loop of `Dictionary::getBitsFromByteList` at `(row, col)`. -/
def bitsCell (byteList : List Vec4b) (s : BitsState) (row col : Nat) : BitsState :=
  let w := base2List.getD s.currentBit 0
  let bits := if s.currentByte ≥ w then s.bits.set row col 1 else s.bits
  let currentByte := if s.currentByte ≥ w then s.currentByte - w else s.currentByte
  let currentBit := s.currentBit + 1
  if currentBit = 8 then
    let currentByteIdx := s.currentByteIdx + 1
    let currentByte := (byteList.getD currentByteIdx default).get 0
    -- if not enough bits for one more byte, we are in the end
    if 8 * (currentByteIdx + 1) > s.bits.total then
      ⟨bits, currentByteIdx, currentByte, 8 * (currentByteIdx + 1) - s.bits.total⟩
    else
      ⟨bits, currentByteIdx, currentByte, 0⟩
  else
    ⟨bits, s.currentByteIdx, currentByte, currentBit⟩

/-- Transform list of bytes to matrix of bits (`Dictionary::getBitsFromByteList`);
`none` when the `CV_Assert` on the length of the list fires. -/
def getBitsFromByteList (byteList : List Vec4b) (markerSize : Nat) : Option Mat :=
  if byteList.length > 0 ∧
      byteList.length ≥ (markerSize * markerSize) % 2 ^ 32 / 8 ∧
      byteList.length ≤ (markerSize * markerSize) % 2 ^ 32 / 8 + 1 then
    let init : BitsState :=
      ⟨Mat.zeros markerSize markerSize, 0, (byteList.getD 0 default).get 0, 0⟩
    some ((List.range markerSize).foldl
      (fun s row => (List.range markerSize).foldl (fun s col => bitsCell byteList s row col) s)
      init).bits
  else
    none

/-- The dictionary (`cv::aruco::Dictionary`): `bytesList` is the list of the
rows of the `CV_8UC4` matrix, one codeword per row. -/
structure Dictionary where
  bytesList : List (List Vec4b)
  markerSize : Nat
  maxCorrectionBits : Int

/-- Row `m` of the `bytesList` of a dictionary (`bytesList.ptr< Vec4b >(m)`). -/
def Dictionary.row (d : Dictionary) (m : Nat) : List Vec4b := d.bytesList.getD m []

/-- The innermost loop shared by `identify`, `getDistanceToId` and
`_getSelfDistance`: for each byte `b < total`, the XOR of `x b` and `y b` is
stored in an `unsigned char` and its weight, read from the table, is added. -/
def hammingSum (total : Nat) (x y : Nat → Nat) : Nat :=
  (List.range total).foldl
    (fun currentHamming b => currentHamming + hammingWeightLUT.getD ((x b ^^^ y b) % 256) 0) 0

/-- The byte `bytesList.ptr< Vec4b >(m)[b][r]` of a codeword row. -/
def rowByte (row : List Vec4b) (r : Nat) (b : Nat) : Nat := (row.getD b default).get r

/-- The loop over the rotations `r` of `Dictionary::identify` for the codeword
`row`: the pair `(currentMinDistance, currentRotation)` after the loop. -/
def identifyRotations (markerSize : Nat) (row candidateBytes : List Vec4b) : Int × Int :=
  (List.range 4).foldl
    (fun (p : Int × Int) r =>
      let currentHamming : Int :=
        hammingSum candidateBytes.length (rowByte row r) (rowByte candidateBytes 0)
      if currentHamming < p.1 then (currentHamming, (r : Int)) else p)
    ((markerSize * markerSize + 1 : Nat), -1)

/-- The search loop of `Dictionary::identify` over the rows still to visit,
with `m` the index of the first of them; the result is `(idx, rotation)`. -/
def identifySearch (markerSize : Nat) (candidateBytes : List Vec4b)
    (maxCorrectionRecalculed : Int) (rotation : Int) :
    List (List Vec4b) → Nat → Int × Int
  | [], _ => (-1, rotation)
  | row :: rest, m =>
    let p := identifyRotations markerSize row candidateBytes
    -- if maxCorrection is fullfilled, return this one
    if p.1 ≤ maxCorrectionRecalculed then ((m : Int), p.2)
    else identifySearch markerSize candidateBytes maxCorrectionRecalculed rotation rest (m + 1)

/-- The function `Dictionary::identify`. The budget
`maxCorrectionRecalculed = int(double(maxCorrectionBits) * maxCorrectionRate)`
is a parameter, and so is the value `rotation` holds on entry. The result is
`none` when the `CV_Assert` fires, else `(return value, idx, rotation)`. -/
def Dictionary.identify (d : Dictionary) (onlyBits : Mat) (rotation : Int)
    (maxCorrectionRecalculed : Int) : Option (Bool × Int × Int) :=
  if onlyBits.rows = d.markerSize ∧ onlyBits.cols = d.markerSize then
    let candidateBytes := getByteListFromBits onlyBits
    let p := identifySearch d.markerSize candidateBytes maxCorrectionRecalculed rotation
      d.bytesList 0
    some (decide (p.1 ≠ -1), p.1, p.2)
  else
    none

/-- Conversion of a `size_t` value to `int` (two's complement, 32 bits). -/
def toInt32 (x : Nat) : Int :=
  if x % 2 ^ 32 < 2 ^ 31 then ((x % 2 ^ 32 : Nat) : Int) else ((x % 2 ^ 32 : Nat) : Int) - 2 ^ 32

/-- The function `Dictionary::getDistanceToId`; `none` when the `CV_Assert` on
`id` fires. -/
def Dictionary.getDistanceToId (d : Dictionary) (bits : Mat) (id : Int)
    (allRotations : Bool) : Option Int :=
  if id ≥ 0 ∧ id < d.bytesList.length then
    let nRotations := if !allRotations then 1 else 4
    let candidateBytes := getByteListFromBits bits
    let row := d.row id.toNat
    some ((List.range nRotations).foldl
      (fun (currentMinDistance : Int) r =>
        let currentHamming : Int :=
          hammingSum candidateBytes.length (rowByte row r) (rowByte candidateBytes 0)
        if currentHamming < currentMinDistance then currentHamming else currentMinDistance)
      (toInt32 ((bits.total * bits.total) % 2 ^ 64)))
  else
    none

/-! ## The generator -/

/-- Generates a random marker Mat of size markerSize x markerSize
(`_generateRandomMarker`): cell `(i, j)` receives `rand() % 2`, where `rnd k` is the value
returned by the `k`-th call of `rand()` made for this marker. -/
def generateRandomMarker (markerSize : Nat) (rnd : Nat → Nat) : Mat :=
  ⟨markerSize, markerSize,
    fun i j => if i < markerSize ∧ j < markerSize then rnd (i * markerSize + j) % 2 else 0⟩

/-- The markers drawn by the main loop: `rand t` holds the values of `rand()` used by the
call of `_generateRandomMarker` in iteration `t`. -/
def drawn (markerSize : Nat) (rand : Nat → Nat → Nat) : Nat → Mat :=
  fun t => generateRandomMarker markerSize (rand t)

/-- Calculate selfDistance of the codification of a marker Mat (`_getSelfDistance`):
the Hamming distance of the marker to itself in the other rotations. -/
def getSelfDistance (marker : Mat) : Int :=
  let bytes := getByteListFromBits marker
  [1, 2, 3].foldl
    (fun (minHamming : Int) i =>
      let currentHamming : Int := hammingSum bytes.length (rowByte bytes 0) (rowByte bytes i)
      if currentHamming < minHamming then currentHamming else minHamming)
    ((marker.total : Int) + 1)

/-- The loop `for(int j = i + 1; j < out.bytesList.rows; j++)` of the seeding of `tau`
from the base dictionary, over the indices `j` still to visit. -/
def baseInner (out : Dictionary) (markerBits : Mat) : List Nat → Int → Option Int
  | [], minDistance => some minDistance
  | j :: rest, minDistance =>
    (out.getDistanceToId markerBits (j : Int) true).bind fun dist =>
      baseInner out markerBits rest (min minDistance dist)

/-- The loop `for(int i = 0; i < out.bytesList.rows; i++)` of the seeding of `tau` from the
base dictionary, over the indices `i` still to visit. -/
def baseOuter (out : Dictionary) : List Nat → Int → Option Int
  | [], minDistance => some minDistance
  | i :: rest, minDistance =>
    (getBitsFromByteList (out.row i) out.markerSize).bind fun markerBits =>
      (baseInner out markerBits (List.range' (i + 1) (out.bytesList.length - (i + 1)))
        (min minDistance (getSelfDistance markerBits))).bind fun minDistance =>
          baseOuter out rest minDistance

/-- The variables of the main loop of `generateCustomDictionary`. -/
structure GenState where
  out : Dictionary
  tau : Int
  bestTau : Int
  bestMarker : Mat
  unproductiveIterations : Int

/-- The constant `maxUnproductiveIterations`. -/
def maxUnproductiveIterations : Int := 5000

/-- The loop over the accepted markers in the main loop of `generateCustomDictionary`,
over the indices `i` still to visit; it is left once `minDistance <= bestTau`. -/
def scanDistances (out : Dictionary) (currentMarker : Mat) (bestTau : Int) :
    List Nat → Int → Option Int
  | [], minDistance => some minDistance
  | i :: rest, minDistance =>
    (out.getDistanceToId currentMarker (i : Int) true).bind fun currentDistance =>
      if min currentDistance minDistance ≤ bestTau then some (min currentDistance minDistance)
      else scanDistances out currentMarker bestTau rest (min currentDistance minDistance)

/-- The call `out.bytesList.push_back(bytes)`: one row is appended. This is `Mat::push_back`
of the OpenCV core for a row with the number of byte positions of the rows of
`out.bytesList`, or pushed on an empty `out.bytesList`; a row of another length, such as the
encoding of an empty `Mat`, is appended all the same here. -/
def pushBack (out : Dictionary) (bytes : List Vec4b) : Dictionary :=
  { out with bytesList := out.bytesList ++ [bytes] }

/-- The value of `minDistance` when the acceptance test of the main loop is reached. -/
def candidateDistance (s : GenState) (currentMarker : Mat) : Option Int :=
  let selfDistance := getSelfDistance currentMarker
  -- if self distance is better or equal than current best option, calculate distance
  -- to previous accepted markers
  if selfDistance ≥ s.bestTau then
    scanDistances s.out currentMarker s.bestTau (List.range s.out.bytesList.length) selfDistance
  else
    some selfDistance

/-- One iteration of the main loop of `generateCustomDictionary`, `currentMarker` being the
marker returned by `_generateRandomMarker`. -/
def generateStep (s : GenState) (currentMarker : Mat) : Option GenState :=
  (candidateDistance s currentMarker).bind fun minDistance =>
    -- if distance is high enough, accept the marker
    if minDistance ≥ s.tau then
      some { s with
        unproductiveIterations := 0
        bestTau := 0
        out := pushBack s.out (getByteListFromBits currentMarker) }
    else
      let unproductiveIterations := s.unproductiveIterations + 1
      -- if distance is not enough, but is better than the current best option
      let bestTau := if minDistance > s.bestTau then minDistance else s.bestTau
      let bestMarker := if minDistance > s.bestTau then currentMarker else s.bestMarker
      -- if number of unproductive iterarions has been reached, accept the current best option
      if unproductiveIterations = maxUnproductiveIterations then
        some { out := pushBack s.out (getByteListFromBits bestMarker)
               tau := bestTau
               bestTau := 0
               bestMarker := bestMarker
               unproductiveIterations := 0 }
      else
        some { s with
          unproductiveIterations := unproductiveIterations
          bestTau := bestTau
          bestMarker := bestMarker }

/-- The main loop `while(out.bytesList.rows < nMarkers)`: `draw t` is the marker drawn in
iteration `t`, and `fuel` bounds the number of iterations (`none` when it runs out, or when
an assertion fires). -/
def generateLoop (nMarkers : Int) (draw : Nat → Mat) : Nat → Nat → GenState → Option GenState
  | 0, _, _ => none
  | fuel + 1, t, s =>
    if (s.out.bytesList.length : Int) < nMarkers then
      (generateStep s (draw t)).bind (generateLoop nMarkers draw fuel (t + 1))
    else
      some s

/-- The part of `generateCustomDictionary` before the main loop: the variables on entry to
the loop. The theoretical maximum `tau` is computed in `float` arithmetic in the source,
here with the integer quotients, equal to it for `markerSize ≤ 4096`. -/
def generateInit (markerSize : Nat) (baseDictionary : Dictionary) : Option GenState :=
  let C := markerSize * markerSize / 4
  let tau : Int := ((2 * (C * 4 / 3) : Nat) : Int)
  -- if baseDictionary is provided, calculate its intermarker distance
  if baseDictionary.bytesList.length > 0 then
    if baseDictionary.markerSize = markerSize then
      let out : Dictionary := ⟨baseDictionary.bytesList, markerSize, 0⟩
      (baseOuter out (List.range out.bytesList.length)
        ((markerSize * markerSize + 1 : Nat) : Int)).map fun minDistance =>
          ⟨out, minDistance, 0, Mat.empty, 0⟩
    else
      none
  else
    some ⟨⟨[], markerSize, 0⟩, tau, 0, Mat.empty, 0⟩

/-- The variables of `generateCustomDictionary` when its main loop is left. -/
def generateFinal (fuel : Nat) (nMarkers : Int) (markerSize : Nat) (baseDictionary : Dictionary)
    (rand : Nat → Nat → Nat) : Option GenState :=
  (generateInit markerSize baseDictionary).bind
    (generateLoop nMarkers (drawn markerSize rand) fuel 0)

/-- The function `generateCustomDictionary`: the dictionary returned, `rand` being the
values returned by `rand()`; the correction bits are `(tau - 1) / 2` in `int` arithmetic. -/
def generateCustomDictionary (fuel : Nat) (nMarkers : Int) (markerSize : Nat)
    (baseDictionary : Dictionary) (rand : Nat → Nat → Nat) : Option Dictionary :=
  (generateFinal fuel nMarkers markerSize baseDictionary rand).map fun s =>
    { s.out with maxCorrectionBits := Int.tdiv (s.tau - 1) 2 }

/-- The state at the start of iteration `t` of the main loop entered in state `s0`, when the
loop runs that far. -/
def generateTrace (nMarkers : Int) (draw : Nat → Mat) (s0 : GenState) : Nat → Option GenState
  | 0 => some s0
  | t + 1 =>
    (generateTrace nMarkers draw s0 t).bind fun s =>
      if (s.out.bytesList.length : Int) < nMarkers then generateStep s (draw t) else none

/-! ## Notions used to state the theorems -/

/-- Value of a list of bits read most significant bit first. -/
def packByte (l : List Bool) : Nat := l.foldl (fun a b => 2 * a + b.toNat) 0

/-- The bits `f lo, f (lo+1), ..., f (lo+len-1)`. -/
def chunk (f : Nat → Bool) (lo len : Nat) : List Bool := (List.range len).map (fun t => f (lo + t))

/-- Whether the cell read for rotation `k` at `(row, col)` is set. -/
def rotBit (bits : Mat) (k row col : Nat) : Bool :=
  match k with
  | 0 => decide (bits.at_ row col ≠ 0)
  | 1 => decide (bits.at_ col (bits.cols - 1 - row) ≠ 0)
  | 2 => decide (bits.at_ (bits.rows - 1 - row) (bits.cols - 1 - col) ≠ 0)
  | _ => decide (bits.at_ (bits.rows - 1 - col) row ≠ 0)

/-- The `i`-th bit, in row-major order, of the rotation-`k` stream of `bits`. -/
def cellBit (bits : Mat) (k i : Nat) : Bool := rotBit bits k (i / bits.cols) (i % bits.cols)

/-- The state of the encoder after the first `i` cells. -/
def encodeState (bits : Mat) (i : Nat) : ByteListState :=
  (List.range i).foldl (fun s i => byteListCell bits s (i / bits.cols) (i % bits.cols))
    ⟨List.replicate (nbytesOf (bits.cols * bits.rows)) ⟨0, 0, 0, 0⟩, 0, 0⟩

/-- The state of the decoder after the first `i` cells. -/
def decodeState (byteList : List Vec4b) (n i : Nat) : BitsState :=
  (List.range i).foldl (fun s i => bitsCell byteList s (i / n) (i % n))
    ⟨Mat.zeros n n, 0, (byteList.getD 0 default).get 0, 0⟩

/-- A matrix whose cells are all `0` or `1`. -/
def IsBitMat (n : Nat) (M : Mat) : Prop := ∀ r, r < n → ∀ c, c < n → M.at_ r c ≤ 1

instance (n : Nat) (M : Mat) : Decidable (IsBitMat n M) := by
  unfold IsBitMat
  infer_instance

/-- The number of positions `i < N` at which two streams of bits differ. -/
def streamDiff (f g : Nat → Bool) (N : Nat) : Nat :=
  ∑ i ∈ Finset.range N, (f i != g i).toNat

/-- The matrix rotated by 90 degrees: `R(row, col) = M(col, n-1-row)`. -/
def rot90 (n : Nat) (M : Mat) : Mat := ⟨n, n, fun row col => M.at_ col (n - 1 - row)⟩

/-- The number of cells `(row, col)` of two `n × n` matrices at which they differ. -/
def countDiff (n : Nat) (X M : Mat) : Nat :=
  ((Finset.range n ×ˢ Finset.range n).filter (fun p => X.at_ p.1 p.2 ≠ M.at_ p.1 p.2)).card

/-- The number of bits set among the `k` low-order bits of `x`. -/
def popcountAux : Nat → Nat → Nat
  | 0, _ => 0
  | k + 1, x => x % 2 + popcountAux k (x / 2)

/-- The bit count of a byte. -/
def bitCount (x : Nat) : Nat := popcountAux 8 x

/-- The rotation-`r` bytes of a codeword. -/
def rotationBytes (row : List Vec4b) (r : Nat) : List Nat := row.map (fun v => v.get r)

/-- The Hamming distance of two lists of bytes: the sum of the bit counts of the
byte-wise XOR. -/
def hammingDistance (a b : List Nat) : Nat :=
  (List.zipWith (fun x y => bitCount (x ^^^ y)) a b).sum

/-- The Hamming distance between the rotation-`r` bytes of `row` and the rotation-0
bytes of `cand`. -/
def rotDistance (row cand : List Vec4b) (r : Nat) : Nat :=
  hammingDistance (rotationBytes row r) (rotationBytes cand 0)

/-- The minimum over the rotations `r = 0..3` of `rotDistance row cand r`. -/
def minRotDistance (row cand : List Vec4b) : Nat :=
  min (min (min (rotDistance row cand 0) (rotDistance row cand 1)) (rotDistance row cand 2))
    (rotDistance row cand 3)

/-- The self-distance of a codeword: the minimum Hamming distance between its rotation-0
bytes and its rotation-1, 2 and 3 bytes. -/
def selfDistanceOfRow (row : List Vec4b) : Nat :=
  min (min (hammingDistance (rotationBytes row 0) (rotationBytes row 1))
    (hammingDistance (rotationBytes row 0) (rotationBytes row 2)))
    (hammingDistance (rotationBytes row 0) (rotationBytes row 3))

/-- Row `j` of `rows` is separated by at least `tau` from itself rotated and from every
earlier row, in all rotations. -/
def SeparatedAt (rows : List (List Vec4b)) (j : Nat) (tau : Int) : Prop :=
  tau ≤ (selfDistanceOfRow (rows.getD j []) : Int) ∧
    ∀ i, i < j → tau ≤ (minRotDistance (rows.getD i []) (rows.getD j []) : Int)

/-- A codebook all of whose rows have the number of bytes of its marker size. -/
def WellSized (d : Dictionary) : Prop :=
  ∀ m, m < d.bytesList.length → (d.row m).length = nbytesOf (d.markerSize * d.markerSize)

/-- The budget is at most the number of cells, or every row is at most that far from the
candidate: the cases in which `markerSize * markerSize + 1` bounds every distance of use. -/
def InRange (d : Dictionary) (cand : List Vec4b) (b : Int) : Prop :=
  b ≤ ((d.markerSize * d.markerSize : Nat) : Int) ∨
    ∀ m, m < d.bytesList.length → minRotDistance (d.row m) cand ≤ d.markerSize * d.markerSize

instance (d : Dictionary) : Decidable (WellSized d) := by
  unfold WellSized
  infer_instance

instance (d : Dictionary) (cand : List Vec4b) (b : Int) : Decidable (InRange d cand b) := by
  unfold InRange
  infer_instance

/-- Two matrices whose cells are non-zero at the same places. -/
def SameBits (n : Nat) (D M : Mat) : Prop :=
  ∀ r c, r < n → c < n → (D.at_ r c ≠ 0 ↔ M.at_ r c ≠ 0)

/-- The initial value `int(bits.total() * bits.total())` of `getDistanceToId`. -/
def distanceInit (bits : Mat) : Int := toInt32 ((bits.total * bits.total) % 2 ^ 64)

/-- The `3 × 3` marker with the single bit `(0, 0)` set. -/
def markerA : Mat := Mat.ofRows 3 [[1, 0, 0], [0, 0, 0], [0, 0, 0]]

/-- The `3 × 3` marker with the bits `(0, 0)` and `(0, 1)` set. -/
def markerB : Mat := Mat.ofRows 3 [[1, 1, 0], [0, 0, 0], [0, 0, 0]]

/-- The dictionary of the two markers `markerA` and `markerB`. -/
def twoRows : Dictionary := ⟨[getByteListFromBits markerA, getByteListFromBits markerB], 3, 1⟩

/-- A dictionary of `1 × 1` markers whose only row has all the bits of its byte set. -/
def fullByteDictionary : Dictionary := ⟨[[⟨255, 255, 255, 255⟩]], 1, 2⟩

/-- The dictionary whose only codeword is the all-zero `216 × 216` marker. -/
def largeDictionary : Dictionary := ⟨[getByteListFromBits (Mat.zeros 216 216)], 216, 0⟩

/-- The matrix rotated `k` times by 90 degrees. -/
def rotK (n : Nat) (M : Mat) : Nat → Mat
  | 0 => M
  | k + 1 => rot90 n (rotK n M k)

/-- The dictionary whose only codeword is the all-zero `3 × 3` marker. -/
def zeroDictionary : Dictionary := ⟨[getByteListFromBits (Mat.zeros 3 3)], 3, 0⟩

/-- Every row has the number of bytes of an `n × n` marker. -/
def RowsSized (n : Nat) (rows : List (List Vec4b)) : Prop :=
  ∀ m, m < rows.length → (rows.getD m []).length = nbytesOf (n * n)

/-- Invariant of the main loop of the generator, for markers of side `n` and a base
dictionary of `c0` rows. -/
structure GenInv (n c0 : Nat) (s : GenState) : Prop where
  sized : s.tau ≤ 0 ∨ RowsSized n s.out.bytesList
  separated : ∀ j, c0 ≤ j → j < s.out.bytesList.length → SeparatedAt s.out.bytesList j s.tau
  best_nonneg : 0 ≤ s.bestTau
  best : 0 < s.bestTau → s.bestTau < s.tau ∧ s.bestMarker.rows = n ∧ s.bestMarker.cols = n ∧
    s.bestTau ≤ (selfDistanceOfRow (getByteListFromBits s.bestMarker) : Int) ∧
    ∀ i, i < s.out.bytesList.length →
      s.bestTau ≤ (minRotDistance (s.out.row i) (getByteListFromBits s.bestMarker) : Int)

/-- The dictionary without rows. -/
def emptyDictionary : Dictionary := ⟨[], 0, 0⟩

/-- The state on entry to the main loop for markers of side 3 and no base dictionary. -/
def entryState3 : GenState := ⟨⟨[], 3, 0⟩, 4, 0, Mat.empty, 0⟩

/-- Values of `rand()` that draw the `3 × 3` marker with the single bit `(0, 0)` set. -/
def randA : Nat → Nat := fun k => if k = 0 then 1 else 0

/-- Values of `rand()` that draw the `3 × 3` marker with the bits `(0, 0)`, `(0, 1)` set. -/
def randB : Nat → Nat := fun k => if k ≤ 1 then 1 else 0

/-- The marker drawn from `randA`. -/
def drawnA : Mat := generateRandomMarker 3 randA

/-- The marker drawn from `randB`. -/
def drawnB : Mat := generateRandomMarker 3 randB

/-- The state once `drawnB` has been accepted as the first codeword. -/
def acceptedB : GenState :=
  ⟨pushBack ⟨[], 3, 0⟩ (getByteListFromBits drawnB), 4, 0, Mat.empty, 0⟩

/-- Every row is the encoding of some `n × n` matrix. -/
def EncodedRows (n : Nat) (rows : List (List Vec4b)) : Prop :=
  ∀ m, m < rows.length →
    ∃ M : Mat, M.rows = n ∧ M.cols = n ∧ rows.getD m [] = getByteListFromBits M

/-- Values of `rand()` that draw the `3 × 3` marker with the first row and the centre set. -/
def randC : Nat → Nat := fun k => if k ≤ 2 ∨ k = 4 then 1 else 0

/-- The marker drawn from `randC`. -/
def drawnC : Mat := generateRandomMarker 3 randC

/-- The state when the generator seeded with `twoRows` has accepted `drawnC`. -/
def acceptedC : GenState :=
  ⟨pushBack ⟨twoRows.bytesList, 3, 0⟩ (getByteListFromBits drawnC), 1, 0, Mat.empty, 0⟩

/-- The values of `rand()` in the run of the counterexample: they draw `drawnB` first,
then `drawnA` for ever. -/
def randBA : Nat → Nat → Nat := fun t => if t = 0 then randB else randA

/-- The state after `u` unproductive iterations on `drawnA`, once `drawnB` is accepted. -/
def streakA (u : Int) : GenState := ⟨acceptedB.out, 4, 1, drawnA, u⟩

/-- The state once `drawnA` has been accepted by force, with `tau` lowered to 1. -/
def forcedA : GenState :=
  ⟨pushBack acceptedB.out (getByteListFromBits drawnA), 1, 0, drawnA, 0⟩

/-- The `3 × 3` matrix whose cells are all `1`. -/
def markerOnes : Mat := Mat.ofRows 3 [[1, 1, 1], [1, 1, 1], [1, 1, 1]]

/-- The constructor `Dictionary::Dictionary(bytes, _markerSize, dictsize, _maxcorr)`:
`bytesList.at< Vec4b >(i, j)[k] = bytes[i * (4 * nbytes) + k * nbytes + j]`. The array
`bytes` is a list of `unsigned char`, read as 0 outside its extent. -/
def Dictionary.Dictionary (bytes : List Nat) (_markerSize dictsize : Nat) (_maxcorr : Int) :
    Dictionary :=
  let nbytes := nbytesOf (_markerSize * _markerSize)
  { markerSize := _markerSize
    maxCorrectionBits := _maxcorr
    bytesList := (List.range dictsize).map fun i => (List.range nbytes).map fun j =>
      ⟨bytes.getD (i * (4 * nbytes) + 0 * nbytes + j) 0,
       bytes.getD (i * (4 * nbytes) + 1 * nbytes + j) 0,
       bytes.getD (i * (4 * nbytes) + 2 * nbytes + j) 0,
       bytes.getD (i * (4 * nbytes) + 3 * nbytes + j) 0⟩ }

/-- A forced acceptance in the iteration that starts in state `s` and draws `currentMarker`:
the distance found for the marker is below `tau` and the counter of unproductive iterations
reaches `maxUnproductiveIterations`. -/
def ForcedAcceptance (s : GenState) (currentMarker : Mat) : Prop :=
  ∃ minDistance, candidateDistance s currentMarker = some minDistance ∧ minDistance < s.tau ∧
    s.unproductiveIterations + 1 = maxUnproductiveIterations

/-- The best option kept by the main loop is below `tau` when it is set. -/
def BestBelowTau (s : GenState) : Prop :=
  0 ≤ s.bestTau ∧ (0 < s.bestTau → s.bestTau < s.tau)

/-- The values of `rand()` in the run for C18: they draw `drawnB` in iteration 0, `drawnA` in
iterations 1 to 5000 and `drawnB` from then on. -/
def randBAB : Nat → Nat → Nat :=
  fun t => if t = 0 then randB else if t ≤ 5000 then randA else randB

/-- The state after `u` unproductive iterations on `drawnB`, once `drawnA` has been accepted
by force: the best option still holds `drawnA`. -/
def streakB (u : Nat) : GenState := ⟨forcedA.out, 1, 0, drawnA, (u : Int)⟩

/-- The state after the second forced acceptance: the row appended is the encoding of
`drawnA` again. -/
def forcedStale : GenState :=
  ⟨pushBack forcedA.out (getByteListFromBits drawnA), 0, 0, drawnA, 0⟩

/-- The states of iterations 1 to 5000 of the run. -/
def phaseA (j : Nat) : GenState := if j = 0 then acceptedB else streakA (j : Int)

/-- The marker of side 216 drawn when `rand()` returns `randA`: the cell `(0, 0)` is set and
no other. -/
def drawnWide : Mat := generateRandomMarker 216 randA

/-- The variables on entry to the main loop for markers of side 216 and no base codebook:
`tau = 2 * floor(floor(216² / 4) * 4 / 3) = 31104`. -/
def entryWide : GenState := ⟨⟨[], 216, 0⟩, 31104, 0, Mat.empty, 0⟩

/-- The states of iterations 0 to 4999 of the run for C14: after the first iteration the
best option is `drawnWide`, at distance 2. -/
def wideFirst (j : Nat) : GenState :=
  if j = 0 then entryWide else ⟨⟨[], 216, 0⟩, 31104, 2, drawnWide, (j : Int)⟩

/-- The state after the first forced acceptance: `tau = 2`. -/
def wideForced1 : GenState :=
  ⟨pushBack ⟨[], 216, 0⟩ (getByteListFromBits drawnWide), 2, 0, drawnWide, 0⟩

/-- The states of iterations 5000 to 9999: `j` unproductive iterations after the first
forced acceptance. -/
def wideSecond (j : Nat) : GenState := ⟨wideForced1.out, 2, 0, drawnWide, (j : Int)⟩

/-- The state after the second forced acceptance: `tau = 0`. -/
def wideForced2 : GenState :=
  ⟨pushBack wideForced1.out (getByteListFromBits drawnWide), 0, 0, drawnWide, 0⟩

/-- The states of iterations 10000 to 14999: `j` unproductive iterations after the second
forced acceptance. -/
def wideThird (j : Nat) : GenState := ⟨wideForced2.out, 0, 0, drawnWide, (j : Int)⟩

/-- The state after the third forced acceptance: `tau = 0` still. -/
def wideForced3 : GenState :=
  ⟨pushBack wideForced2.out (getByteListFromBits drawnWide), 0, 0, drawnWide, 0⟩

/-- The achieved distance `d` of the marker `c` against the codebook `out`: the minimum of its
self-distance and of its all-rotation distances to the codewords of `out`. -/
def AchievedDistance (out : Dictionary) (c : Mat) (d : Int) : Prop :=
  d ≤ getSelfDistance c ∧
  (∀ i, i < out.bytesList.length →
    ∃ cd, out.getDistanceToId c (i : Int) true = some cd ∧ d ≤ cd) ∧
  (d = getSelfDistance c ∨
    ∃ i, i < out.bytesList.length ∧ out.getDistanceToId c (i : Int) true = some d)

/-- The streak of the state `s` at the start of iteration `t`: the `k` iterations since the
last acceptance (or since the start of the loop) were unproductive, they began in a state
with the codebook of `s`, and the best option, when there is one, is a marker drawn in one of
them, kept with its achieved distance against this codebook. -/
def StreakInv (nMarkers : Int) (draw : Nat → Mat) (s0 : GenState) (t : Nat) (s : GenState) :
    Prop :=
  ∃ k : Nat, k ≤ t ∧ s.unproductiveIterations = (k : Int) ∧
    (∃ sb, generateTrace nMarkers draw s0 (t - k) = some sb ∧ sb.out = s.out) ∧
    (t - k = 0 ∨ ∃ sp, generateTrace nMarkers draw s0 (t - k - 1) = some sp ∧
      s.out.bytesList.length = sp.out.bytesList.length + 1) ∧
    0 ≤ s.bestTau ∧
    (0 < s.bestTau → ∃ t', t - k ≤ t' ∧ t' < t ∧ s.bestMarker = draw t' ∧
      AchievedDistance s.out (draw t') s.bestTau)

/-- The minimum over the rotations `r = 0..3` of the Hamming distance between the rotation-0
bytes of `a` and the rotation-`r` bytes of `b`. -/
def allRotationDistance (a b : List Vec4b) : Nat :=
  min (min (min (hammingDistance (rotationBytes a 0) (rotationBytes b 0))
    (hammingDistance (rotationBytes a 0) (rotationBytes b 1)))
    (hammingDistance (rotationBytes a 0) (rotationBytes b 2)))
    (hammingDistance (rotationBytes a 0) (rotationBytes b 3))

/-- The indices read by `Dictionary::getBitsFromByteList`, in the order of the reads:
`byteIdx` holds the index `i` of each read `byteList.ptr< Vec4b >(0)[i]`, and `base2Idx` the
index `currentBit` of the entry `base2List[currentBit]` read for each cell. -/
structure DecodeReads where
  byteIdx : List Nat
  base2Idx : List Nat
deriving DecidableEq, Repr

/-- The reads of the body of the inner loop of `Dictionary::getBitsFromByteList`, entered in
state `s`: `base2List[currentBit]` for the test of the cell, and
`byteList.ptr< Vec4b >(0)[currentByteIdx]` after `currentByteIdx++` when `currentBit`
reaches 8. -/
def bitsCellReads (s : BitsState) (reads : DecodeReads) : DecodeReads :=
  let base2Idx := reads.base2Idx ++ [s.currentBit]
  if s.currentBit + 1 = 8 then
    ⟨reads.byteIdx ++ [s.currentByteIdx + 1], base2Idx⟩
  else
    ⟨reads.byteIdx, base2Idx⟩

/-- The function `Dictionary::getBitsFromByteList` with the record of its reads: the matrix
returned and the indices read, the first of them by
`currentByte = byteList.ptr< Vec4b >(0)[0][0]` before the loops; `none` when the `CV_Assert`
fires. -/
def getBitsFromByteListReads (byteList : List Vec4b) (markerSize : Nat) :
    Option (Mat × DecodeReads) :=
  if byteList.length > 0 ∧
      byteList.length ≥ (markerSize * markerSize) % 2 ^ 32 / 8 ∧
      byteList.length ≤ (markerSize * markerSize) % 2 ^ 32 / 8 + 1 then
    let init : BitsState × DecodeReads :=
      (⟨Mat.zeros markerSize markerSize, 0, (byteList.getD 0 default).get 0, 0⟩, ⟨[0], []⟩)
    let final := (List.range markerSize).foldl
      (fun p row => (List.range markerSize).foldl
        (fun p col => (bitsCell byteList p.1 row col, bitsCellReads p.1 p.2)) p)
      init
    some (final.1.bits, final.2)
  else
    none

/-- The state of the decoder and its reads after the first `i` cells. -/
def decodeReads (byteList : List Vec4b) (n i : Nat) : BitsState × DecodeReads :=
  (List.range i).foldl
    (fun p i => (bitsCell byteList p.1 (i / n) (i % n), bitsCellReads p.1 p.2))
    (⟨Mat.zeros n n, 0, (byteList.getD 0 default).get 0, 0⟩, ⟨[0], []⟩)

/-- The state after `u` unproductive iterations on `drawnB`, once `drawnB` has been accepted
as the first codeword: no marker has become the best option, and `bestMarker` is the empty
`Mat` it was declared as. -/
def streakEmpty (u : Nat) : GenState := ⟨acceptedB.out, 4, 0, Mat.empty, (u : Int)⟩

/-! # Theorems -/

/-! ## Loops over the cells in row-major order -/

theorem foldl_range_shift {σ : Type} (g : σ → Nat → σ) (a m : Nat) (init : σ) :
    (List.range (a + m)).foldl g init
      = (List.range m).foldl (fun s c => g s (a + c)) ((List.range a).foldl g init) := by
  rw [List.range_add, List.foldl_append, List.foldl_map]

theorem foldl_range_nested {σ : Type} (f : σ → Nat → Nat → σ) (n m : Nat) (init : σ) :
    (List.range n).foldl (fun s row => (List.range m).foldl (fun s col => f s row col) s) init
      = (List.range (n * m)).foldl (fun s i => f s (i / m) (i % m)) init := by
  induction n with
  | zero => simp
  | succ n ih =>
    rw [List.range_succ, List.foldl_append, ih, Nat.succ_mul, foldl_range_shift]
    simp only [List.foldl_cons, List.foldl_nil]
    apply List.foldl_ext
    intro s c hc
    have hc' : c < m := List.mem_range.mp hc
    have hm : 0 < m := by omega
    have h1 : (n * m + c) / m = n := by
      rw [Nat.mul_comm, Nat.mul_add_div hm, Nat.div_eq_of_lt hc']; rfl
    have h2 : (n * m + c) % m = c := by
      rw [Nat.mul_comm, Nat.mul_add_mod, Nat.mod_eq_of_lt hc']
    rw [h1, h2]

/-! ## Packed bytes -/

theorem packByte_snoc (l : List Bool) (b : Bool) :
    packByte (l ++ [b]) = 2 * packByte l + b.toNat := by
  simp [packByte, List.foldl_append]

theorem chunk_succ (f : Nat → Bool) (lo len : Nat) :
    chunk f lo (len + 1) = chunk f lo len ++ [f (lo + len)] := by
  simp [chunk, List.range_succ]

theorem chunk_length (f : Nat → Bool) (lo len : Nat) : (chunk f lo len).length = len := by
  simp [chunk]

theorem packByte_lt (l : List Bool) : packByte l < 2 ^ l.length := by
  induction l using List.reverseRecOn with
  | nil => simp [packByte]
  | append_singleton l b ih =>
    rw [packByte_snoc, List.length_append, List.length_singleton, pow_succ]
    cases b <;> simp <;> omega

theorem packByte_chunk_lt (f : Nat → Bool) (lo len : Nat) : packByte (chunk f lo len) < 2 ^ len := by
  have := packByte_lt (chunk f lo len)
  rwa [chunk_length] at this

theorem chunk_zero (f : Nat → Bool) (lo : Nat) : chunk f lo 0 = [] := rfl

/-- Most significant bit first: the first bit of a chunk carries the highest weight. -/
theorem packByte_chunk_head (f : Nat → Bool) (lo len : Nat) :
    packByte (chunk f lo (len + 1))
      = (f lo).toNat * 2 ^ len + packByte (chunk f (lo + 1) len) := by
  induction len with
  | zero => simp [chunk, packByte, List.range_succ]
  | succ len ih =>
    rw [chunk_succ, packByte_snoc, ih, chunk_succ, packByte_snoc, pow_succ]
    have : lo + 1 + len = lo + (len + 1) := by omega
    rw [this]
    ring

/-! ## The encoder -/

theorem shiftCell_get (bits : Mat) (v : Vec4b) (row col k : Nat) (hk : k < 4) :
    (shiftCell bits v row col).get k =
      if rotBit bits k row col then incr (shl1 (v.get k)) else shl1 (v.get k) := by
  interval_cases k <;> simp only [shiftCell, rotBit, Vec4b.get, decide_eq_true_eq] <;>
    split_ifs <;> rfl

theorem byteListCell_list (bits : Mat) (s : ByteListState) (row col : Nat) :
    (byteListCell bits s row col).candidateByteList
      = s.candidateByteList.set s.currentByte
          (shiftCell bits (s.candidateByteList.getD s.currentByte default) row col) := by
  unfold byteListCell
  simp only []
  split_ifs <;> rfl

theorem byteListCell_bit (bits : Mat) (s : ByteListState) (row col : Nat) :
    (byteListCell bits s row col).currentBit
      = if incr s.currentBit = 8 then 0 else incr s.currentBit := by
  unfold byteListCell
  simp only []
  split_ifs <;> rfl

theorem byteListCell_byte (bits : Mat) (s : ByteListState) (row col : Nat) :
    (byteListCell bits s row col).currentByte
      = if incr s.currentBit = 8 then s.currentByte + 1 else s.currentByte := by
  unfold byteListCell
  simp only []
  split_ifs <;> rfl

theorem rowByte_set (l : List Vec4b) (i : Nat) (v : Vec4b) (k j : Nat) (hi : i < l.length) :
    rowByte (l.set i v) k j = if j = i then v.get k else rowByte l k j := by
  unfold rowByte
  by_cases hj : j = i
  · subst hj
    rw [if_pos rfl, List.getD_eq_getElem _ _ (by simpa using hi), List.getElem_set]
    simp
  · rw [if_neg hj]
    by_cases hl : j < l.length
    · rw [List.getD_eq_getElem _ _ (by simpa using hl), List.getD_eq_getElem _ _ hl,
        List.getElem_set, if_neg (Ne.symm hj)]
    · rw [List.getD_eq_default _ _ (by simp; omega), List.getD_eq_default _ _ (by omega)]

theorem nbytesOf_spec (total : Nat) : total ≤ 8 * nbytesOf total ∧ 8 * nbytesOf total < total + 8 := by
  unfold nbytesOf
  split_ifs <;> omega

theorem encodeState_succ (bits : Mat) (i : Nat) :
    encodeState bits (i + 1)
      = byteListCell bits (encodeState bits i) (i / bits.cols) (i % bits.cols) := by
  simp [encodeState, List.range_succ, List.foldl_append]

theorem getByteListFromBits_eq (bits : Mat) :
    getByteListFromBits bits = (encodeState bits (bits.rows * bits.cols)).candidateByteList := by
  unfold getByteListFromBits encodeState
  simp only []
  rw [foldl_range_nested]

theorem rowByte_replicate_zero (n k j : Nat) :
    rowByte (List.replicate n (⟨0, 0, 0, 0⟩ : Vec4b)) k j = 0 := by
  unfold rowByte
  by_cases h : j < n
  · rw [List.getD_eq_getElem _ _ (by simpa using h)]
    simp only [List.getElem_replicate]
    unfold Vec4b.get
    split <;> rfl
  · rw [List.getD_eq_default _ _ (by simp; omega)]
    unfold Vec4b.get
    split <;> rfl

theorem encodeState_inv (bits : Mat) (i : Nat) (hi : i ≤ bits.rows * bits.cols) :
    (encodeState bits i).currentBit = i % 8 ∧ (encodeState bits i).currentByte = i / 8 ∧
    (encodeState bits i).candidateByteList.length = nbytesOf (bits.cols * bits.rows) ∧
    ∀ k j, k < 4 → rowByte (encodeState bits i).candidateByteList k j
      = packByte (chunk (cellBit bits k) (8 * j) (min 8 (i - 8 * j))) := by
  induction i with
  | zero =>
    refine ⟨rfl, rfl, by simp [encodeState], ?_⟩
    intro k j _
    simp only [encodeState, List.range_zero, List.foldl_nil]
    rw [rowByte_replicate_zero]
    simp [chunk, packByte]
  | succ i ih =>
    obtain ⟨hbit, hbyte, hlen, hval⟩ := ih (by omega)
    have hnb := nbytesOf_spec (bits.cols * bits.rows)
    have hcomm : bits.cols * bits.rows = bits.rows * bits.cols := Nat.mul_comm _ _
    have hl := byteListCell_list bits (encodeState bits i) (i / bits.cols) (i % bits.cols)
    have hincr : incr (encodeState bits i).currentBit = i % 8 + 1 := by
      rw [hbit]; unfold incr; omega
    rw [encodeState_succ]
    refine ⟨?_, ?_, ?_, ?_⟩
    · rw [byteListCell_bit, hincr]; split_ifs <;> omega
    · rw [byteListCell_byte, hincr, hbyte]; split_ifs <;> omega
    · rw [hl, List.length_set, hlen]
    · intro k j hk
      rw [hl, rowByte_set _ _ _ _ _ (by rw [hlen, hbyte]; omega), hbyte]
      by_cases hj : j = i / 8
      · have hrb : ((encodeState bits i).candidateByteList.getD (i / 8) default).get k
            = rowByte (encodeState bits i).candidateByteList k (i / 8) := rfl
        rw [if_pos hj, shiftCell_get _ _ _ _ _ hk, hrb, hval k (i / 8) hk, hj]
        have h1 : min 8 (i + 1 - 8 * (i / 8)) = min 8 (i - 8 * (i / 8)) + 1 := by omega
        have h2 : 8 * (i / 8) + min 8 (i - 8 * (i / 8)) = i := by omega
        rw [h1, chunk_succ, packByte_snoc, h2]
        have h3 := packByte_chunk_lt (cellBit bits k) (8 * (i / 8)) (min 8 (i - 8 * (i / 8)))
        have h4 : min 8 (i - 8 * (i / 8)) ≤ 7 := by omega
        have h5 : (2 : Nat) ^ min 8 (i - 8 * (i / 8)) ≤ 2 ^ 7 := Nat.pow_le_pow_right (by norm_num) h4
        have h6 : packByte (chunk (cellBit bits k) (8 * (i / 8)) (min 8 (i - 8 * (i / 8)))) < 128 := by
          omega
        unfold cellBit at h6 ⊢
        cases rotBit bits k (i / bits.cols) (i % bits.cols) <;> simp [shl1, incr] <;> omega
      · rw [if_neg hj, hval k j hk]
        have h1 : min 8 (i + 1 - 8 * j) = min 8 (i - 8 * j) := by omega
        rw [h1]

/-- Byte `j`, rotation `k`, of the encoding of `bits`: the bits `8j, 8j+1, ...` of the
rotation-`k` stream (at most 8, fewer in a short last byte), most significant first. -/
theorem rowByte_getByteListFromBits (bits : Mat) (k j : Nat) (hk : k < 4) :
    rowByte (getByteListFromBits bits) k j
      = packByte (chunk (cellBit bits k) (8 * j) (min 8 (bits.rows * bits.cols - 8 * j))) := by
  rw [getByteListFromBits_eq]
  exact (encodeState_inv bits _ (le_refl _)).2.2.2 k j hk

theorem length_getByteListFromBits (bits : Mat) :
    (getByteListFromBits bits).length = nbytesOf (bits.cols * bits.rows) := by
  rw [getByteListFromBits_eq]
  exact (encodeState_inv bits _ (le_refl _)).2.2.1

/-! ## The decoder -/

theorem decodeState_succ (byteList : List Vec4b) (n i : Nat) :
    decodeState byteList n (i + 1) = bitsCell byteList (decodeState byteList n i) (i / n) (i % n) := by
  simp [decodeState, List.range_succ, List.foldl_append]

theorem getBitsFromByteList_eq (byteList : List Vec4b) (n : Nat) :
    getBitsFromByteList byteList n =
      if byteList.length > 0 ∧ byteList.length ≥ (n * n) % 2 ^ 32 / 8 ∧
          byteList.length ≤ (n * n) % 2 ^ 32 / 8 + 1 then
        some (decodeState byteList n (n * n)).bits
      else none := by
  unfold getBitsFromByteList decodeState
  simp only []
  rw [foldl_range_nested]

theorem bitsCell_bits (byteList : List Vec4b) (s : BitsState) (row col : Nat) :
    (bitsCell byteList s row col).bits
      = if s.currentByte ≥ base2List.getD s.currentBit 0 then s.bits.set row col 1 else s.bits := by
  unfold bitsCell
  simp only []
  split_ifs <;> rfl

theorem bitsCell_idx (byteList : List Vec4b) (s : BitsState) (row col : Nat) :
    (bitsCell byteList s row col).currentByteIdx
      = if s.currentBit + 1 = 8 then s.currentByteIdx + 1 else s.currentByteIdx := by
  unfold bitsCell
  simp only []
  split_ifs <;> rfl

theorem bitsCell_bit (byteList : List Vec4b) (s : BitsState) (row col : Nat) :
    (bitsCell byteList s row col).currentBit
      = if s.currentBit + 1 = 8 then
          (if 8 * (s.currentByteIdx + 1 + 1) > s.bits.total then
            8 * (s.currentByteIdx + 1 + 1) - s.bits.total else 0)
        else s.currentBit + 1 := by
  unfold bitsCell
  simp only []
  split_ifs <;> rfl

theorem bitsCell_byte (byteList : List Vec4b) (s : BitsState) (row col : Nat) :
    (bitsCell byteList s row col).currentByte
      = if s.currentBit + 1 = 8 then rowByte byteList 0 (s.currentByteIdx + 1)
        else if s.currentByte ≥ base2List.getD s.currentBit 0 then
          s.currentByte - base2List.getD s.currentBit 0
        else s.currentByte := by
  unfold bitsCell rowByte
  simp only []
  split_ifs <;> rfl

theorem base2List_getD (p : Nat) (hp : p ≤ 7) : base2List.getD p 0 = 2 ^ (7 - p) := by
  interval_cases p <;> rfl

theorem cell_index (n r c i : Nat) (hn : 0 < n) :
    (r = i / n ∧ c = i % n) ↔ (c < n ∧ r * n + c = i) := by
  constructor
  · rintro ⟨h1, h2⟩
    refine ⟨h2 ▸ Nat.mod_lt _ hn, ?_⟩
    rw [h1, h2, Nat.mul_comm]
    exact Nat.div_add_mod i n
  · rintro ⟨h1, h2⟩
    subst h2
    constructor
    · rw [Nat.mul_comm, Nat.mul_add_div hn, Nat.div_eq_of_lt h1]; rfl
    · rw [Nat.mul_comm, Nat.mul_add_mod, Nat.mod_eq_of_lt h1]

theorem bits_set_rows (m : Mat) (r c v : Nat) : (m.set r c v).rows = m.rows := rfl

theorem bits_set_cols (m : Mat) (r c v : Nat) : (m.set r c v).cols = m.cols := rfl

/-- Invariant of the decoder on a list whose rotation-0 bytes pack the stream `a`
of `n * n ≥ 8` bits. -/
theorem decodeState_inv (byteList : List Vec4b) (n : Nat) (a : Nat → Bool) (h8 : 8 ≤ n * n)
    (hb : ∀ j, rowByte byteList 0 j = packByte (chunk a (8 * j) (min 8 (n * n - 8 * j))))
    (i : Nat) (hi : i ≤ n * n) :
    (decodeState byteList n i).bits.rows = n ∧ (decodeState byteList n i).bits.cols = n ∧
    (∀ r c, (decodeState byteList n i).bits.at_ r c
        = if c < n ∧ r * n + c < i ∧ a (r * n + c) = true then 1 else 0) ∧
    (i < n * n →
      (decodeState byteList n i).currentByteIdx = i / 8 ∧
      (decodeState byteList n i).currentBit = 8 - min 8 (n * n - 8 * (i / 8)) + i % 8 ∧
      (decodeState byteList n i).currentByte
        = packByte (chunk a i (min 8 (n * n - 8 * (i / 8)) - i % 8))) := by
  have hn : 0 < n := by
    rcases Nat.eq_zero_or_pos n with h | h
    · subst h; simp at h8
    · exact h
  induction i with
  | zero =>
    refine ⟨rfl, rfl, ?_, ?_⟩
    · intro r c
      simp [decodeState, Mat.zeros]
    · intro _
      refine ⟨rfl, ?_, ?_⟩
      · simp only [decodeState, List.range_zero, List.foldl_nil]
        omega
      · simp only [decodeState, List.range_zero, List.foldl_nil]
        have := hb 0
        simp only [rowByte] at this
        rw [this]
        simp
  | succ i ih =>
    obtain ⟨hrows, hcols, hat, hst⟩ := ih (by omega)
    obtain ⟨hidx, hbit, hbyte⟩ := hst (by omega)
    generalize hN : n * n = N at *
    have htot : (decodeState byteList n i).bits.total = N := by
      unfold Mat.total; rw [hrows, hcols, hN]
    -- the weight of the bit read at cell `i`
    have hp : 8 - min 8 (N - 8 * (i / 8)) + i % 8 ≤ 7 := by omega
    obtain ⟨m, hm⟩ : ∃ m, min 8 (N - 8 * (i / 8)) - i % 8 = m + 1 :=
      ⟨min 8 (N - 8 * (i / 8)) - i % 8 - 1, by omega⟩
    have hm7 : 7 - (8 - min 8 (N - 8 * (i / 8)) + i % 8) = m := by omega
    have hw : base2List.getD (decodeState byteList n i).currentBit 0 = 2 ^ m := by
      rw [hbit, base2List_getD _ hp, hm7]
    rw [hm, packByte_chunk_head] at hbyte
    have hrest := packByte_chunk_lt a (i + 1) m
    have hge : (decodeState byteList n i).currentByte ≥ base2List.getD
        (decodeState byteList n i).currentBit 0 ↔ a i = true := by
      rw [hw, hbyte]
      cases a i
      · simp; omega
      · simp
    rw [decodeState_succ]
    refine ⟨?_, ?_, ?_, ?_⟩
    · rw [bitsCell_bits]; split_ifs <;> simp [bits_set_rows, hrows]
    · rw [bitsCell_bits]; split_ifs <;> simp [bits_set_cols, hcols]
    · intro r c
      rw [bitsCell_bits]
      have hci := cell_index n r c i hn
      by_cases hai : a i = true
      · rw [if_pos (hge.mpr hai)]
        simp only [Mat.set]
        by_cases hrc : r = i / n ∧ c = i % n
        · rw [if_pos hrc]
          obtain ⟨h1, h2⟩ := hci.mp hrc
          rw [if_pos ⟨h1, by omega, by rw [h2]; exact hai⟩]
        · rw [if_neg hrc, hat]
          have hne : ¬ (c < n ∧ r * n + c = i) := fun h => hrc (hci.mpr h)
          by_cases hc : c < n
          · have : r * n + c ≠ i := fun h => hne ⟨hc, h⟩
            have hiff : r * n + c < i ↔ r * n + c < i + 1 := by omega
            simp only [hiff]
          · simp [hc]
      · rw [if_neg (fun h => hai (hge.mp h)), hat]
        by_cases hc : c < n
        · by_cases heq : r * n + c = i
          · rw [heq]; simp [hai]
          · have hiff : r * n + c < i ↔ r * n + c < i + 1 := by omega
            simp only [hiff]
        · simp [hc]
    · intro hlt
      rw [bitsCell_idx, bitsCell_bit, bitsCell_byte, hidx, htot]
      by_cases hlast : (decodeState byteList n i).currentBit + 1 = 8
      · rw [if_pos hlast, if_pos hlast, if_pos hlast]
        have h1 : (i + 1) / 8 = i / 8 + 1 := by omega
        have h2 : (i + 1) % 8 = 0 := by omega
        have h3 : i + 1 = 8 * (i / 8 + 1) := by omega
        refine ⟨h1.symm, ?_, ?_⟩
        · split_ifs <;> omega
        · rw [hb, h1, h2, ← h3]; simp
      · rw [if_neg hlast, if_neg hlast, if_neg hlast]
        have h1 : (i + 1) / 8 = i / 8 := by omega
        have h2 : (i + 1) % 8 = i % 8 + 1 := by omega
        refine ⟨h1.symm, by rw [h1, h2]; omega, ?_⟩
        have hm' : min 8 (N - 8 * ((i + 1) / 8)) - (i + 1) % 8 = m := by rw [h1, h2]; omega
        rw [hm']
        by_cases hai : a i = true
        · rw [if_pos (hge.mpr hai), hw, hbyte, hai]; simp
        · rw [if_neg (fun h => hai (hge.mp h)), hbyte]
          simp only [Bool.not_eq_true] at hai
          rw [hai]; simp

theorem cellBit_zero (M : Mat) (n r c : Nat) (hcols : M.cols = n) (hc : c < n) :
    cellBit M 0 (r * n + c) = decide (M.at_ r c ≠ 0) := by
  have hn : 0 < n := by omega
  obtain ⟨h1, h2⟩ := (cell_index n r c (r * n + c) hn).mpr ⟨hc, rfl⟩
  unfold cellBit
  rw [hcols, ← h1, ← h2]
  rfl

theorem assert_of_encoding (n : Nat) (M : Mat) (hrows : M.rows = n) (hcols : M.cols = n)
    (h8 : 8 ≤ n * n) (h32 : n * n < 2 ^ 32) :
    (getByteListFromBits M).length > 0 ∧
      (getByteListFromBits M).length ≥ (n * n) % 2 ^ 32 / 8 ∧
      (getByteListFromBits M).length ≤ (n * n) % 2 ^ 32 / 8 + 1 := by
  rw [length_getByteListFromBits, hrows, hcols, Nat.mod_eq_of_lt h32]
  unfold nbytesOf
  split_ifs <;> omega

/-- Decoding the encoding of an `n × n` matrix, `n ≥ 3`: the decoder accepts the list and
each cell of the result is `1` where the cell of the matrix is non-zero, else `0`. -/
theorem decode_encode (n : Nat) (M : Mat) (hrows : M.rows = n) (hcols : M.cols = n)
    (h8 : 8 ≤ n * n) (h32 : n * n < 2 ^ 32) :
    ∃ D, getBitsFromByteList (getByteListFromBits M) n = some D ∧ D.rows = n ∧ D.cols = n ∧
      ∀ r c, r < n → c < n → D.at_ r c = if M.at_ r c ≠ 0 then 1 else 0 := by
  rw [getBitsFromByteList_eq, if_pos (assert_of_encoding n M hrows hcols h8 h32)]
  have hb : ∀ j, rowByte (getByteListFromBits M) 0 j
      = packByte (chunk (cellBit M 0) (8 * j) (min 8 (n * n - 8 * j))) := by
    intro j
    rw [rowByte_getByteListFromBits M 0 j (by norm_num), hrows, hcols]
  obtain ⟨h1, h2, h3, -⟩ := decodeState_inv (getByteListFromBits M) n (cellBit M 0) h8 hb
    (n * n) (le_refl _)
  refine ⟨_, rfl, h1, h2, ?_⟩
  intro r c hr hc
  rw [h3, cellBit_zero M n r c hcols hc]
  have hlt : r * n + c < n * n := by
    calc r * n + c < r * n + n := by omega
      _ = (r + 1) * n := by ring
      _ ≤ n * n := Nat.mul_le_mul_right n hr
  by_cases hM : M.at_ r c = 0
  · simp [hM]
  · simp [hM, hc, hlt]

/-! ## Hamming weights -/

theorem hammingSum_eq_sum (total : Nat) (x y : Nat → Nat) :
    hammingSum total x y
      = ∑ b ∈ Finset.range total, hammingWeightLUT.getD ((x b ^^^ y b) % 256) 0 := by
  unfold hammingSum
  induction total with
  | zero => simp
  | succ t ih => rw [List.range_succ, List.foldl_append, ih, Finset.sum_range_succ]; rfl

set_option maxRecDepth 100000 in
theorem lut_double : ∀ c < 128, hammingWeightLUT.getD (2 * c) 0 = hammingWeightLUT.getD c 0 ∧
    hammingWeightLUT.getD (2 * c + 1) 0 = hammingWeightLUT.getD c 0 + 1 := by
  decide

theorem lut_bit (c : Nat) (hc : c < 128) (b : Bool) :
    hammingWeightLUT.getD (2 * c + b.toNat) 0 = hammingWeightLUT.getD c 0 + b.toNat := by
  cases b
  · exact (lut_double c hc).1
  · exact (lut_double c hc).2

theorem xor_double (A B : Nat) (x y : Bool) :
    (2 * A + x.toNat) ^^^ (2 * B + y.toNat) = 2 * (A ^^^ B) + (x != y).toNat := by
  rw [← Nat.bit_val, ← Nat.bit_val, Nat.xor_bit, Nat.bit_val]

/-- The table applied to the XOR of two packed bytes counts the positions at which the
two lists of bits differ. -/
theorem lut_xor_chunk (f g : Nat → Bool) (lo len : Nat) (hlen : len ≤ 8) :
    hammingWeightLUT.getD ((packByte (chunk f lo len) ^^^ packByte (chunk g lo len)) % 256) 0
      = ∑ t ∈ Finset.range len, (f (lo + t) != g (lo + t)).toNat := by
  induction len with
  | zero =>
    rw [Finset.sum_range_zero, chunk_zero, chunk_zero]
    decide
  | succ len ih =>
    have hf := packByte_chunk_lt f lo len
    have hg := packByte_chunk_lt g lo len
    have hx : packByte (chunk f lo len) ^^^ packByte (chunk g lo len) < 2 ^ len :=
      Nat.xor_lt_two_pow hf hg
    have hpow : (2 : Nat) ^ len ≤ 2 ^ 7 := Nat.pow_le_pow_right (by norm_num) (by omega)
    have h128 : packByte (chunk f lo len) ^^^ packByte (chunk g lo len) < 128 := by omega
    have ih' := ih (by omega)
    rw [Nat.mod_eq_of_lt (by omega)] at ih'
    rw [chunk_succ, chunk_succ, packByte_snoc, packByte_snoc, xor_double, Finset.sum_range_succ,
      ← ih', Nat.mod_eq_of_lt, lut_bit _ h128]
    have : (f (lo + len) != g (lo + len)).toNat ≤ 1 := Bool.toNat_le _
    omega

/-- Summing a function over the chunks of 8 positions of `0..N-1`. -/
theorem sum_chunks (h : Nat → Nat) (N nb : Nat) :
    ∑ j ∈ Finset.range nb, ∑ t ∈ Finset.range (min 8 (N - 8 * j)), h (8 * j + t)
      = ∑ i ∈ Finset.range (min N (8 * nb)), h i := by
  induction nb with
  | zero => simp
  | succ nb ih =>
    rw [Finset.sum_range_succ, ih]
    by_cases hN : N ≤ 8 * nb
    · have h1 : min 8 (N - 8 * nb) = 0 := by omega
      have h2 : min N (8 * (nb + 1)) = min N (8 * nb) := by omega
      rw [h1, h2]; simp
    · have h1 : min N (8 * nb) = 8 * nb := by omega
      have h2 : min N (8 * (nb + 1)) = 8 * nb + min 8 (N - 8 * nb) := by omega
      rw [h1, h2, Finset.sum_range_add]

/-- The Hamming loop over the bytes of two encodings counts the cells at which the two
rotated streams differ. -/
theorem hammingSum_encodings (A B : Mat) (ka kb : Nat) (hka : ka < 4) (hkb : kb < 4)
    (hsize : A.rows * A.cols = B.rows * B.cols) :
    hammingSum (getByteListFromBits B).length (rowByte (getByteListFromBits A) ka)
        (rowByte (getByteListFromBits B) kb)
      = streamDiff (cellBit A ka) (cellBit B kb) (B.rows * B.cols) := by
  rw [hammingSum_eq_sum, length_getByteListFromBits]
  have hnb := nbytesOf_spec (B.cols * B.rows)
  have hcomm : B.cols * B.rows = B.rows * B.cols := Nat.mul_comm _ _
  have hmin : min (B.rows * B.cols) (8 * nbytesOf (B.cols * B.rows)) = B.rows * B.cols := by omega
  have hsum := sum_chunks (fun i => (cellBit A ka i != cellBit B kb i).toNat) (B.rows * B.cols)
    (nbytesOf (B.cols * B.rows))
  rw [hmin] at hsum
  unfold streamDiff
  rw [← hsum]
  apply Finset.sum_congr rfl
  intro j _
  rw [rowByte_getByteListFromBits A ka j hka, rowByte_getByteListFromBits B kb j hkb, hsize]
  exact lut_xor_chunk _ _ _ _ (by omega)

theorem streamDiff_le (f g : Nat → Bool) (N : Nat) : streamDiff f g N ≤ N := by
  unfold streamDiff
  calc ∑ i ∈ Finset.range N, (f i != g i).toNat ≤ ∑ _i ∈ Finset.range N, 1 :=
        Finset.sum_le_sum (fun i _ => Bool.toNat_le _)
    _ = N := by simp

theorem streamDiff_congr (f g f' g' : Nat → Bool) (N : Nat)
    (hf : ∀ i, i < N → f i = f' i) (hg : ∀ i, i < N → g i = g' i) :
    streamDiff f g N = streamDiff f' g' N := by
  unfold streamDiff
  apply Finset.sum_congr rfl
  intro i hi
  have hi' := Finset.mem_range.mp hi
  rw [hf i hi', hg i hi']

theorem streamDiff_self (f : Nat → Bool) (N : Nat) : streamDiff f f N = 0 := by
  unfold streamDiff
  simp

theorem streamDiff_comm (f g : Nat → Bool) (N : Nat) : streamDiff f g N = streamDiff g f N := by
  unfold streamDiff
  apply Finset.sum_congr rfl
  intro i _
  cases f i <;> cases g i <;> rfl

theorem streamDiff_eq_zero (f g : Nat → Bool) (N : Nat) (h : streamDiff f g N = 0) :
    ∀ i, i < N → f i = g i := by
  intro i hi
  unfold streamDiff at h
  have := (Finset.sum_eq_zero_iff.mp h) i (Finset.mem_range.mpr hi)
  cases hf : f i <;> cases hg : g i <;> simp [hf, hg] at this ⊢

/-! ## Rotations -/

theorem flat_lt (n i : Nat) (hi : i < n * n) : i / n < n ∧ i % n < n := by
  have hn : 0 < n := by
    rcases Nat.eq_zero_or_pos n with h | h
    · subst h; simp at hi
    · exact h
  exact ⟨Nat.div_lt_of_lt_mul hi, Nat.mod_lt _ hn⟩

/-- The rotation-`k` stream of the rotated matrix is the rotation-`k+1` stream of the
matrix. -/
theorem cellBit_rot90 (n : Nat) (M : Mat) (hrows : M.rows = n) (hcols : M.cols = n)
    (k i : Nat) (hk : k < 4) (hi : i < n * n) :
    cellBit (rot90 n M) k i = cellBit M ((k + 1) % 4) i := by
  obtain ⟨hr, hc⟩ := flat_lt n i hi
  have hsub : ∀ a, a < n → n - 1 - (n - 1 - a) = a := fun a ha => by omega
  have h1 := hsub _ hr
  have h2 := hsub _ hc
  unfold cellBit
  rw [hcols]
  interval_cases k <;> simp only [rotBit, rot90, hrows, hcols, h1, h2]

theorem chunk_congr (f g : Nat → Bool) (lo len N : Nat) (hN : lo + len ≤ N)
    (h : ∀ i, i < N → f i = g i) : chunk f lo len = chunk g lo len := by
  unfold chunk
  apply List.map_congr_left
  intro t ht
  have := List.mem_range.mp ht
  exact h _ (by omega)

theorem rowByte_rot90 (n : Nat) (M : Mat) (hrows : M.rows = n) (hcols : M.cols = n)
    (k j : Nat) (hk : k < 4) :
    rowByte (getByteListFromBits (rot90 n M)) k j
      = rowByte (getByteListFromBits M) ((k + 1) % 4) j := by
  rw [rowByte_getByteListFromBits _ _ _ hk,
    rowByte_getByteListFromBits _ _ _ (Nat.mod_lt _ (by norm_num)), hrows, hcols]
  show packByte (chunk _ _ (min 8 (n * n - 8 * j))) = _
  by_cases hj : 8 * j ≤ n * n
  · rw [chunk_congr _ _ _ _ (n * n) (by omega) (fun i hi => cellBit_rot90 n M hrows hcols k i hk hi)]
  · have : min 8 (n * n - 8 * j) = 0 := by omega
    rw [this]; rfl

theorem length_rot90 (n : Nat) (M : Mat) (hrows : M.rows = n) (hcols : M.cols = n) :
    (getByteListFromBits (rot90 n M)).length = (getByteListFromBits M).length := by
  rw [length_getByteListFromBits, length_getByteListFromBits, hrows, hcols]; rfl

theorem rotationBytes_getElem (row : List Vec4b) (r j : Nat) (hj : j < (rotationBytes row r).length) :
    (rotationBytes row r)[j] = rowByte row r j := by
  unfold rotationBytes rowByte
  simp only [List.length_map, rotationBytes] at hj
  rw [List.getElem_map, List.getD_eq_getElem _ _ hj]

/-! ## Cells at which two matrices differ -/

theorem sum_flat (g : Nat → Nat → Nat) (n m : Nat) :
    ∑ i ∈ Finset.range (n * m), g (i / m) (i % m)
      = ∑ r ∈ Finset.range n, ∑ c ∈ Finset.range m, g r c := by
  induction n with
  | zero => simp
  | succ n ih =>
    rw [Finset.sum_range_succ, ← ih, Nat.succ_mul, Finset.sum_range_add]
    congr 1
    apply Finset.sum_congr rfl
    intro c hc
    have hc' := Finset.mem_range.mp hc
    have hm : 0 < m := by omega
    obtain ⟨h1, h2⟩ := (cell_index m n c (n * m + c) hm).mpr ⟨hc', rfl⟩
    rw [← h1, ← h2]

theorem countDiff_eq_sum (n : Nat) (X M : Mat) :
    countDiff n X M
      = ∑ r ∈ Finset.range n, ∑ c ∈ Finset.range n, if X.at_ r c ≠ M.at_ r c then 1 else 0 := by
  unfold countDiff
  rw [Finset.card_filter, Finset.sum_product]

/-- On matrices of bits, the rotation-0 streams differ exactly at the cells at which the
matrices differ. -/
theorem streamDiff_eq_countDiff (n : Nat) (X M : Mat) (hX : IsBitMat n X) (hM : IsBitMat n M)
    (hXc : X.cols = n) (hMc : M.cols = n) :
    streamDiff (cellBit X 0) (cellBit M 0) (n * n) = countDiff n X M := by
  rw [countDiff_eq_sum, ← sum_flat]
  unfold streamDiff
  apply Finset.sum_congr rfl
  intro i hi
  obtain ⟨hr, hc⟩ := flat_lt n i (Finset.mem_range.mp hi)
  have h1 := hX _ hr _ hc
  have h2 := hM _ hr _ hc
  unfold cellBit
  rw [hXc, hMc]
  simp only [rotBit]
  generalize X.at_ (i / n) (i % n) = x at h1
  generalize M.at_ (i / n) (i % n) = m at h2
  interval_cases x <;> interval_cases m <;> rfl

/-! ## The table and the bit count -/

theorem popcountAux_mod (k x : Nat) : popcountAux k (x % 2 ^ k) = popcountAux k x := by
  induction k generalizing x with
  | zero => rfl
  | succ k ih =>
    simp only [popcountAux]
    have h1 : x % 2 ^ (k + 1) % 2 = x % 2 := by
      rw [pow_succ, Nat.mul_comm, Nat.mod_mul_right_mod]
    have h2 : x % 2 ^ (k + 1) / 2 = (x / 2) % 2 ^ k := by
      rw [pow_succ, Nat.mul_comm, Nat.mod_mul_right_div_self]
    rw [h1, h2, ih]

set_option maxRecDepth 100000 in
theorem lut_bitCount_small : ∀ y < 256, hammingWeightLUT.getD y 0 = bitCount y := by
  decide

/-- The table holds the bit count of each byte. -/
theorem lut_eq_bitCount (x : Nat) : hammingWeightLUT.getD (x % 256) 0 = bitCount x := by
  rw [lut_bitCount_small _ (Nat.mod_lt _ (by norm_num))]
  exact popcountAux_mod 8 x

theorem sum_range_zipWith (G : Nat → Nat → Nat) (r1 r2 : Nat) (a b : List Vec4b)
    (hlen : a.length = b.length) :
    ∑ i ∈ Finset.range b.length, G (rowByte a r1 i) (rowByte b r2 i)
      = (List.zipWith G (rotationBytes a r1) (rotationBytes b r2)).sum := by
  induction a generalizing b with
  | nil =>
    cases b with
    | nil => simp [rotationBytes]
    | cons y b => simp at hlen
  | cons x a ih =>
    cases b with
    | nil => simp at hlen
    | cons y b =>
      simp only [List.length_cons, Nat.add_right_cancel_iff] at hlen
      rw [List.length_cons, Finset.sum_range_succ']
      have h := ih b hlen
      simp only [rowByte, List.getD_cons_succ, List.getD_cons_zero, rotationBytes, List.map_cons,
        List.zipWith_cons_cons, List.sum_cons] at h ⊢
      rw [h]; ring

/-- The Hamming loop of the code computes the Hamming distance of the two lists of bytes. -/
theorem hammingSum_eq_hammingDistance (a b : List Vec4b) (r1 r2 : Nat)
    (hlen : a.length = b.length) :
    hammingSum b.length (rowByte a r1) (rowByte b r2)
      = hammingDistance (rotationBytes a r1) (rotationBytes b r2) := by
  rw [hammingSum_eq_sum]
  simp only [lut_eq_bitCount]
  exact sum_range_zipWith (fun x y => bitCount (x ^^^ y)) r1 r2 a b hlen

theorem hammingSum_eq_rotDistance (row cand : List Vec4b) (r : Nat)
    (hlen : row.length = cand.length) :
    hammingSum cand.length (rowByte row r) (rowByte cand 0) = rotDistance row cand r :=
  hammingSum_eq_hammingDistance row cand r 0 hlen

/-! ## Identification -/

/-- The loop over the four rotations keeps the first minimum below the initial value. -/
theorem rotations_fold (init : Int) (f : Nat → Nat) (m : Nat)
    (hm : m = min (min (min (f 0) (f 1)) (f 2)) (f 3)) :
    ((List.range 4).foldl
      (fun (p : Int × Int) r =>
        if ((f r : Nat) : Int) < p.1 then (((f r : Nat) : Int), (r : Int)) else p)
      (init, -1)).1 = min init (m : Int) ∧
    (init ≤ (m : Int) → ((List.range 4).foldl
      (fun (p : Int × Int) r =>
        if ((f r : Nat) : Int) < p.1 then (((f r : Nat) : Int), (r : Int)) else p)
      (init, -1)).2 = -1) ∧
    ((m : Int) < init →
      (((List.range 4).foldl
        (fun (p : Int × Int) r =>
          if ((f r : Nat) : Int) < p.1 then (((f r : Nat) : Int), (r : Int)) else p)
        (init, -1)).2 = 0 ∧ f 0 = m) ∨
      (((List.range 4).foldl
        (fun (p : Int × Int) r =>
          if ((f r : Nat) : Int) < p.1 then (((f r : Nat) : Int), (r : Int)) else p)
        (init, -1)).2 = 1 ∧ f 1 = m ∧ f 0 ≠ m) ∨
      (((List.range 4).foldl
        (fun (p : Int × Int) r =>
          if ((f r : Nat) : Int) < p.1 then (((f r : Nat) : Int), (r : Int)) else p)
        (init, -1)).2 = 2 ∧ f 2 = m ∧ f 0 ≠ m ∧ f 1 ≠ m) ∨
      (((List.range 4).foldl
        (fun (p : Int × Int) r =>
          if ((f r : Nat) : Int) < p.1 then (((f r : Nat) : Int), (r : Int)) else p)
        (init, -1)).2 = 3 ∧ f 3 = m ∧ f 0 ≠ m ∧ f 1 ≠ m ∧ f 2 ≠ m)) := by
  have hr : List.range 4 = [0, 1, 2, 3] := rfl
  simp only [hr, List.foldl_cons, List.foldl_nil]
  generalize f 0 = a at hm ⊢
  generalize f 1 = b at hm ⊢
  generalize f 2 = c at hm ⊢
  generalize f 3 = e at hm ⊢
  have h1 : m ≤ a := by omega
  have h2 : m ≤ b := by omega
  have h3 : m ≤ c := by omega
  have h4 : m ≤ e := by omega
  have h5 : m = a ∨ m = b ∨ m = c ∨ m = e := by omega
  clear hm
  split_ifs <;> (try dsimp only at *) <;> refine ⟨?_, ?_, ?_⟩ <;> omega

theorem identifyRotations_spec (n : Nat) (row cand : List Vec4b) (hlen : row.length = cand.length) :
    (identifyRotations n row cand).1
        = min ((n * n + 1 : Nat) : Int) (minRotDistance row cand : Int) ∧
    (minRotDistance row cand ≤ n * n →
      ∃ r : Nat, r < 4 ∧ (identifyRotations n row cand).2 = (r : Int) ∧
        rotDistance row cand r = minRotDistance row cand ∧
        ∀ r' : Nat, r' < r → rotDistance row cand r' ≠ minRotDistance row cand) ∧
    (n * n < minRotDistance row cand → (identifyRotations n row cand).2 = -1) := by
  have h := rotations_fold ((n * n + 1 : Nat) : Int)
    (fun r => hammingSum cand.length (rowByte row r) (rowByte cand 0))
    (minRotDistance row cand)
    (by simp only [hammingSum_eq_rotDistance row cand _ hlen]; rfl)
  simp only [hammingSum_eq_rotDistance row cand _ hlen] at h
  obtain ⟨h1, h2, h3⟩ := h
  unfold identifyRotations
  simp only [hammingSum_eq_rotDistance row cand _ hlen]
  refine ⟨h1, ?_, ?_⟩
  · intro hle
    have := h3 (by omega)
    rcases this with ⟨ha, hb⟩ | ⟨ha, hb, hc⟩ | ⟨ha, hb, hc, hd⟩ | ⟨ha, hb, hc, hd, he⟩
    · exact ⟨0, by norm_num, ha, hb, fun r' hr' => by omega⟩
    · refine ⟨1, by norm_num, ha, hb, fun r' hr' => ?_⟩
      interval_cases r'; exact hc
    · refine ⟨2, by norm_num, ha, hb, fun r' hr' => ?_⟩
      interval_cases r'
      · exact hc
      · exact hd
    · refine ⟨3, by norm_num, ha, hb, fun r' hr' => ?_⟩
      interval_cases r'
      · exact hc
      · exact hd
      · exact he
  · intro hlt
    exact h2 (by omega)

/-- The search stops at the first row within the budget. -/
theorem identifySearch_found (n : Nat) (cand : List Vec4b) (b rotation : Int)
    (rows : List (List Vec4b)) (m0 j : Nat) (hj : j < rows.length)
    (hhit : (identifyRotations n (rows.getD j []) cand).1 ≤ b)
    (hmiss : ∀ j', j' < j → ¬ (identifyRotations n (rows.getD j' []) cand).1 ≤ b) :
    identifySearch n cand b rotation rows m0
      = (((m0 + j : Nat) : Int), (identifyRotations n (rows.getD j []) cand).2) := by
  induction rows generalizing m0 j with
  | nil => simp at hj
  | cons row rest ih =>
    cases j with
    | zero =>
      simp only [List.getD_cons_zero] at hhit
      simp only [identifySearch, if_pos hhit, List.getD_cons_zero]
      rfl
    | succ j =>
      have h0 := hmiss 0 (by omega)
      simp only [List.getD_cons_zero] at h0
      simp only [List.getD_cons_succ] at hhit
      simp only [identifySearch, if_neg h0, List.getD_cons_succ]
      rw [ih (m0 + 1) j (by simpa using hj) hhit
        (fun j' hj' => by simpa using hmiss (j' + 1) (by omega))]
      congr 2
      omega

theorem identifySearch_none (n : Nat) (cand : List Vec4b) (b rotation : Int)
    (rows : List (List Vec4b)) (m0 : Nat)
    (hmiss : ∀ j, j < rows.length → ¬ (identifyRotations n (rows.getD j []) cand).1 ≤ b) :
    identifySearch n cand b rotation rows m0 = (-1, rotation) := by
  induction rows generalizing m0 with
  | nil => rfl
  | cons row rest ih =>
    have h0 := hmiss 0 (by simp)
    simp only [List.getD_cons_zero] at h0
    simp only [identifySearch, if_neg h0]
    exact ih (m0 + 1) (fun j hj => by simpa using hmiss (j + 1) (by simpa using hj))

theorem length_candidate (d : Dictionary) (X : Mat)
    (hX : X.rows = d.markerSize ∧ X.cols = d.markerSize) :
    (getByteListFromBits X).length = nbytesOf (d.markerSize * d.markerSize) := by
  rw [length_getByteListFromBits, hX.1, hX.2]

theorem hit_iff (d : Dictionary) (X : Mat) (b : Int)
    (hX : X.rows = d.markerSize ∧ X.cols = d.markerSize) (hwf : WellSized d)
    (hb : InRange d (getByteListFromBits X) b) (m : Nat) (hm : m < d.bytesList.length) :
    (identifyRotations d.markerSize (d.row m) (getByteListFromBits X)).1 ≤ b
      ↔ (minRotDistance (d.row m) (getByteListFromBits X) : Int) ≤ b := by
  have hlen : (d.row m).length = (getByteListFromBits X).length := by
    rw [hwf m hm, length_candidate d X hX]
  rw [(identifyRotations_spec d.markerSize _ _ hlen).1]
  rcases hb with hb | hb
  · omega
  · have := hb m hm
    omega

/-- What `identify` returns, in terms of the distances of the rows to the candidate. -/
theorem identify_spec (d : Dictionary) (X : Mat) (rotation b : Int)
    (hX : X.rows = d.markerSize ∧ X.cols = d.markerSize) (hwf : WellSized d)
    (hb : InRange d (getByteListFromBits X) b) :
    (∀ m, m < d.bytesList.length →
      (minRotDistance (d.row m) (getByteListFromBits X) : Int) ≤ b →
      (∀ m', m' < m → b < (minRotDistance (d.row m') (getByteListFromBits X) : Int)) →
      ∃ r : Nat, r < 4 ∧ d.identify X rotation b = some (true, (m : Int), (r : Int)) ∧
        rotDistance (d.row m) (getByteListFromBits X) r
          = minRotDistance (d.row m) (getByteListFromBits X) ∧
        ∀ r' : Nat, r' < r → rotDistance (d.row m) (getByteListFromBits X) r'
          ≠ minRotDistance (d.row m) (getByteListFromBits X)) ∧
    ((∀ m, m < d.bytesList.length →
        b < (minRotDistance (d.row m) (getByteListFromBits X) : Int)) →
      d.identify X rotation b = some (false, -1, rotation)) := by
  constructor
  · intro m hm hhit hmiss
    have hlen : (d.row m).length = (getByteListFromBits X).length := by
      rw [hwf m hm, length_candidate d X hX]
    have hsearch := identifySearch_found d.markerSize (getByteListFromBits X) b rotation
      d.bytesList 0 m hm ((hit_iff d X b hX hwf hb m hm).mpr hhit)
      (fun m' hm' h => by
        have := (hit_iff d X b hX hwf hb m' (by omega)).mp h
        have := hmiss m' hm'
        omega)
    have hle : minRotDistance (d.row m) (getByteListFromBits X) ≤ d.markerSize * d.markerSize := by
      rcases hb with hb | hb
      · have : ((minRotDistance (d.row m) (getByteListFromBits X) : Nat) : Int)
            ≤ ((d.markerSize * d.markerSize : Nat) : Int) := le_trans hhit hb
        exact_mod_cast this
      · exact hb m hm
    obtain ⟨r, hr, hrot, hdist, hfirst⟩ := (identifyRotations_spec d.markerSize _ _ hlen).2.1 hle
    refine ⟨r, hr, ?_, hdist, hfirst⟩
    unfold Dictionary.identify
    rw [if_pos hX]
    simp only [hsearch]
    have hrot' : (identifyRotations d.markerSize (d.bytesList.getD m []) (getByteListFromBits X)).2
        = (r : Int) := hrot
    rw [hrot']
    simp only [Nat.zero_add]
    have : ((m : Nat) : Int) ≠ -1 := by omega
    simp [this]
  · intro hmiss
    have hsearch := identifySearch_none d.markerSize (getByteListFromBits X) b rotation
      d.bytesList 0
      (fun m hm h => by
        have := (hit_iff d X b hX hwf hb m hm).mp h
        have := hmiss m hm
        omega)
    unfold Dictionary.identify
    rw [if_pos hX]
    simp only [hsearch]
    simp

/-! ## Encodings as lists -/

theorem vec4b_ext (v w : Vec4b) (h : ∀ k, k < 4 → v.get k = w.get k) : v = w := by
  have h0 := h 0 (by norm_num)
  have h1 := h 1 (by norm_num)
  have h2 := h 2 (by norm_num)
  have h3 := h 3 (by norm_num)
  cases v; cases w
  simp only [Vec4b.get] at h0 h1 h2 h3
  simp [h0, h1, h2, h3]

theorem byteList_ext (a b : List Vec4b) (hlen : a.length = b.length)
    (h : ∀ k j, k < 4 → rowByte a k j = rowByte b k j) : a = b := by
  apply List.ext_getElem hlen
  intro j h1 h2
  apply vec4b_ext
  intro k hk
  have := h k j hk
  unfold rowByte at this
  rwa [List.getD_eq_getElem _ _ h1, List.getD_eq_getElem _ _ h2] at this

theorem cellBit_congr (n : Nat) (D M : Mat) (hD : D.rows = n ∧ D.cols = n)
    (hM : M.rows = n ∧ M.cols = n) (h : SameBits n D M) (k i : Nat) (hi : i < n * n) :
    cellBit D k i = cellBit M k i := by
  obtain ⟨hr, hc⟩ := flat_lt n i hi
  have hsub : ∀ a, a < n → n - 1 - a < n := fun a ha => by omega
  have hr' := hsub _ hr
  have hc' := hsub _ hc
  unfold cellBit rotBit
  rw [hD.1, hD.2, hM.1, hM.2]
  split
  · exact decide_eq_decide.mpr (h _ _ hr hc)
  · exact decide_eq_decide.mpr (h _ _ hc hr')
  · exact decide_eq_decide.mpr (h _ _ hr' hc')
  · exact decide_eq_decide.mpr (h _ _ hc' hr)

/-- The encoding depends only on which cells are non-zero. -/
theorem getByteListFromBits_congr (n : Nat) (D M : Mat) (hD : D.rows = n ∧ D.cols = n)
    (hM : M.rows = n ∧ M.cols = n) (h : SameBits n D M) :
    getByteListFromBits D = getByteListFromBits M := by
  apply byteList_ext
  · rw [length_getByteListFromBits, length_getByteListFromBits, hD.1, hD.2, hM.1, hM.2]
  · intro k j hk
    rw [rowByte_getByteListFromBits _ _ _ hk, rowByte_getByteListFromBits _ _ _ hk,
      hD.1, hD.2, hM.1, hM.2]
    by_cases hj : 8 * j ≤ n * n
    · rw [chunk_congr _ _ _ _ (n * n) (by omega) (fun i hi => cellBit_congr n D M hD hM h k i hi)]
    · have : min 8 (n * n - 8 * j) = 0 := by omega
      rw [this]; rfl

theorem sameBits_rot90 (n : Nat) (D M : Mat) (h : SameBits n D M) :
    SameBits n (rot90 n D) (rot90 n M) := by
  intro r c hr hc
  exact h c (n - 1 - r) hc (by omega)

theorem rowByte_lt (M : Mat) (k j : Nat) (hk : k < 4) :
    rowByte (getByteListFromBits M) k j < 256 := by
  rw [rowByte_getByteListFromBits _ _ _ hk]
  have h1 := packByte_chunk_lt (cellBit M k) (8 * j) (min 8 (M.rows * M.cols - 8 * j))
  have h2 : (2 : Nat) ^ min 8 (M.rows * M.cols - 8 * j) ≤ 2 ^ 8 :=
    Nat.pow_le_pow_right (by norm_num) (by omega)
  omega

/-- The rotation-`k` bytes of the encoding of the rotated matrix are the
rotation-`k+1` bytes of the encoding of the matrix. -/
theorem rotationBytes_rot90 (n : Nat) (M : Mat) (hrows : M.rows = n) (hcols : M.cols = n)
    (k : Nat) (hk : k < 4) :
    rotationBytes (getByteListFromBits (rot90 n M)) k
      = rotationBytes (getByteListFromBits M) ((k + 1) % 4) := by
  apply List.ext_getElem
  · simp only [rotationBytes, List.length_map]
    exact length_rot90 n M hrows hcols
  · intro j h1 h2
    rw [rotationBytes_getElem, rotationBytes_getElem]
    exact rowByte_rot90 n M hrows hcols k j hk

/-! ## Hamming distance of lists of bytes -/

theorem hammingDistance_self (a : List Nat) : hammingDistance a a = 0 := by
  unfold hammingDistance
  induction a with
  | nil => rfl
  | cons x a ih =>
    simp only [List.zipWith_cons_cons, List.sum_cons, ih, Nat.xor_self]
    rfl

set_option maxRecDepth 100000 in
theorem bitCount_eq_zero_small : ∀ z < 256, bitCount z = 0 → z = 0 := by
  decide

theorem hammingDistance_eq_zero (a b : List Nat) (hlen : a.length = b.length)
    (ha : ∀ x ∈ a, x < 256) (hb : ∀ y ∈ b, y < 256) (h : hammingDistance a b = 0) : a = b := by
  induction a generalizing b with
  | nil =>
    cases b with
    | nil => rfl
    | cons y b => simp at hlen
  | cons x a ih =>
    cases b with
    | nil => simp at hlen
    | cons y b =>
      simp only [hammingDistance, List.zipWith_cons_cons, List.sum_cons,
        Nat.add_eq_zero_iff] at h
      have hx := ha x (by simp)
      have hy := hb y (by simp)
      have hxy : x ^^^ y < 256 := Nat.xor_lt_two_pow (n := 8) hx hy
      have hz := bitCount_eq_zero_small _ hxy h.1
      have : x = y := Nat.xor_eq_zero.mp hz
      rw [this, ih b (by simpa using hlen) (fun x hx => ha x (by simp [hx]))
        (fun y hy => hb y (by simp [hy])) h.2]

theorem rotationBytes_lt (M : Mat) (k : Nat) (hk : k < 4) :
    ∀ x ∈ rotationBytes (getByteListFromBits M) k, x < 256 := by
  intro x hx
  obtain ⟨j, hj, rfl⟩ := List.getElem_of_mem hx
  rw [rotationBytes_getElem]
  exact rowByte_lt M k j hk

/-! ## Distance to a codeword -/

theorem getDistanceToId_all (d : Dictionary) (X : Mat) (m : Nat) (hm : m < d.bytesList.length)
    (hlen : (d.row m).length = (getByteListFromBits X).length) :
    d.getDistanceToId X (m : Int) true
      = some (min (distanceInit X) (minRotDistance (d.row m) (getByteListFromBits X) : Int)) := by
  unfold Dictionary.getDistanceToId
  rw [if_pos ⟨by omega, by exact_mod_cast hm⟩]
  have hr : List.range 4 = [0, 1, 2, 3] := rfl
  simp only [Bool.not_true, Bool.false_eq_true, if_false, Int.toNat_ofNat, hr, List.foldl_cons,
    List.foldl_nil, hammingSum_eq_rotDistance _ _ _ hlen, Option.some.injEq]
  unfold minRotDistance distanceInit
  generalize rotDistance (d.row m) (getByteListFromBits X) 0 = a
  generalize rotDistance (d.row m) (getByteListFromBits X) 1 = b
  generalize rotDistance (d.row m) (getByteListFromBits X) 2 = c
  generalize rotDistance (d.row m) (getByteListFromBits X) 3 = e
  generalize hmin : min (min (min a b) c) e = mn
  have h1 : mn ≤ a := by omega
  have h2 : mn ≤ b := by omega
  have h3 : mn ≤ c := by omega
  have h4 : mn ≤ e := by omega
  have h5 : mn = a ∨ mn = b ∨ mn = c ∨ mn = e := by omega
  clear hmin
  split_ifs <;> omega

theorem getDistanceToId_one (d : Dictionary) (X : Mat) (m : Nat) (hm : m < d.bytesList.length)
    (hlen : (d.row m).length = (getByteListFromBits X).length) :
    d.getDistanceToId X (m : Int) false
      = some (min (distanceInit X) (rotDistance (d.row m) (getByteListFromBits X) 0 : Int)) := by
  unfold Dictionary.getDistanceToId
  rw [if_pos ⟨by omega, by exact_mod_cast hm⟩]
  have hr : List.range 1 = [0] := rfl
  simp only [Bool.not_false, if_true, Int.toNat_ofNat, hr, List.foldl_cons,
    List.foldl_nil, hammingSum_eq_rotDistance _ _ _ hlen, Option.some.injEq]
  unfold distanceInit
  split_ifs <;> omega

/-- For markers of side at most 215 the initial value is `(n * n) * (n * n)`. -/
theorem distanceInit_small (n : Nat) (X : Mat) (hX : X.rows = n ∧ X.cols = n) (hn : n ≤ 215) :
    distanceInit X = ((n * n * (n * n) : Nat) : Int) ∧ n * n ≤ n * n * (n * n) := by
  have h1 : n * n ≤ 215 * 215 := Nat.mul_le_mul hn hn
  have h2 : n * n * (n * n) ≤ (215 * 215) * (215 * 215) := Nat.mul_le_mul h1 h1
  have h3 : n * n ≤ n * n * (n * n) := by
    rcases Nat.eq_zero_or_pos (n * n) with h | h
    · rw [h]
    · exact Nat.le_mul_of_pos_right _ h
  refine ⟨?_, h3⟩
  unfold distanceInit Mat.total toInt32
  rw [hX.1, hX.2]
  generalize n * n * (n * n) = Q at h2 ⊢
  norm_num at h2
  have h4 : Q % 2 ^ 64 % 2 ^ 32 = Q := by omega
  rw [h4, if_pos (by omega)]

theorem row_singleton (l : List Vec4b) (n : Nat) (c : Int) : (Dictionary.mk [l] n c).row 0 = l :=
  rfl

/-! ## C1: round trip -/

/-- C1, at the failing input: the `1 × 1` matrix with its cell set is encoded as the byte 1,
and decoding that byte yields the matrix with its cell clear; the round trip fails. -/
theorem round_trip_fails_at_size_one :
    getByteListFromBits (Mat.ofRows 1 [[1]]) = [⟨1, 1, 1, 1⟩] ∧
    (getBitsFromByteList (getByteListFromBits (Mat.ofRows 1 [[1]])) 1).map (fun D => D.at_ 0 0)
      = some 0 ∧
    (Mat.ofRows 1 [[1]]).at_ 0 0 = 1 := by
  decide

/-- The round trip holds for every side `n ≥ 3` with `n² + 1 ≤ INT_MAX`: decoding the
encoding of an `n × n` matrix of bits succeeds and gives back the matrix, cell for cell. -/
theorem round_trip_from_size_three (n : Nat) (M : Mat) (hn : 3 ≤ n)
    (hint : n * n + 1 ≤ 2 ^ 31 - 1)
    (hrows : M.rows = n) (hcols : M.cols = n) (hbits : IsBitMat n M) :
    ∃ D, getBitsFromByteList (getByteListFromBits M) n = some D ∧ D.rows = n ∧ D.cols = n ∧
      ∀ r c, r < n → c < n → D.at_ r c = M.at_ r c := by
  have h8 : 8 ≤ n * n := by nlinarith
  have h32 : n * n < 2 ^ 32 := by omega
  obtain ⟨D, h1, h2, h3, h4⟩ := decode_encode n M hrows hcols h8 h32
  refine ⟨D, h1, h2, h3, ?_⟩
  intro r c hr hc
  rw [h4 r c hr hc]
  have := hbits r hr c hc
  split_ifs <;> omega

/-- The round trip at a concrete `3 × 3` matrix. -/
theorem round_trip_from_size_three_witness :
    ∃ D, getBitsFromByteList (getByteListFromBits markerB) 3 = some D ∧ D.rows = 3 ∧ D.cols = 3 ∧
      ∀ r c, r < 3 → c < 3 → D.at_ r c = markerB.at_ r c :=
  round_trip_from_size_three 3 markerB (by decide) (by decide) rfl rfl (by decide)

/-! ## C3: rotation consistency -/

/-- C3: for an `n × n` matrix `M` and its rotation `R(row, col) = M(col, n-1-row)`, the
rotation-`k` bytes of the encoding of `R` are the rotation-`(k+1) mod 4` bytes of the
encoding of `M`, for each `k` in `0..3`. -/
theorem rotation_consistency (n : Nat) (M : Mat) (hrows : M.rows = n) (hcols : M.cols = n)
    (k : Nat) (hk : k < 4) :
    rotationBytes (getByteListFromBits (rot90 n M)) k
      = rotationBytes (getByteListFromBits M) ((k + 1) % 4) :=
  rotationBytes_rot90 n M hrows hcols k hk

/-- C3 at the marker `markerB`, rotation 0. -/
theorem rotation_consistency_witness :
    rotationBytes (getByteListFromBits (rot90 3 markerB)) 0
        = rotationBytes (getByteListFromBits markerB) ((0 + 1) % 4) ∧
      rotationBytes (getByteListFromBits markerB) 1 = [18, 0] :=
  ⟨rotation_consistency 3 markerB rfl rfl 0 (by decide), by decide⟩

/-! ## C4: distance to a codeword -/

/-- C4, at the failing input: for the `216 × 216` all-zero candidate and the codeword of the
same matrix, no cell differs, and `getDistanceToId` returns `-2118184960`: its initial
value `int(bits.total() * bits.total())` has wrapped around. -/
theorem getDistanceToId_overflow :
    largeDictionary.getDistanceToId (Mat.zeros 216 216) 0 false = some (-2118184960) ∧
    largeDictionary.getDistanceToId (Mat.zeros 216 216) 0 true = some (-2118184960) ∧
    countDiff 216 (Mat.zeros 216 216) (Mat.zeros 216 216) = 0 := by
  have hinit : distanceInit (Mat.zeros 216 216) = -2118184960 := by decide
  have hm : 0 < largeDictionary.bytesList.length := by decide
  have hlen : (largeDictionary.row 0).length = (getByteListFromBits (Mat.zeros 216 216)).length :=
    congrArg List.length (row_singleton _ 216 0)
  have h1 := getDistanceToId_one largeDictionary (Mat.zeros 216 216) 0 hm hlen
  have h2 := getDistanceToId_all largeDictionary (Mat.zeros 216 216) 0 hm hlen
  rw [hinit] at h1 h2
  refine ⟨?_, ?_, ?_⟩
  · rw [show ((0 : Nat) : Int) = 0 from rfl] at h1
    rw [h1]
    exact congrArg some (by omega)
  · rw [show ((0 : Nat) : Int) = 0 from rfl] at h2
    rw [h2]
    exact congrArg some (by omega)
  · simp [countDiff, Mat.zeros]

theorem rotK_dims (n : Nat) (M : Mat) (hM : M.rows = n ∧ M.cols = n) (k : Nat) :
    (rotK n M k).rows = n ∧ (rotK n M k).cols = n := by
  cases k with
  | zero => exact hM
  | succ k => exact ⟨rfl, rfl⟩

theorem isBitMat_rot90 (n : Nat) (M : Mat) (h : IsBitMat n M) : IsBitMat n (rot90 n M) := by
  intro r hr c hc
  exact h c hc (n - 1 - r) (by omega)

theorem isBitMat_rotK (n : Nat) (M : Mat) (h : IsBitMat n M) (k : Nat) :
    IsBitMat n (rotK n M k) := by
  induction k with
  | zero => exact h
  | succ k ih => exact isBitMat_rot90 n _ ih

theorem cellBit_rotK (n : Nat) (M : Mat) (hM : M.rows = n ∧ M.cols = n) (k i : Nat)
    (hk : k < 4) (hi : i < n * n) : cellBit (rotK n M k) 0 i = cellBit M k i := by
  induction k with
  | zero => rfl
  | succ k ih =>
    have hd := rotK_dims n M hM k
    -- the rotation-`j` stream of `rotK k` is the rotation-`j+k` stream of `M`
    have key : ∀ k' j, k' + j < 4 → cellBit (rotK n M k') j i = cellBit M (k' + j) i := by
      intro k'
      induction k' with
      | zero => intro j _; rw [Nat.zero_add]; rfl
      | succ k' ih' =>
        intro j hj
        have hd' := rotK_dims n M hM k'
        show cellBit (rot90 n (rotK n M k')) j i = _
        rw [cellBit_rot90 n _ hd'.1 hd'.2 j i (by omega) hi,
          Nat.mod_eq_of_lt (by omega), ih' (j + 1) (by omega)]
        congr 1
        omega
    exact key (k + 1) 0 (by omega)

theorem countDiff_comm (n : Nat) (X M : Mat) : countDiff n X M = countDiff n M X := by
  unfold countDiff
  congr 1
  apply Finset.filter_congr
  intro p _
  exact ne_comm

/-- The distance of the rotation-`k` bytes of the encoding of `M` to the encoding of `X`
is the number of cells at which `X` differs from `M` rotated `k` times. -/
theorem rotDistance_eq_countDiff (n : Nat) (X M : Mat) (hX : X.rows = n ∧ X.cols = n)
    (hM : M.rows = n ∧ M.cols = n) (hXb : IsBitMat n X) (hMb : IsBitMat n M)
    (k : Nat) (hk : k < 4) :
    rotDistance (getByteListFromBits M) (getByteListFromBits X) k
      = countDiff n X (rotK n M k) := by
  have hlen : (getByteListFromBits M).length = (getByteListFromBits X).length := by
    rw [length_getByteListFromBits, length_getByteListFromBits, hX.1, hX.2, hM.1, hM.2]
  rw [← hammingSum_eq_rotDistance _ _ _ hlen,
    hammingSum_encodings M X k 0 hk (by norm_num) (by rw [hX.1, hX.2, hM.1, hM.2]),
    hX.1, hX.2, countDiff_comm,
    ← streamDiff_eq_countDiff n _ X (isBitMat_rotK n M hMb k) hXb (rotK_dims n M hM k).2 hX.2]
  exact streamDiff_congr _ _ _ _ _ (fun i hi => (cellBit_rotK n M hM k i hk hi).symm)
    (fun _ _ => rfl)

theorem countDiff_le (n : Nat) (X M : Mat) : countDiff n X M ≤ n * n := by
  unfold countDiff
  calc _ ≤ (Finset.range n ×ˢ Finset.range n).card := Finset.card_filter_le _ _
    _ = n * n := by simp

/-- For sides `n ≤ 215`, `getDistanceToId` is the Hamming distance between patterns: with
row `id` the encoding of `M`, it returns the number of cells at which `X` and `M` differ
(rotation 0 only), resp. the minimum over `k = 0..3` of the number of cells at which `X`
differs from `M` rotated `k` times. -/
theorem getDistanceToId_counts_cells (d : Dictionary) (n : Nat) (X M : Mat) (id : Nat)
    (hn : n ≤ 215) (hX : X.rows = n ∧ X.cols = n) (hM : M.rows = n ∧ M.cols = n)
    (hXb : IsBitMat n X) (hMb : IsBitMat n M) (hid : id < d.bytesList.length)
    (hrow : d.row id = getByteListFromBits M) :
    d.getDistanceToId X (id : Int) false = some (countDiff n X M : Int) ∧
    d.getDistanceToId X (id : Int) true
      = some ((min (min (min (countDiff n X M) (countDiff n X (rot90 n M)))
          (countDiff n X (rot90 n (rot90 n M))))
          (countDiff n X (rot90 n (rot90 n (rot90 n M)))) : Nat) : Int) := by
  have hlen : (d.row id).length = (getByteListFromBits X).length := by
    rw [hrow, length_getByteListFromBits, length_getByteListFromBits, hX.1, hX.2, hM.1, hM.2]
  obtain ⟨hinit, hle⟩ := distanceInit_small n X hX hn
  have h0 := rotDistance_eq_countDiff n X M hX hM hXb hMb 0 (by norm_num)
  have h1 := rotDistance_eq_countDiff n X M hX hM hXb hMb 1 (by norm_num)
  have h2 := rotDistance_eq_countDiff n X M hX hM hXb hMb 2 (by norm_num)
  have h3 := rotDistance_eq_countDiff n X M hX hM hXb hMb 3 (by norm_num)
  simp only [rotK] at h0 h1 h2 h3
  have hc0 := countDiff_le n X M
  constructor
  · rw [getDistanceToId_one d X id hid hlen, hinit, hrow, h0]
    congr 1
    omega
  · rw [getDistanceToId_all d X id hid hlen, hinit, hrow]
    unfold minRotDistance
    rw [h0, h1, h2, h3]
    congr 1
    omega

/-- The distance theorem at the dictionary `twoRows`, candidate `markerB`, row 0. -/
theorem getDistanceToId_counts_cells_witness :
    twoRows.getDistanceToId markerB ((0 : Nat) : Int) false = some (countDiff 3 markerB markerA : Int) ∧
    twoRows.getDistanceToId markerB ((0 : Nat) : Int) true
      = some ((min (min (min (countDiff 3 markerB markerA) (countDiff 3 markerB (rot90 3 markerA)))
          (countDiff 3 markerB (rot90 3 (rot90 3 markerA))))
          (countDiff 3 markerB (rot90 3 (rot90 3 (rot90 3 markerA)))) : Nat) : Int) :=
  getDistanceToId_counts_cells twoRows 3 markerB markerA 0 (by decide) ⟨rfl, rfl⟩ ⟨rfl, rfl⟩
    (by decide) (by decide) (by decide) rfl

/-! ## C2: first-match identification -/

/-- C2, at the failing input: in `fullByteDictionary` the only row is at distance 8 from the
`1 × 1` zero candidate in every rotation, so with budget 2 no row is within the budget; yet
`identify` returns `true` with `idx = 0` and `rotation = -1`: its running minimum starts at
`markerSize * markerSize + 1 = 2`, which is within the budget. -/
theorem identify_sentinel_match :
    (∀ m, m < fullByteDictionary.bytesList.length →
      (2 : Int) < (minRotDistance (fullByteDictionary.row m)
        (getByteListFromBits (Mat.zeros 1 1)) : Int)) ∧
    rotDistance (fullByteDictionary.row 0) (getByteListFromBits (Mat.zeros 1 1)) 0 = 8 ∧
    fullByteDictionary.identify (Mat.zeros 1 1) 0 2 = some (true, 0, -1) := by
  decide

/-- First-match identification, where `markerSize² + 1` bounds the distances of use: for a
codebook whose rows have `nbytes` bytes, a `markerSize × markerSize` candidate `X` and a
budget `b` that is at most `markerSize²` (or rows that are all within `markerSize²` of the
candidate), with `d(m)` the minimum over the rotations of the Hamming distance between the
rotation-`r` bytes of row `m` and the rotation-0 bytes of the encoding of `X`: if row `m`
is the first with `d(m) ≤ b`, `identify` returns `true`, `idx = m` and the smallest
rotation attaining `d(m)`; if no row has `d(m) ≤ b`, it returns `false`, `idx = -1` and
leaves `rotation` as it was. -/
theorem identify_first_match (d : Dictionary) (X : Mat) (rotation b : Int)
    (hX : X.rows = d.markerSize ∧ X.cols = d.markerSize) (hwf : WellSized d)
    (hb : InRange d (getByteListFromBits X) b) :
    (∀ m, m < d.bytesList.length →
      (minRotDistance (d.row m) (getByteListFromBits X) : Int) ≤ b →
      (∀ m', m' < m → b < (minRotDistance (d.row m') (getByteListFromBits X) : Int)) →
      ∃ r : Nat, r < 4 ∧ d.identify X rotation b = some (true, (m : Int), (r : Int)) ∧
        rotDistance (d.row m) (getByteListFromBits X) r
          = minRotDistance (d.row m) (getByteListFromBits X) ∧
        ∀ r' : Nat, r' < r → rotDistance (d.row m) (getByteListFromBits X) r'
          ≠ minRotDistance (d.row m) (getByteListFromBits X)) ∧
    ((∀ m, m < d.bytesList.length →
        b < (minRotDistance (d.row m) (getByteListFromBits X) : Int)) →
      d.identify X rotation b = some (false, -1, rotation)) :=
  identify_spec d X rotation b hX hwf hb

/-- First-match identification at `twoRows`: with budget 0 the candidate `markerB` is not
matched by row 0 (distance 1) and is matched by row 1. -/
theorem identify_first_match_witness :
    (∃ r : Nat, r < 4 ∧ twoRows.identify markerB 7 0 = some (true, ((1 : Nat) : Int), (r : Int)) ∧
        rotDistance (twoRows.row 1) (getByteListFromBits markerB) r
          = minRotDistance (twoRows.row 1) (getByteListFromBits markerB) ∧
        ∀ r' : Nat, r' < r → rotDistance (twoRows.row 1) (getByteListFromBits markerB) r'
          ≠ minRotDistance (twoRows.row 1) (getByteListFromBits markerB)) ∧
    twoRows.identify markerB 7 0 = some (true, 1, 0) :=
  ⟨(identify_first_match twoRows markerB 7 0 (by decide) (by decide) (by decide)).1 1
    (by decide) (by decide) (by decide), by decide⟩

/-- A codebook of encodings of `markerSize × markerSize` matrices is within `markerSize²`
of every candidate of that size: first-match identification then holds for every budget. -/
theorem inRange_of_encoded (d : Dictionary) (X : Mat) (b : Int)
    (hX : X.rows = d.markerSize ∧ X.cols = d.markerSize)
    (henc : ∀ m, m < d.bytesList.length → ∃ M : Mat, M.rows = d.markerSize ∧
      M.cols = d.markerSize ∧ d.row m = getByteListFromBits M) :
    InRange d (getByteListFromBits X) b := by
  refine Or.inr (fun m hm => ?_)
  obtain ⟨M, hr, hc, hrow⟩ := henc m hm
  have hlen : (getByteListFromBits M).length = (getByteListFromBits X).length := by
    rw [length_getByteListFromBits, length_getByteListFromBits, hX.1, hX.2, hr, hc]
  have h0 : rotDistance (getByteListFromBits M) (getByteListFromBits X) 0
      ≤ d.markerSize * d.markerSize := by
    rw [← hammingSum_eq_rotDistance _ _ _ hlen,
      hammingSum_encodings M X 0 0 (by norm_num) (by norm_num) (by rw [hX.1, hX.2, hr, hc]),
      hX.1, hX.2]
    exact streamDiff_le _ _ _
  rw [hrow]
  unfold minRotDistance
  omega

/-! ## C5: self-identification -/

theorem minRotDistance_le (row cand : List Vec4b) (r : Nat) (hr : r < 4) :
    minRotDistance row cand ≤ rotDistance row cand r := by
  unfold minRotDistance
  interval_cases r <;> omega

theorem rotDistance_self (row : List Vec4b) : rotDistance row row 0 = 0 :=
  hammingDistance_self _

/-- Decoding a row that is the encoding of a matrix, `markerSize ≥ 3`, and encoding the
result again gives the row back. -/
theorem encode_decode_row (n : Nat) (M : Mat) (hM : M.rows = n ∧ M.cols = n)
    (h8 : 8 ≤ n * n) (h32 : n * n < 2 ^ 32) :
    ∃ D, getBitsFromByteList (getByteListFromBits M) n = some D ∧ D.rows = n ∧ D.cols = n ∧
      SameBits n D M ∧ getByteListFromBits D = getByteListFromBits M := by
  obtain ⟨D, h1, h2, h3, h4⟩ := decode_encode n M hM.1 hM.2 h8 h32
  have hsame : SameBits n D M := by
    intro r c hr hc
    rw [h4 r c hr hc]
    split_ifs with h <;> simp [h]
  exact ⟨D, h1, h2, h3, hsame, getByteListFromBits_congr n D M ⟨h2, h3⟩ hM hsame⟩

/-- C5 as stated fails: in `twoRows`, the decoded pattern of codeword 1 with budget 1 is
identified as codeword 0, which is at distance 1 and comes first. -/
theorem self_identification_counterexample :
    (getBitsFromByteList (twoRows.row 1) twoRows.markerSize).bind
      (fun D => twoRows.identify D 0 1) = some (true, 0, 0) := by
  decide

/-- C5, amended: for `markerSize ≥ 3` with `markerSize² + 1 ≤ INT_MAX`, a codeword `k` that
is the encoding of a `markerSize × markerSize` matrix, and a budget `b ≥ 0` that no earlier
row meets (each earlier row is farther than `b` from codeword `k`), decoding row `k`
succeeds and `identify` on the decoded pattern returns `true`, `idx = k` and
`rotation = 0`. -/
theorem self_identification (d : Dictionary) (k : Nat) (M : Mat) (rotation b : Int)
    (hn : 8 ≤ d.markerSize * d.markerSize)
    (hint : d.markerSize * d.markerSize + 1 ≤ 2 ^ 31 - 1)
    (hk : k < d.bytesList.length) (hM : M.rows = d.markerSize ∧ M.cols = d.markerSize)
    (hrow : d.row k = getByteListFromBits M) (hwf : WellSized d) (hb0 : 0 ≤ b)
    (hb : InRange d (d.row k) b)
    (hearlier : ∀ m', m' < k → b < (minRotDistance (d.row m') (d.row k) : Int)) :
    ∃ D, getBitsFromByteList (d.row k) d.markerSize = some D ∧
      d.identify D rotation b = some (true, (k : Int), 0) := by
  have h32 : d.markerSize * d.markerSize < 2 ^ 32 := by omega
  obtain ⟨D, h1, h2, h3, -, h5⟩ := encode_decode_row d.markerSize M hM hn h32
  rw [← hrow] at h1 h5
  refine ⟨D, h1, ?_⟩
  have hspec := (identify_spec d D rotation b ⟨h2, h3⟩ hwf (by rw [h5]; exact hb)).1 k hk
  rw [h5] at hspec
  have hzero : minRotDistance (d.row k) (d.row k) = 0 := by
    have := minRotDistance_le (d.row k) (d.row k) 0 (by norm_num)
    rw [rotDistance_self] at this
    omega
  obtain ⟨r, hr, hid, hdist, hfirst⟩ := hspec (by rw [hzero]; exact hb0) hearlier
  have hr0 : r = 0 := by
    by_contra hne
    exact hfirst 0 (by omega) (by rw [rotDistance_self, hzero])
  rw [hid, hr0]
  rfl

/-- C5, amended, at codeword 1 of `twoRows` with budget 0. -/
theorem self_identification_witness :
    ∃ D, getBitsFromByteList (twoRows.row 1) twoRows.markerSize = some D ∧
      twoRows.identify D 7 0 = some (true, ((1 : Nat) : Int), 0) :=
  self_identification twoRows 1 markerB 7 0 (by decide) (by decide) (by decide) ⟨rfl, rfl⟩ rfl
    (by decide) (by decide) (by decide) (by decide)

/-! ## C6: rotated self-identification -/

/-- C6 as stated fails: the all-zero marker is its own rotation, and `identify` on the
rotated decode of its codeword reports rotation 0, not 1. -/
theorem rotated_self_identification_counterexample :
    (getBitsFromByteList (zeroDictionary.row 0) zeroDictionary.markerSize).bind
      (fun D => zeroDictionary.identify (rot90 zeroDictionary.markerSize D) 0 0)
      = some (true, 0, 0) := by
  decide

/-- C6, amended: for `markerSize ≥ 3` with `markerSize² + 1 ≤ INT_MAX`, a codeword `k` that
is the encoding of a `markerSize × markerSize` matrix `M` whose rotation-0 bytes differ from
its rotation-1 bytes, and a budget `b ≥ 0` that no earlier row meets for the rotated
pattern, `identify` on the 90-degree rotation of the decoded pattern of codeword `k`
returns `true`, `idx = k` and `rotation = 1`. -/
theorem rotated_self_identification (d : Dictionary) (k : Nat) (M : Mat) (rotation b : Int)
    (hn : 8 ≤ d.markerSize * d.markerSize)
    (hint : d.markerSize * d.markerSize + 1 ≤ 2 ^ 31 - 1)
    (hk : k < d.bytesList.length) (hM : M.rows = d.markerSize ∧ M.cols = d.markerSize)
    (hrow : d.row k = getByteListFromBits M) (hwf : WellSized d) (hb0 : 0 ≤ b)
    (hasym : rotationBytes (d.row k) 0 ≠ rotationBytes (d.row k) 1)
    (hb : InRange d (getByteListFromBits (rot90 d.markerSize M)) b)
    (hearlier : ∀ m', m' < k →
      b < (minRotDistance (d.row m') (getByteListFromBits (rot90 d.markerSize M)) : Int)) :
    ∃ D, getBitsFromByteList (d.row k) d.markerSize = some D ∧
      d.identify (rot90 d.markerSize D) rotation b = some (true, (k : Int), 1) := by
  have h32 : d.markerSize * d.markerSize < 2 ^ 32 := by omega
  obtain ⟨D, h1, h2, h3, hsame, -⟩ := encode_decode_row d.markerSize M hM hn h32
  rw [← hrow] at h1
  refine ⟨D, h1, ?_⟩
  have hcand : getByteListFromBits (rot90 d.markerSize D)
      = getByteListFromBits (rot90 d.markerSize M) :=
    getByteListFromBits_congr d.markerSize _ _ ⟨rfl, rfl⟩ ⟨rfl, rfl⟩
      (sameBits_rot90 d.markerSize D M hsame)
  have hspec := (identify_spec d (rot90 d.markerSize D) rotation b ⟨rfl, rfl⟩ hwf
    (by rw [hcand]; exact hb)).1 k hk
  rw [hcand] at hspec
  -- the rotation-0 bytes of the candidate are the rotation-1 bytes of the row
  have hbytes : rotationBytes (getByteListFromBits (rot90 d.markerSize M)) 0
      = rotationBytes (d.row k) 1 := by
    rw [hrow]
    exact rotationBytes_rot90 d.markerSize M hM.1 hM.2 0 (by norm_num)
  have hone : rotDistance (d.row k) (getByteListFromBits (rot90 d.markerSize M)) 1 = 0 := by
    unfold rotDistance
    rw [hbytes]
    exact hammingDistance_self _
  have hnz : rotDistance (d.row k) (getByteListFromBits (rot90 d.markerSize M)) 0 ≠ 0 := by
    unfold rotDistance
    rw [hbytes]
    intro h0
    apply hasym
    apply hammingDistance_eq_zero _ _ (by simp [rotationBytes]) _ _ h0
    · rw [hrow]; exact rotationBytes_lt M 0 (by norm_num)
    · rw [hrow]; exact rotationBytes_lt M 1 (by norm_num)
  have hzero : minRotDistance (d.row k) (getByteListFromBits (rot90 d.markerSize M)) = 0 := by
    have := minRotDistance_le (d.row k) (getByteListFromBits (rot90 d.markerSize M)) 1
      (by norm_num)
    omega
  obtain ⟨r, hr, hid, hdist, hfirst⟩ := hspec (by rw [hzero]; exact hb0) hearlier
  have hr1 : r = 1 := by
    rw [hzero] at hdist hfirst
    have h0 : r ≠ 0 := fun h => hnz (h ▸ hdist)
    by_contra hne
    exact hfirst 1 (by omega) hone
  rw [hid, hr1]
  rfl

/-- C6, amended, at codeword 1 of `twoRows` with budget 0. -/
theorem rotated_self_identification_witness :
    ∃ D, getBitsFromByteList (twoRows.row 1) twoRows.markerSize = some D ∧
      twoRows.identify (rot90 twoRows.markerSize D) 7 0 = some (true, ((1 : Nat) : Int), 1) :=
  rotated_self_identification twoRows 1 markerB 7 0 (by decide) (by decide) (by decide)
    ⟨rfl, rfl⟩ rfl (by decide) (by decide) (by decide) (by decide) (by decide)

/-! ## C7: identification within the budget -/

/-- C7 as stated fails: in `twoRows` the candidate `markerB` is at distance 0 from
codeword 1, and with budget 1 `identify` returns codeword 0, whose distance 1 is within
the budget and larger than 0. -/
theorem identify_within_budget_counterexample :
    twoRows.getDistanceToId markerB 1 true = some 0 ∧ (0 : Int) ≤ 1 ∧
    twoRows.identify markerB 0 1 = some (true, 0, 0) ∧
    twoRows.getDistanceToId markerB 0 true = some 1 ∧ ¬ ((1 : Int) ≤ 0) := by
  decide

/-- C7, amended: for `markerSize ≤ 215`, a codebook whose rows have `nbytes` bytes and are
each within `markerSize²` of the candidate `X` (as encodings of matrices are), if
`getDistanceToId(X, id, true) = dist` and the budget `b` is at least `dist`, then
`identify` returns `true` with `idx = id`, or with an earlier `idx < id` whose own
distance `getDistanceToId(X, idx, true)` is at most the budget `b`. -/
theorem identify_within_budget (d : Dictionary) (X : Mat) (id : Nat) (dist b rotation : Int)
    (hX : X.rows = d.markerSize ∧ X.cols = d.markerSize) (hwf : WellSized d)
    (hn : d.markerSize ≤ 215)
    (hrange : ∀ m, m < d.bytesList.length →
      minRotDistance (d.row m) (getByteListFromBits X) ≤ d.markerSize * d.markerSize)
    (hid : id < d.bytesList.length)
    (hdist : d.getDistanceToId X (id : Int) true = some dist) (hb : dist ≤ b) :
    ∃ idx r : Nat, d.identify X rotation b = some (true, (idx : Int), (r : Int)) ∧ r < 4 ∧
      (idx = id ∨ (idx < id ∧
        ∃ dist' : Int, d.getDistanceToId X (idx : Int) true = some dist' ∧ dist' ≤ b)) := by
  obtain ⟨hinit, hle⟩ := distanceInit_small d.markerSize X hX hn
  have hlen : ∀ m, m < d.bytesList.length → (d.row m).length = (getByteListFromBits X).length :=
    fun m hm => by rw [hwf m hm, length_candidate d X hX]
  -- `getDistanceToId` is the minimum distance over the rotations
  have hget : ∀ m, m < d.bytesList.length → d.getDistanceToId X (m : Int) true
      = some (minRotDistance (d.row m) (getByteListFromBits X) : Int) := by
    intro m hm
    rw [getDistanceToId_all d X m hm (hlen m hm), hinit]
    have := hrange m hm
    exact congrArg some (by omega)
  rw [hget id hid] at hdist
  have hdist' : (minRotDistance (d.row id) (getByteListFromBits X) : Int) = dist :=
    Option.some.inj hdist
  -- the first row within the budget
  have hex : ∃ m, m < d.bytesList.length ∧
      (minRotDistance (d.row m) (getByteListFromBits X) : Int) ≤ b :=
    ⟨id, hid, by omega⟩
  classical
  have hfind := Nat.find_spec hex
  have hmin : ∀ m', m' < Nat.find hex →
      b < (minRotDistance (d.row m') (getByteListFromBits X) : Int) := by
    intro m' hm'
    have h := Nat.find_min hex hm'
    have hlt : m' < d.bytesList.length := by have := hfind.1; omega
    by_contra hcon
    exact h ⟨hlt, by omega⟩
  have hle_id : Nat.find hex ≤ id := Nat.find_min' hex ⟨hid, by omega⟩
  obtain ⟨r, hr, hident, -, -⟩ :=
    (identify_spec d X rotation b hX hwf (Or.inr hrange)).1 (Nat.find hex) hfind.1 hfind.2 hmin
  refine ⟨Nat.find hex, r, hident, hr, ?_⟩
  rcases Nat.eq_or_lt_of_le hle_id with h | h
  · exact Or.inl h
  · exact Or.inr ⟨h, _, hget _ hfind.1, hfind.2⟩

/-- C7, amended, at `twoRows`, candidate `markerB`, `id = 1`, budget 1. -/
theorem identify_within_budget_witness :
    ∃ idx r : Nat, twoRows.identify markerB 7 1 = some (true, (idx : Int), (r : Int)) ∧ r < 4 ∧
      (idx = 1 ∨ (idx < 1 ∧
        ∃ dist' : Int, twoRows.getDistanceToId markerB (idx : Int) true = some dist' ∧
          dist' ≤ 1)) :=
  identify_within_budget twoRows markerB 1 0 1 7 (by decide) (by decide) (by decide)
    (by decide) (by decide) (by decide) (by decide)

/-! ## The generator -/

theorem getSelfDistance_eq (c : Mat) :
    getSelfDistance c
      = min ((c.total : Int) + 1) (selfDistanceOfRow (getByteListFromBits c) : Int) := by
  unfold getSelfDistance selfDistanceOfRow
  simp only [List.foldl_cons, List.foldl_nil, hammingSum_eq_hammingDistance _ _ _ _ rfl]
  generalize hammingDistance (rotationBytes (getByteListFromBits c) 0)
    (rotationBytes (getByteListFromBits c) 1) = a
  generalize hammingDistance (rotationBytes (getByteListFromBits c) 0)
    (rotationBytes (getByteListFromBits c) 2) = b
  generalize hammingDistance (rotationBytes (getByteListFromBits c) 0)
    (rotationBytes (getByteListFromBits c) 3) = e
  generalize hmin : min (min a b) e = mn
  have h1 : mn ≤ a := by omega
  have h2 : mn ≤ b := by omega
  have h3 : mn ≤ e := by omega
  have h5 : mn = a ∨ mn = b ∨ mn = e := by omega
  clear hmin
  split_ifs <;> omega

theorem getSelfDistance_le (c : Mat) :
    getSelfDistance c ≤ (selfDistanceOfRow (getByteListFromBits c) : Int) := by
  rw [getSelfDistance_eq]
  exact min_le_right _ _

theorem getDistanceToId_le (out : Dictionary) (c : Mat) (i : Nat) (cd : Int)
    (hi : i < out.bytesList.length)
    (hlen : (out.row i).length = (getByteListFromBits c).length)
    (h : out.getDistanceToId c (i : Int) true = some cd) :
    cd ≤ (minRotDistance (out.row i) (getByteListFromBits c) : Int) := by
  rw [getDistanceToId_all out c i hi hlen] at h
  have := Option.some.inj h
  omega

/-- The scan never raises the running minimum. -/
theorem scanDistances_le (out : Dictionary) (c : Mat) (bestTau : Int) (L : List Nat)
    (md0 md : Int) (h : scanDistances out c bestTau L md0 = some md) : md ≤ md0 := by
  induction L generalizing md0 with
  | nil =>
    simp only [scanDistances, Option.some.injEq] at h
    omega
  | cons i rest ih =>
    simp only [scanDistances, Option.bind_eq_some] at h
    obtain ⟨cd, -, h2⟩ := h
    split_ifs at h2 with hb
    · have := Option.some.inj h2
      omega
    · have := ih _ h2
      omega

/-- A scan that ends above `bestTau` has visited every row. -/
theorem scanDistances_full (out : Dictionary) (c : Mat) (bestTau : Int) (L : List Nat)
    (md0 md : Int)
    (hL : ∀ i ∈ L, i < out.bytesList.length ∧
      (out.row i).length = (getByteListFromBits c).length)
    (h : scanDistances out c bestTau L md0 = some md) (hbest : bestTau < md) :
    ∀ i ∈ L, md ≤ (minRotDistance (out.row i) (getByteListFromBits c) : Int) := by
  induction L generalizing md0 with
  | nil => intro i hi; simp at hi
  | cons i rest ih =>
    simp only [scanDistances, Option.bind_eq_some] at h
    obtain ⟨cd, h1, h2⟩ := h
    have hcd := getDistanceToId_le out c i cd (hL i (by simp)).1 (hL i (by simp)).2 h1
    split_ifs at h2 with hb
    · have := Option.some.inj h2
      omega
    · have hle := scanDistances_le out c bestTau rest _ md h2
      have hrest := ih _ (fun i' hi' => hL i' (by simp [hi'])) h2
      intro i' hi'
      rcases List.mem_cons.mp hi' with rfl | hmem
      · omega
      · exact hrest i' hmem

theorem length_pushBack (out : Dictionary) (w : List Vec4b) :
    (pushBack out w).bytesList.length = out.bytesList.length + 1 := by
  simp [pushBack]

theorem getD_pushBack_lt (out : Dictionary) (w : List Vec4b) (i : Nat)
    (hi : i < out.bytesList.length) :
    (pushBack out w).bytesList.getD i [] = out.bytesList.getD i [] := by
  simp only [pushBack]
  rw [List.getD_eq_getElem _ _ (by simp; omega), List.getD_eq_getElem _ _ hi,
    List.getElem_append_left hi]

theorem getD_pushBack_last (out : Dictionary) (w : List Vec4b) :
    (pushBack out w).bytesList.getD out.bytesList.length [] = w := by
  simp only [pushBack]
  rw [List.getD_eq_getElem _ _ (by simp)]
  simp

theorem rowsSized_pushBack (n : Nat) (out : Dictionary) (c : Mat)
    (hc : c.rows = n ∧ c.cols = n) (h : RowsSized n out.bytesList) :
    RowsSized n (pushBack out (getByteListFromBits c)).bytesList := by
  intro m hm
  rw [length_pushBack] at hm
  rcases Nat.lt_or_ge m out.bytesList.length with hlt | hge
  · rw [getD_pushBack_lt _ _ _ hlt]; exact h m hlt
  · have : m = out.bytesList.length := by omega
    rw [this, getD_pushBack_last, length_getByteListFromBits, hc.1, hc.2]

/-- Appending a row keeps the separation of the rows already there. -/
theorem separatedAt_pushBack (out : Dictionary) (w : List Vec4b) (j : Nat) (tau tau' : Int)
    (hj : j < out.bytesList.length) (htau : tau' ≤ tau)
    (h : SeparatedAt out.bytesList j tau) :
    SeparatedAt (pushBack out w).bytesList j tau' := by
  unfold SeparatedAt at h ⊢
  rw [getD_pushBack_lt _ _ _ hj]
  refine ⟨by omega, fun i hi => ?_⟩
  rw [getD_pushBack_lt _ _ _ (by omega)]
  have := h.2 i hi
  omega

theorem separatedAt_nonpos (rows : List (List Vec4b)) (j : Nat) (tau : Int) (h : tau ≤ 0) :
    SeparatedAt rows j tau :=
  ⟨by omega, fun _ _ => by omega⟩

/-- The new last row is separated by `tau` when its distances are. -/
theorem separatedAt_last (out : Dictionary) (w : List Vec4b) (tau : Int)
    (hself : tau ≤ (selfDistanceOfRow w : Int))
    (hpair : ∀ i, i < out.bytesList.length → tau ≤ (minRotDistance (out.row i) w : Int)) :
    SeparatedAt (pushBack out w).bytesList out.bytesList.length tau := by
  unfold SeparatedAt
  rw [getD_pushBack_last]
  refine ⟨hself, fun i hi => ?_⟩
  rw [getD_pushBack_lt _ _ _ hi]
  exact hpair i hi

/-- What the acceptance test sees: the distance computed for a candidate is at most its
self-distance, and when it exceeds `bestTau` it is at most the distance to every row. -/
theorem candidateDistance_spec (n : Nat) (s : GenState) (c : Mat) (md : Int)
    (hc : c.rows = n ∧ c.cols = n) (h : candidateDistance s c = some md) :
    md ≤ (selfDistanceOfRow (getByteListFromBits c) : Int) ∧
    (s.bestTau < md → RowsSized n s.out.bytesList →
      ∀ i, i < s.out.bytesList.length →
        md ≤ (minRotDistance (s.out.row i) (getByteListFromBits c) : Int)) := by
  unfold candidateDistance at h
  simp only [] at h
  have hsd := getSelfDistance_le c
  split_ifs at h with hscan
  · have hle := scanDistances_le _ _ _ _ _ _ h
    refine ⟨by omega, fun hbest hsized i hi => ?_⟩
    refine scanDistances_full s.out c s.bestTau _ _ md (fun i' hi' => ?_) h hbest i
      (List.mem_range.mpr hi)
    have hi'' := List.mem_range.mp hi'
    exact ⟨hi'', by rw [length_getByteListFromBits, hc.1, hc.2]; exact hsized i' hi''⟩
  · have := Option.some.inj h
    refine ⟨by omega, fun hbest => ?_⟩
    omega

/-- One iteration of the main loop keeps the invariant, and keeps or extends the rows. -/
theorem generateStep_inv (n c0 : Nat) (s s' : GenState) (c : Mat)
    (hc : c.rows = n ∧ c.cols = n) (hinv : GenInv n c0 s) (h : generateStep s c = some s') :
    GenInv n c0 s' ∧
    (s'.out.bytesList = s.out.bytesList ∨
      ∃ w, s'.out.bytesList = s.out.bytesList ++ [w]) := by
  unfold generateStep at h
  simp only [Option.bind_eq_some] at h
  obtain ⟨md, hmd, h⟩ := h
  obtain ⟨hself, hfull⟩ := candidateDistance_spec n s c md hc hmd
  by_cases hacc : md ≥ s.tau
  · -- the candidate is accepted
    rw [if_pos hacc] at h
    have hs' := (Option.some.inj h).symm
    subst hs'
    refine ⟨⟨?_, ?_, le_refl _, fun h0 => absurd h0 (lt_irrefl _)⟩, Or.inr ⟨_, rfl⟩⟩
    · rcases hinv.sized with h0 | hsz
      · exact Or.inl h0
      · exact Or.inr (rowsSized_pushBack n s.out c hc hsz)
    · intro j hc0 hj
      simp only [length_pushBack] at hj
      rcases Nat.lt_or_ge j s.out.bytesList.length with hlt | hge
      · exact separatedAt_pushBack s.out _ j s.tau s.tau hlt (le_refl _)
          (hinv.separated j hc0 hlt)
      · have hjeq : j = s.out.bytesList.length := by omega
        rw [hjeq]
        by_cases hpos : s.tau ≤ 0
        · exact separatedAt_nonpos _ _ _ hpos
        · have hsz : RowsSized n s.out.bytesList := by
            rcases hinv.sized with h0 | hsz
            · exact absurd h0 hpos
            · exact hsz
          have hbest : s.bestTau < md := by
            by_cases hb : 0 < s.bestTau
            · have := (hinv.best hb).1; omega
            · have := hinv.best_nonneg; omega
          have hpair := hfull hbest hsz
          exact separatedAt_last s.out _ s.tau (by omega) (fun i hi => by
            have := hpair i hi; omega)
  · rw [if_neg hacc] at h
    -- the best option after this candidate
    have hbest' : 0 < (if md > s.bestTau then md else s.bestTau) →
        (if md > s.bestTau then md else s.bestTau) < s.tau ∧
        (if md > s.bestTau then c else s.bestMarker).rows = n ∧
        (if md > s.bestTau then c else s.bestMarker).cols = n ∧
        (if md > s.bestTau then md else s.bestTau) ≤ (selfDistanceOfRow
          (getByteListFromBits (if md > s.bestTau then c else s.bestMarker)) : Int) ∧
        ∀ i, i < s.out.bytesList.length →
          (if md > s.bestTau then md else s.bestTau) ≤ (minRotDistance (s.out.row i)
            (getByteListFromBits (if md > s.bestTau then c else s.bestMarker)) : Int) := by
      by_cases hgt : md > s.bestTau
      · simp only [if_pos hgt]
        intro _
        have hsz : RowsSized n s.out.bytesList := by
          rcases hinv.sized with h0 | hsz
          · have := hinv.best_nonneg; omega
          · exact hsz
        exact ⟨by omega, hc.1, hc.2, hself, hfull hgt hsz⟩
      · simp only [if_neg hgt]
        exact hinv.best
    have hnonneg' : 0 ≤ (if md > s.bestTau then md else s.bestTau) := by
      have := hinv.best_nonneg
      split_ifs <;> omega
    by_cases hforce : s.unproductiveIterations + 1 = maxUnproductiveIterations
    · -- the best option is accepted and `tau` lowered to its distance
      rw [if_pos hforce] at h
      have hs' := (Option.some.inj h).symm
      subst hs'
      refine ⟨⟨?_, ?_, le_refl _, fun h0 => absurd h0 (lt_irrefl _)⟩, Or.inr ⟨_, rfl⟩⟩
      · by_cases hpos : 0 < (if md > s.bestTau then md else s.bestTau)
        · obtain ⟨hlt, hr, hcl, -, -⟩ := hbest' hpos
          have hsz : RowsSized n s.out.bytesList := by
            rcases hinv.sized with h0 | hsz
            · omega
            · exact hsz
          exact Or.inr (rowsSized_pushBack n s.out _ ⟨hr, hcl⟩ hsz)
        · exact Or.inl (by simpa using hpos)
      · intro j hc0 hj
        simp only [length_pushBack] at hj
        by_cases hpos : 0 < (if md > s.bestTau then md else s.bestTau)
        · obtain ⟨hlt, -, -, hs, hp⟩ := hbest' hpos
          rcases Nat.lt_or_ge j s.out.bytesList.length with hlt' | hge
          · exact separatedAt_pushBack s.out _ j s.tau _ hlt' (le_of_lt hlt)
              (hinv.separated j hc0 hlt')
          · have hjeq : j = s.out.bytesList.length := by omega
            rw [hjeq]
            exact separatedAt_last s.out _ _ hs hp
        · exact separatedAt_nonpos _ _ _ (by simpa using hpos)
    · rw [if_neg hforce] at h
      have hs' := (Option.some.inj h).symm
      subst hs'
      exact ⟨⟨hinv.sized, hinv.separated, hnonneg', hbest'⟩, Or.inl rfl⟩

/-! ## Runs of the main loop -/

/-- One iteration keeps the rows or appends one. -/
theorem generateStep_rows (s s' : GenState) (c : Mat) (h : generateStep s c = some s') :
    s'.out.bytesList = s.out.bytesList ∨ ∃ w, s'.out.bytesList = s.out.bytesList ++ [w] := by
  unfold generateStep at h
  simp only [Option.bind_eq_some] at h
  obtain ⟨md, -, h⟩ := h
  by_cases hacc : md ≥ s.tau
  · rw [if_pos hacc] at h
    have hs' := (Option.some.inj h).symm
    subst hs'
    exact Or.inr ⟨_, rfl⟩
  · rw [if_neg hacc] at h
    by_cases hforce : s.unproductiveIterations + 1 = maxUnproductiveIterations
    · rw [if_pos hforce] at h
      have hs' := (Option.some.inj h).symm
      subst hs'
      exact Or.inr ⟨_, rfl⟩
    · rw [if_neg hforce] at h
      have hs' := (Option.some.inj h).symm
      subst hs'
      exact Or.inl rfl

theorem generateTrace_succ (nMarkers : Int) (draw : Nat → Mat) (s0 s' : GenState) (t : Nat)
    (h : generateTrace nMarkers draw s0 (t + 1) = some s') :
    ∃ s, generateTrace nMarkers draw s0 t = some s ∧
      (s.out.bytesList.length : Int) < nMarkers ∧ generateStep s (draw t) = some s' := by
  simp only [generateTrace, Option.bind_eq_some] at h
  obtain ⟨s, hs, h⟩ := h
  split_ifs at h with hcond
  exact ⟨s, hs, hcond, h⟩

theorem generateTrace_step (nMarkers : Int) (draw : Nat → Mat) (s0 s s' : GenState) (t : Nat)
    (ht : generateTrace nMarkers draw s0 t = some s)
    (hcond : (s.out.bytesList.length : Int) < nMarkers)
    (hstep : generateStep s (draw t) = some s') :
    generateTrace nMarkers draw s0 (t + 1) = some s' := by
  simp only [generateTrace, ht, Option.some_bind, if_pos hcond, hstep]

/-- The invariant holds along a run. -/
theorem generateTrace_inv (n c0 : Nat) (nMarkers : Int) (draw : Nat → Mat) (s0 : GenState)
    (hdraw : ∀ t, (draw t).rows = n ∧ (draw t).cols = n) (h0 : GenInv n c0 s0)
    (t : Nat) (s : GenState) (h : generateTrace nMarkers draw s0 t = some s) :
    GenInv n c0 s := by
  induction t generalizing s with
  | zero =>
    simp only [generateTrace, Option.some.injEq] at h
    exact h ▸ h0
  | succ t ih =>
    obtain ⟨s1, h1, -, hstep⟩ := generateTrace_succ nMarkers draw s0 s t h
    exact (generateStep_inv n c0 s1 s (draw t) (hdraw t) (ih s1 h1) hstep).1

/-- The rows at an earlier iteration are a prefix of the rows at a later one. -/
theorem generateTrace_rows_grow (nMarkers : Int) (draw : Nat → Mat) (s0 : GenState)
    (t k : Nat) (s sf : GenState) (ht : generateTrace nMarkers draw s0 t = some s)
    (hT : generateTrace nMarkers draw s0 (t + k) = some sf) :
    s.out.bytesList <+: sf.out.bytesList := by
  induction k generalizing sf with
  | zero =>
    rw [Nat.add_zero, ht] at hT
    exact (Option.some.inj hT) ▸ List.prefix_refl _
  | succ k ih =>
    obtain ⟨s1, h1, -, hstep⟩ := generateTrace_succ nMarkers draw s0 sf (t + k) hT
    have hp := ih s1 h1
    rcases generateStep_rows s1 sf _ hstep with h | ⟨w, h⟩
    · rw [h]; exact hp
    · rw [h]; exact hp.trans (List.prefix_append _ _)

theorem generateTrace_none (nMarkers : Int) (draw : Nat → Mat) (s0 : GenState) (t k : Nat)
    (h : generateTrace nMarkers draw s0 t = none) :
    generateTrace nMarkers draw s0 (t + k) = none := by
  induction k with
  | zero => exact h
  | succ k ih =>
    show (generateTrace nMarkers draw s0 (t + k)).bind _ = none
    rw [ih]; rfl

/-- A run of the loop that returns has left the loop at some iteration `T` of the trace. -/
theorem generateLoop_trace (nMarkers : Int) (draw : Nat → Mat) (s0 : GenState) (fuel t : Nat)
    (s sf : GenState) (ht : generateTrace nMarkers draw s0 t = some s)
    (h : generateLoop nMarkers draw fuel t s = some sf) :
    ∃ T, t ≤ T ∧ generateTrace nMarkers draw s0 T = some sf ∧
      ¬ ((sf.out.bytesList.length : Int) < nMarkers) := by
  induction fuel generalizing t s with
  | zero => simp [generateLoop] at h
  | succ fuel ih =>
    unfold generateLoop at h
    split_ifs at h with hcond
    · simp only [Option.bind_eq_some] at h
      obtain ⟨s1, hstep, hrest⟩ := h
      obtain ⟨T, hT, htr, hexit⟩ :=
        ih (t + 1) s1 (generateTrace_step nMarkers draw s0 s s1 t ht hcond hstep) hrest
      exact ⟨T, by omega, htr, hexit⟩
    · have := Option.some.inj h
      subst this
      exact ⟨t, le_refl _, ht, hcond⟩

/-- A trace that reaches a state in which the loop is left is a run of the loop. -/
theorem generateLoop_of_trace (nMarkers : Int) (draw : Nat → Mat) (s0 sf : GenState) (T : Nat)
    (hT : generateTrace nMarkers draw s0 T = some sf)
    (hexit : ¬ ((sf.out.bytesList.length : Int) < nMarkers)) :
    ∀ k t s, t + k = T → generateTrace nMarkers draw s0 t = some s →
      ∀ extra, generateLoop nMarkers draw (k + 1 + extra) t s = some sf := by
  intro k
  induction k with
  | zero =>
    intro t s htk ht extra
    rw [Nat.add_zero] at htk
    subst htk
    rw [ht] at hT
    have := Option.some.inj hT
    subst this
    rw [show 0 + 1 + extra = extra + 1 by omega]
    unfold generateLoop
    rw [if_neg hexit]
  | succ k ih =>
    intro t s htk ht extra
    -- the trace goes on after `t`
    have hnext : ∃ s1, generateTrace nMarkers draw s0 (t + 1) = some s1 := by
      cases hn : generateTrace nMarkers draw s0 (t + 1) with
      | none =>
        have := generateTrace_none nMarkers draw s0 (t + 1) k hn
        rw [show t + 1 + k = T by omega, hT] at this
        exact absurd this (by simp)
      | some s1 => exact ⟨s1, rfl⟩
    obtain ⟨s1, h1⟩ := hnext
    obtain ⟨s', hs', hcond, hstep⟩ := generateTrace_succ nMarkers draw s0 s1 t h1
    rw [ht] at hs'
    have := Option.some.inj hs'
    subst this
    rw [show k + 1 + 1 + extra = (k + 1 + extra) + 1 by omega]
    unfold generateLoop
    rw [if_pos hcond, hstep, Option.some_bind]
    exact ih (t + 1) s1 (by omega) h1 extra

theorem separatedAt_extend (rows rows' : List (List Vec4b)) (j : Nat) (tau : Int)
    (hp : rows <+: rows') (hj : j < rows.length) (h : SeparatedAt rows j tau) :
    SeparatedAt rows' j tau := by
  obtain ⟨rest, rfl⟩ := hp
  have hget : ∀ i, i < rows.length → (rows ++ rest).getD i [] = rows.getD i [] := by
    intro i hi
    rw [List.getD_eq_getElem _ _ (by simp; omega), List.getD_eq_getElem _ _ hi,
      List.getElem_append_left hi]
  unfold SeparatedAt at h ⊢
  rw [hget j hj]
  refine ⟨h.1, fun i hi => ?_⟩
  rw [hget i (by omega)]
  exact h.2 i hi

/-! ## The state on entry to the loop, without a base dictionary -/

theorem genInv_of_rows (n c0 : Nat) (s : GenState) (hrows : RowsSized n s.out.bytesList)
    (hc0 : s.out.bytesList.length ≤ c0) (hbest : s.bestTau = 0) : GenInv n c0 s :=
  ⟨Or.inr hrows, fun j h1 h2 => by omega, by omega, fun h => by omega⟩

/-- Whatever the base dictionary, the rows on entry to the loop are its rows, and the
invariant holds for the rows to come. -/
theorem generateInit_inv (n : Nat) (base : Dictionary) (s0 : GenState)
    (hbase : WellSized base) (hinit : generateInit n base = some s0) :
    GenInv n base.bytesList.length s0 ∧ s0.out.bytesList = base.bytesList := by
  unfold generateInit at hinit
  simp only [] at hinit
  split_ifs at hinit with h1 h2
  · simp only [Option.map_eq_some'] at hinit
    obtain ⟨md, -, hs0⟩ := hinit
    subst hs0
    refine ⟨genInv_of_rows n _ _ ?_ (le_refl _) rfl, rfl⟩
    intro m hm
    have := hbase m hm
    rw [h2] at this
    exact this
  · have := (Option.some.inj hinit).symm
    subst this
    have hnil : base.bytesList = [] := List.eq_nil_of_length_eq_zero (by omega)
    refine ⟨genInv_of_rows n _ _ ?_ (by simp) rfl, hnil.symm⟩
    intro m hm
    simp at hm

/-! ## C8: generation invariant -/

theorem drawn_dims (markerSize : Nat) (rand : Nat → Nat → Nat) :
    ∀ t, (drawn markerSize rand t).rows = markerSize ∧ (drawn markerSize rand t).cols = markerSize :=
  fun _ => ⟨rfl, rfl⟩

theorem generateTrace_after_exit (nMarkers : Int) (draw : Nat → Mat) (s0 sf : GenState)
    (T k : Nat) (hT : generateTrace nMarkers draw s0 T = some sf)
    (hexit : ¬ ((sf.out.bytesList.length : Int) < nMarkers)) :
    generateTrace nMarkers draw s0 (T + 1 + k) = none := by
  apply generateTrace_none
  simp only [generateTrace, hT, Option.some_bind, if_neg hexit]

/-- C8, amended: in every completed run of the generator (base rows of `nbytes` bytes),
a codeword appended in an iteration has, in the
final codebook, a self-distance and a pairwise all-rotation distance to every earlier
codeword (base rows included) that are at least the value `tau` has when it is appended. -/
theorem generation_invariant (nMarkers : Int) (markerSize : Nat) (base : Dictionary)
    (rand : Nat → Nat → Nat) (fuel : Nat) (s0 sf : GenState)
    (hbase : WellSized base)
    (hinit : generateInit markerSize base = some s0)
    (hloop : generateLoop nMarkers (drawn markerSize rand) fuel 0 s0 = some sf) :
    ∃ T, generateTrace nMarkers (drawn markerSize rand) s0 T = some sf ∧
      ∀ t s s', generateTrace nMarkers (drawn markerSize rand) s0 t = some s →
        generateTrace nMarkers (drawn markerSize rand) s0 (t + 1) = some s' →
        s'.out.bytesList.length = s.out.bytesList.length + 1 →
        SeparatedAt sf.out.bytesList s.out.bytesList.length s'.tau := by
  have hdraw := drawn_dims markerSize rand
  generalize drawn markerSize rand = draw at hloop hdraw ⊢
  obtain ⟨T, -, hT, hexit⟩ := generateLoop_trace nMarkers draw s0 fuel 0 s0 sf rfl hloop
  refine ⟨T, hT, ?_⟩
  intro t s s' ht ht' hlen
  obtain ⟨hinv0, hrows0⟩ := generateInit_inv markerSize base s0 hbase hinit
  -- iteration `t` is an iteration of the run
  have htT : t + 1 ≤ T := by
    by_contra hcon
    have := generateTrace_after_exit nMarkers draw s0 sf T (t - T) hT hexit
    rw [show T + 1 + (t - T) = t + 1 by omega, ht'] at this
    exact absurd this (by simp)
  have hinv := generateTrace_inv markerSize base.bytesList.length nMarkers draw s0 hdraw hinv0
    (t + 1) s' ht'
  have hp0 := generateTrace_rows_grow nMarkers draw s0 0 t s0 s rfl (by rw [Nat.zero_add]; exact ht)
  have hc0 : base.bytesList.length ≤ s.out.bytesList.length := by
    rw [← hrows0]; exact hp0.length_le
  have hsep := hinv.separated s.out.bytesList.length hc0 (by omega)
  have hp := generateTrace_rows_grow nMarkers draw s0 (t + 1) (T - (t + 1)) s' sf ht'
    (by rw [show t + 1 + (T - (t + 1)) = T by omega]; exact hT)
  exact separatedAt_extend _ _ _ _ hp (by omega) hsep

/-- C8, amended, at the run that draws `drawnB` and accepts it as the only codeword. -/
theorem generation_invariant_witness :
    ∃ T, generateTrace 1 (drawn 3 (fun _ => randB)) entryState3 T = some acceptedB ∧
      ∀ t s s', generateTrace 1 (drawn 3 (fun _ => randB)) entryState3 t = some s →
        generateTrace 1 (drawn 3 (fun _ => randB)) entryState3 (t + 1) = some s' →
        s'.out.bytesList.length = s.out.bytesList.length + 1 →
        SeparatedAt acceptedB.out.bytesList s.out.bytesList.length s'.tau :=
  generation_invariant 1 3 emptyDictionary (fun _ => randB) 2 entryState3 acceptedB
    (by decide) rfl rfl

/-! ## C10: recorded correction budget -/

/-- C10 as stated fails: for markers of side 1 and no codeword requested, the run completes
with `tau = 0` and records `maxCorrectionBits = 0`, and the floor of `(0 - 1) / 2` is `-1`. -/
theorem recorded_correction_budget_counterexample :
    (generateFinal 1 0 1 emptyDictionary (fun _ _ => 0)).map (fun s => s.tau) = some 0 ∧
    (generateCustomDictionary 1 0 1 emptyDictionary (fun _ _ => 0)).map
      (fun d => d.maxCorrectionBits) = some 0 ∧
    ⌊(((0 : Int) : ℚ) - 1) / 2⌋ = -1 := by
  refine ⟨by decide, by decide, ?_⟩
  rw [Int.floor_eq_iff]
  norm_num

/-- C10, amended: for every completed run, the output codebook's `maxCorrectionBits` is
`(tau - 1) / 2` rounded towards zero, `tau` being the final value of `tau`; it is the floor
of `(tau - 1) / 2` whenever `tau ≥ 1`, and it is 0 when `tau = 0`. -/
theorem recorded_correction_budget (fuel : Nat) (nMarkers : Int) (markerSize : Nat)
    (base : Dictionary) (rand : Nat → Nat → Nat) (sf : GenState)
    (hfinal : generateFinal fuel nMarkers markerSize base rand = some sf) :
    ∃ out, generateCustomDictionary fuel nMarkers markerSize base rand = some out ∧
      out.bytesList = sf.out.bytesList ∧
      out.maxCorrectionBits = Int.tdiv (sf.tau - 1) 2 ∧
      (1 ≤ sf.tau → out.maxCorrectionBits = ⌊((sf.tau : ℚ) - 1) / 2⌋) ∧
      (sf.tau = 0 → out.maxCorrectionBits = 0) := by
  refine ⟨{ sf.out with maxCorrectionBits := Int.tdiv (sf.tau - 1) 2 },
    by rw [generateCustomDictionary, hfinal]; rfl, rfl, rfl, ?_, ?_⟩
  · intro h
    have h1 : ((sf.tau : ℚ) - 1) / 2 = (((sf.tau - 1 : Int)) : ℚ) / ((2 : ℕ) : ℚ) := by
      push_cast; ring
    rw [h1, Rat.floor_intCast_div_natCast]
    show Int.tdiv (sf.tau - 1) 2 = _
    rw [Int.tdiv_eq_ediv (by omega) (by norm_num)]
    rfl
  · intro h
    show Int.tdiv (sf.tau - 1) 2 = 0
    rw [h]
    decide

/-- C10, amended, at the run that draws `drawnB` and accepts it as the only codeword:
`tau = 4` and `maxCorrectionBits = 1`. -/
theorem recorded_correction_budget_witness :
    (∃ out, generateCustomDictionary 2 1 3 emptyDictionary (fun _ => randB) = some out ∧
      out.bytesList = acceptedB.out.bytesList ∧
      out.maxCorrectionBits = Int.tdiv (acceptedB.tau - 1) 2 ∧
      (1 ≤ acceptedB.tau → out.maxCorrectionBits = ⌊((acceptedB.tau : ℚ) - 1) / 2⌋) ∧
      (acceptedB.tau = 0 → out.maxCorrectionBits = 0)) ∧
    Int.tdiv (acceptedB.tau - 1) 2 = 1 :=
  ⟨recorded_correction_budget 2 1 3 emptyDictionary (fun _ => randB) acceptedB rfl, by decide⟩

/-! ## Symmetry of the all-rotation distance -/

theorem rotBit_shift (n : Nat) (A : Mat) (hA : A.rows = n ∧ A.cols = n) (a r c : Nat)
    (ha : a < 4) (hr : r < n) :
    rotBit A ((a + 1) % 4) r c = rotBit A a c (n - 1 - r) := by
  have h1 : n - 1 - (n - 1 - r) = r := by omega
  interval_cases a <;> simp only [rotBit, hA.1, hA.2, h1]

theorem sum_rot (g : Nat → Nat → Nat) (n : Nat) :
    ∑ r ∈ Finset.range n, ∑ c ∈ Finset.range n, g c (n - 1 - r)
      = ∑ r ∈ Finset.range n, ∑ c ∈ Finset.range n, g r c := by
  rw [Finset.sum_comm]
  apply Finset.sum_congr rfl
  intro c _
  exact Finset.sum_range_reflect (fun r => g c r) n

/-- Rotating both streams by 90 degrees keeps the number of differing cells. -/
theorem streamDiff_shift (n : Nat) (A B : Mat) (hA : A.rows = n ∧ A.cols = n)
    (hB : B.rows = n ∧ B.cols = n) (a b : Nat) (ha : a < 4) (hb : b < 4) :
    streamDiff (cellBit A ((a + 1) % 4)) (cellBit B ((b + 1) % 4)) (n * n)
      = streamDiff (cellBit A a) (cellBit B b) (n * n) := by
  unfold streamDiff cellBit
  rw [hA.2, hB.2]
  rw [sum_flat (fun r c => (rotBit A ((a + 1) % 4) r c != rotBit B ((b + 1) % 4) r c).toNat) n n,
    sum_flat (fun r c => (rotBit A a r c != rotBit B b r c).toNat) n n,
    ← sum_rot (fun r c => (rotBit A a r c != rotBit B b r c).toNat) n]
  apply Finset.sum_congr rfl
  intro r hr
  apply Finset.sum_congr rfl
  intro c _
  have hr' := Finset.mem_range.mp hr
  rw [rotBit_shift n A hA a r c ha hr', rotBit_shift n B hB b r c hb hr']

theorem rotDistance_encodings (n : Nat) (A B : Mat) (hA : A.rows = n ∧ A.cols = n)
    (hB : B.rows = n ∧ B.cols = n) (r : Nat) (hr : r < 4) :
    rotDistance (getByteListFromBits A) (getByteListFromBits B) r
      = streamDiff (cellBit A r) (cellBit B 0) (n * n) := by
  have hlen : (getByteListFromBits A).length = (getByteListFromBits B).length := by
    rw [length_getByteListFromBits, length_getByteListFromBits, hA.1, hA.2, hB.1, hB.2]
  rw [← hammingSum_eq_rotDistance _ _ _ hlen,
    hammingSum_encodings A B r 0 hr (by norm_num) (by rw [hA.1, hA.2, hB.1, hB.2]), hB.1, hB.2]

/-- The all-rotation distance between two encodings does not depend on which of the two
is rotated. -/
theorem minRotDistance_symm (n : Nat) (A B : Mat) (hA : A.rows = n ∧ A.cols = n)
    (hB : B.rows = n ∧ B.cols = n) :
    minRotDistance (getByteListFromBits A) (getByteListFromBits B)
      = minRotDistance (getByteListFromBits B) (getByteListFromBits A) := by
  unfold minRotDistance
  rw [rotDistance_encodings n A B hA hB 0 (by norm_num),
    rotDistance_encodings n A B hA hB 1 (by norm_num),
    rotDistance_encodings n A B hA hB 2 (by norm_num),
    rotDistance_encodings n A B hA hB 3 (by norm_num),
    rotDistance_encodings n B A hB hA 0 (by norm_num),
    rotDistance_encodings n B A hB hA 1 (by norm_num),
    rotDistance_encodings n B A hB hA 2 (by norm_num),
    rotDistance_encodings n B A hB hA 3 (by norm_num)]
  have s1 : streamDiff (cellBit A 1) (cellBit B 0) (n * n)
      = streamDiff (cellBit B 3) (cellBit A 0) (n * n) := by
    rw [streamDiff_comm (cellBit B 3)]
    exact streamDiff_shift n A B hA hB 0 3 (by norm_num) (by norm_num)
  have s2 : streamDiff (cellBit A 2) (cellBit B 0) (n * n)
      = streamDiff (cellBit B 2) (cellBit A 0) (n * n) := by
    rw [streamDiff_comm (cellBit B 2)]
    exact (streamDiff_shift n A B hA hB 1 3 (by norm_num) (by norm_num)).trans
      (streamDiff_shift n A B hA hB 0 2 (by norm_num) (by norm_num))
  have s3 : streamDiff (cellBit A 3) (cellBit B 0) (n * n)
      = streamDiff (cellBit B 1) (cellBit A 0) (n * n) := by
    rw [streamDiff_comm (cellBit B 1)]
    exact ((streamDiff_shift n A B hA hB 2 3 (by norm_num) (by norm_num)).trans
      (streamDiff_shift n A B hA hB 1 2 (by norm_num) (by norm_num))).trans
      (streamDiff_shift n A B hA hB 0 1 (by norm_num) (by norm_num))
  rw [s1, s2, s3, streamDiff_comm (cellBit A 0) (cellBit B 0)]
  omega

/-! ## Seeding `tau` from the base dictionary -/

theorem baseInner_spec (out : Dictionary) (D : Mat) (L : List Nat) (md0 md : Int)
    (h : baseInner out D L md0 = some md) :
    md ≤ md0 ∧ ∀ j ∈ L, ∃ cd, out.getDistanceToId D (j : Int) true = some cd ∧ md ≤ cd := by
  induction L generalizing md0 with
  | nil =>
    simp only [baseInner, Option.some.injEq] at h
    exact ⟨by omega, fun j hj => by simp at hj⟩
  | cons j rest ih =>
    simp only [baseInner, Option.bind_eq_some] at h
    obtain ⟨cd, h1, h2⟩ := h
    obtain ⟨hle, hrest⟩ := ih _ h2
    refine ⟨by omega, fun j' hj' => ?_⟩
    rcases List.mem_cons.mp hj' with rfl | hmem
    · exact ⟨cd, h1, by omega⟩
    · exact hrest j' hmem

theorem baseOuter_spec (out : Dictionary) (L : List Nat) (md0 md : Int)
    (h : baseOuter out L md0 = some md) :
    md ≤ md0 ∧ ∀ i ∈ L, ∃ D, getBitsFromByteList (out.row i) out.markerSize = some D ∧
      md ≤ getSelfDistance D ∧
      ∀ j, i < j → j < out.bytesList.length →
        ∃ cd, out.getDistanceToId D (j : Int) true = some cd ∧ md ≤ cd := by
  induction L generalizing md0 with
  | nil =>
    simp only [baseOuter, Option.some.injEq] at h
    exact ⟨by omega, fun j hj => by simp at hj⟩
  | cons i rest ih =>
    simp only [baseOuter, Option.bind_eq_some] at h
    obtain ⟨D, hD, md1, hinner, hrest⟩ := h
    obtain ⟨hle1, hin⟩ := baseInner_spec out D _ _ md1 hinner
    obtain ⟨hle, hout⟩ := ih _ hrest
    refine ⟨by omega, fun i' hi' => ?_⟩
    rcases List.mem_cons.mp hi' with rfl | hmem
    · refine ⟨D, hD, by omega, fun j hij hj => ?_⟩
      obtain ⟨cd, h1, h2⟩ := hin j (by rw [List.mem_range']; exact ⟨j - (i' + 1), by omega, by omega⟩)
      exact ⟨cd, h1, by omega⟩
    · exact hout i' hmem

/-- The decoder accepts the encoding of an `n × n` matrix only if `n * n < 2 ^ 32` and
`n ≥ 1`. -/
theorem decode_some_bound (n : Nat) (M : Mat) (hM : M.rows = n ∧ M.cols = n) (D : Mat)
    (h : getBitsFromByteList (getByteListFromBits M) n = some D) :
    0 < n * n ∧ n * n < 2 ^ 32 := by
  rw [getBitsFromByteList_eq] at h
  split_ifs at h with hcond
  rw [length_getByteListFromBits, hM.1, hM.2] at hcond
  unfold nbytesOf at hcond
  generalize n * n = N at hcond ⊢
  split_ifs at hcond <;> omega

theorem decodeState_dims (byteList : List Vec4b) (n i : Nat) :
    (decodeState byteList n i).bits.rows = n ∧ (decodeState byteList n i).bits.cols = n := by
  induction i with
  | zero => exact ⟨rfl, rfl⟩
  | succ i ih =>
    rw [decodeState_succ, bitsCell_bits]
    split_ifs
    · exact ih
    · exact ih

/-- For sides below 3 the decoder reads the high-order bits of the only byte, which the
encoder leaves clear: every cell of the decoded matrix is 0. -/
theorem decodeState_small (byteList : List Vec4b) (n : Nat)
    (hb : rowByte byteList 0 0 < 16) (i : Nat) (hi : i ≤ n * n) (hi4 : i ≤ 4) :
    (decodeState byteList n i).currentBit = i ∧
    (decodeState byteList n i).currentByte = rowByte byteList 0 0 ∧
    ∀ r c, (decodeState byteList n i).bits.at_ r c = 0 := by
  induction i with
  | zero => exact ⟨rfl, rfl, fun _ _ => rfl⟩
  | succ i ih =>
    obtain ⟨h1, h2, h3⟩ := ih (by omega) (by omega)
    have hw : rowByte byteList 0 0 < base2List.getD i 0 := by
      have : i ≤ 3 := by omega
      interval_cases i <;> simp [base2List] <;> omega
    rw [decodeState_succ]
    refine ⟨?_, ?_, ?_⟩
    · rw [bitsCell_bit, h1, if_neg (by omega)]
    · rw [bitsCell_byte, h1, h2, if_neg (by omega), if_neg (by omega)]
    · intro r c
      rw [bitsCell_bits, h1, h2, if_neg (by omega)]
      exact h3 r c

theorem side_small (n : Nat) (h : n * n < 8) : n * n ≤ 4 := by
  have hn : n ≤ 2 := by
    by_contra hcon
    have h3 : 3 ≤ n := by omega
    have : 3 * 3 ≤ n * n := Nat.mul_le_mul h3 h3
    omega
  have : n * n ≤ 2 * 2 := Nat.mul_le_mul hn hn
  omega

theorem rotBit_zeros (n k r c : Nat) : rotBit (Mat.zeros n n) k r c = false := by
  unfold rotBit Mat.zeros
  split <;> simp

/-- The encoding of the all-zero matrix has self-distance 0. -/
theorem selfDistance_zeros (n : Nat) :
    selfDistanceOfRow (getByteListFromBits (Mat.zeros n n)) = 0 := by
  have hrot : ∀ k, k < 4 → rotationBytes (getByteListFromBits (Mat.zeros n n)) k
      = rotationBytes (getByteListFromBits (Mat.zeros n n)) 0 := by
    intro k hk
    apply List.ext_getElem (by simp [rotationBytes])
    intro j h1 h2
    rw [rotationBytes_getElem, rotationBytes_getElem,
      rowByte_getByteListFromBits _ _ _ hk, rowByte_getByteListFromBits _ _ _ (by norm_num)]
    have hfun : cellBit (Mat.zeros n n) k = cellBit (Mat.zeros n n) 0 := by
      funext i
      unfold cellBit
      rw [rotBit_zeros, rotBit_zeros]
    rw [hfun]
  unfold selfDistanceOfRow
  rw [hrot 1 (by norm_num), hammingDistance_self]
  omega

/-- For sides below 3, the decoded pattern of an encoding has self-distance 0. -/
theorem getSelfDistance_decode_small (n : Nat) (M D : Mat) (hM : M.rows = n ∧ M.cols = n)
    (hsmall : n * n < 8) (h : getBitsFromByteList (getByteListFromBits M) n = some D) :
    getSelfDistance D ≤ 0 := by
  have h4 := side_small n hsmall
  have hb : rowByte (getByteListFromBits M) 0 0 < 16 := by
    rw [rowByte_getByteListFromBits _ _ _ (by norm_num), hM.1, hM.2]
    have h1 := packByte_chunk_lt (cellBit M 0) (8 * 0) (min 8 (n * n - 8 * 0))
    have h2 : (2 : Nat) ^ min 8 (n * n - 8 * 0) ≤ 2 ^ 4 :=
      Nat.pow_le_pow_right (by norm_num) (by omega)
    omega
  rw [getBitsFromByteList_eq] at h
  split_ifs at h with hcond
  have hD := (Option.some.inj h).symm
  obtain ⟨-, -, hzero⟩ := decodeState_small (getByteListFromBits M) n hb (n * n)
    (le_refl _) h4
  obtain ⟨hr, hc⟩ := decodeState_dims (getByteListFromBits M) n (n * n)
  have hsame : SameBits n D (Mat.zeros n n) := by
    intro r c _ _
    rw [hD, hzero r c]
    simp [Mat.zeros]
  have henc := getByteListFromBits_congr n D (Mat.zeros n n) (by rw [hD]; exact ⟨hr, hc⟩)
    ⟨rfl, rfl⟩ hsame
  have := getSelfDistance_le D
  rw [henc, selfDistance_zeros] at this
  exact this

/-! ## C9: mutual separation of the result -/

/-- With a base dictionary of encodings, the rows on entry to the loop are separated by the
value of `tau` computed from them. -/
theorem generateInit_separated (n : Nat) (base : Dictionary) (s0 : GenState)
    (hbase : EncodedRows n base.bytesList) (hinit : generateInit n base = some s0) :
    GenInv n 0 s0 := by
  unfold generateInit at hinit
  simp only [] at hinit
  split_ifs at hinit with h1 h2
  · simp only [Option.map_eq_some'] at hinit
    obtain ⟨md, hmd, hs0⟩ := hinit
    subst hs0
    obtain ⟨-, hspec⟩ := baseOuter_spec _ _ _ md hmd
    have hsized : RowsSized n base.bytesList := by
      intro m hm
      obtain ⟨M, hr, hc, hrow⟩ := hbase m hm
      rw [hrow, length_getByteListFromBits, hr, hc]
    -- what the seeding loop computed for row `i`
    have hrow : ∀ i, i < base.bytesList.length →
        ∃ M D, M.rows = n ∧ M.cols = n ∧ base.bytesList.getD i [] = getByteListFromBits M ∧
          getBitsFromByteList (getByteListFromBits M) n = some D ∧ md ≤ getSelfDistance D ∧
          ∀ j, i < j → j < base.bytesList.length →
            ∃ cd, (Dictionary.mk base.bytesList n 0).getDistanceToId D (j : Int) true = some cd ∧
              md ≤ cd := by
      intro i hi
      obtain ⟨M, hr, hc, hM⟩ := hbase i hi
      obtain ⟨D, hD, hself, hpair⟩ := hspec i (List.mem_range.mpr hi)
      have hD' : getBitsFromByteList (getByteListFromBits M) n = some D := by
        rw [← hM]; exact hD
      exact ⟨M, D, hr, hc, hM, hD', hself, hpair⟩
    by_cases hsmall : n * n < 8
    · -- sides below 3: the decoded patterns are all zero and `tau` is at most 0
      obtain ⟨M, D, hr, hc, -, hD, hself, -⟩ := hrow 0 h1
      have := getSelfDistance_decode_small n M D ⟨hr, hc⟩ hsmall hD
      have hmd0 : md ≤ 0 := by omega
      exact ⟨Or.inl hmd0, fun j _ _ => separatedAt_nonpos _ _ _ hmd0, le_refl _,
        fun h => absurd h (lt_irrefl _)⟩
    · refine ⟨Or.inr hsized, ?_, le_refl _, fun h => absurd h (lt_irrefl _)⟩
      intro j _ hj
      have hj' : j < base.bytesList.length := hj
      obtain ⟨Mj, Dj, hrj, hcj, hMj, hDj, hselfj, -⟩ := hrow j hj'
      have h32 := (decode_some_bound n Mj ⟨hrj, hcj⟩ Dj hDj).2
      refine ⟨?_, fun i hi => ?_⟩
      · obtain ⟨D', h1', -, -, -, h5⟩ := encode_decode_row n Mj ⟨hrj, hcj⟩ (by omega) h32
        rw [hDj] at h1'
        have hDD := Option.some.inj h1'
        subst hDD
        have := getSelfDistance_le Dj
        rw [h5] at this
        show md ≤ (selfDistanceOfRow (base.bytesList.getD j []) : Int)
        rw [hMj]
        omega
      · obtain ⟨Mi, Di, hri, hci, hMi, hDi, -, hpairi⟩ := hrow i (by omega)
        obtain ⟨D', h1', h2', h3', -, h5⟩ := encode_decode_row n Mi ⟨hri, hci⟩ (by omega) h32
        rw [hDi] at h1'
        have hDD := Option.some.inj h1'
        subst hDD
        obtain ⟨cd, hcd, hle⟩ := hpairi j hi hj'
        have hlen : ((Dictionary.mk base.bytesList n 0).row j).length
            = (getByteListFromBits Di).length := by
          rw [length_getByteListFromBits, h2', h3']
          exact hsized j hj'
        have hcd' : cd ≤ (minRotDistance (base.bytesList.getD j []) (getByteListFromBits Di) : Int) :=
          getDistanceToId_le _ Di j cd hj' hlen hcd
        rw [hMj, h5, minRotDistance_symm n Mj Mi ⟨hrj, hcj⟩ ⟨hri, hci⟩] at hcd'
        show md ≤ (minRotDistance (base.bytesList.getD i []) (base.bytesList.getD j []) : Int)
        rw [hMi, hMj]
        omega
  · have := (Option.some.inj hinit).symm
    subst this
    refine genInv_of_rows n 0 _ ?_ (by simp) rfl
    intro m hm
    simp at hm

/-- C9: for every completed run of the generator whose base codebook is empty or consists
of encodings of `markerSize × markerSize` matrices, with `tau` the final value of `tau`,
every row of the output has self-distance at least `tau` and, for every pair of rows
`i < j`, the minimum over the rotations `r` of the Hamming distance between the rotation-`r`
bytes of row `i` and the rotation-0 bytes of row `j` is at least `tau`. -/
theorem mutual_separation (nMarkers : Int) (markerSize : Nat) (base : Dictionary)
    (rand : Nat → Nat → Nat) (fuel : Nat) (sf : GenState)
    (hbase : EncodedRows markerSize base.bytesList)
    (hfinal : generateFinal fuel nMarkers markerSize base rand = some sf) :
    ∀ j, j < sf.out.bytesList.length →
      sf.tau ≤ (selfDistanceOfRow (sf.out.row j) : Int) ∧
      ∀ i, i < j → sf.tau ≤ (minRotDistance (sf.out.row i) (sf.out.row j) : Int) := by
  unfold generateFinal at hfinal
  simp only [Option.bind_eq_some] at hfinal
  obtain ⟨s0, hinit, hloop⟩ := hfinal
  obtain ⟨T, -, hT, -⟩ :=
    generateLoop_trace nMarkers (drawn markerSize rand) s0 fuel 0 s0 sf rfl hloop
  have hinv := generateTrace_inv markerSize 0 nMarkers (drawn markerSize rand) s0
    (drawn_dims markerSize rand)
    (generateInit_separated markerSize base s0 hbase hinit) T sf hT
  intro j hj
  exact hinv.separated j (Nat.zero_le _) hj

theorem encodedRows_twoRows : EncodedRows 3 twoRows.bytesList := by
  intro m hm
  have hm' : m < 2 := hm
  interval_cases m
  · exact ⟨markerA, rfl, rfl, rfl⟩
  · exact ⟨markerB, rfl, rfl, rfl⟩

/-- C9 at the run seeded with `twoRows` that draws `drawnC` and accepts it as the third
codeword, with `tau = 1`: the separation of the third row. -/
theorem mutual_separation_witness :
    acceptedC.tau ≤ (selfDistanceOfRow (acceptedC.out.row 2) : Int) ∧
      ∀ i, i < 2 → acceptedC.tau
        ≤ (minRotDistance (acceptedC.out.row i) (acceptedC.out.row 2) : Int) :=
  mutual_separation 3 3 twoRows (fun _ => randC) 2 acceptedC encodedRows_twoRows rfl 2
    (by decide)

/-! ## C8: a run with a forced acceptance -/

theorem step_accept_B : generateStep entryState3 drawnB = some acceptedB := rfl

theorem step_first_A : generateStep acceptedB drawnA = some (streakA 1) := rfl

theorem candidateDistance_streakA (u : Int) :
    candidateDistance (streakA u) drawnA = some 1 := by
  have hsd : getSelfDistance drawnA = 2 := by decide
  have hscan : scanDistances acceptedB.out drawnA 1
      (List.range acceptedB.out.bytesList.length) 2 = some 1 := by decide
  unfold candidateDistance
  simp only [hsd]
  rw [if_pos (show (2 : Int) ≥ (streakA u).bestTau by show (2 : Int) ≥ 1; decide)]
  exact hscan

theorem step_streak_A (u : Int) (hu : u + 1 ≠ 5000) :
    generateStep (streakA u) drawnA = some (streakA (u + 1)) := by
  unfold generateStep
  rw [candidateDistance_streakA]
  simp only [Option.some_bind]
  rw [if_neg (show ¬ ((1 : Int) ≥ (streakA u).tau) by show ¬ ((1 : Int) ≥ 4); decide),
    if_neg (show ¬ ((streakA u).unproductiveIterations + 1 = maxUnproductiveIterations) from hu)]
  rfl

theorem step_force_A : generateStep (streakA 4999) drawnA = some forcedA := by
  unfold generateStep
  rw [candidateDistance_streakA]
  rfl

theorem trace_accept_B : generateTrace 2 (drawn 3 randBA) entryState3 1 = some acceptedB :=
  generateTrace_step 2 (drawn 3 randBA) entryState3 entryState3 acceptedB 0 rfl (by decide) step_accept_B

theorem trace_streak_A (u : Nat) (h1 : 1 ≤ u) (h2 : u ≤ 4999) :
    generateTrace 2 (drawn 3 randBA) entryState3 (1 + u) = some (streakA (u : Int)) := by
  induction u with
  | zero => omega
  | succ u ih =>
    rcases Nat.eq_zero_or_pos u with h0 | hpos
    · subst h0
      exact generateTrace_step 2 (drawn 3 randBA) entryState3 acceptedB _ 1 trace_accept_B (by decide)
        step_first_A
    · have hprev := ih hpos (by omega)
      have hdraw : (drawn 3 randBA) (1 + u) = drawnA := by
        unfold drawn randBA
        rw [if_neg (by omega)]
        rfl
      have hstep := step_streak_A (u : Int) (by omega)
      rw [← hdraw] at hstep
      have hcond : (((streakA (u : Int)).out.bytesList.length : Nat) : Int) < 2 := by
        show ((acceptedB.out.bytesList.length : Nat) : Int) < 2
        decide
      have := generateTrace_step 2 (drawn 3 randBA) entryState3 _ _ (1 + u) hprev hcond hstep
      rw [show 1 + (u + 1) = 1 + u + 1 by omega, this]
      congr 2

theorem trace_force_A : generateTrace 2 (drawn 3 randBA) entryState3 5001 = some forcedA := by
  have hprev := trace_streak_A 4999 (by norm_num) (by norm_num)
  have hdraw : (drawn 3 randBA) (1 + 4999) = drawnA := rfl
  have hstep := step_force_A
  rw [← hdraw] at hstep
  exact generateTrace_step 2 (drawn 3 randBA) entryState3 _ _ (1 + 4999) hprev (by decide) hstep

theorem final_force_A : generateFinal 5002 2 3 emptyDictionary randBA = some forcedA := by
  have hloop := generateLoop_of_trace 2 (drawn 3 randBA) entryState3 forcedA 5001 trace_force_A
    (by decide) 5001 0 entryState3 (by norm_num) rfl 0
  unfold generateFinal
  rw [show generateInit 3 emptyDictionary = some entryState3 from rfl, Option.some_bind]
  exact hloop

/-- C8 as stated fails: with no base dictionary, markers of side 3 and two codewords
requested, `drawnB` is appended in iteration 0 while `tau = 4`; `drawnA` is then drawn
5000 times, is accepted by force and `tau` is lowered to 1. The run is complete, and in the
final codebook the all-rotation distance between codeword 0 and the later codeword 1 is
1, below the value 4 that `tau` had when codeword 0 was accepted. -/
theorem generation_invariant_counterexample :
    generateFinal 5002 2 3 emptyDictionary randBA = some forcedA ∧
    generateTrace 2 (drawn 3 randBA) entryState3 0 = some entryState3 ∧
    generateTrace 2 (drawn 3 randBA) entryState3 1 = some acceptedB ∧
    acceptedB.out.bytesList.length = entryState3.out.bytesList.length + 1 ∧
    acceptedB.tau = 4 ∧
    forcedA.out.bytesList.length = 2 ∧
    minRotDistance (forcedA.out.row 0) (forcedA.out.row 1) = 1 ∧
    minRotDistance (forcedA.out.row 1) (forcedA.out.row 0) = 1 ∧
    ¬ ((4 : Int) ≤ 1) :=
  ⟨final_force_A, rfl, trace_accept_B, by decide, rfl, by decide, by decide, by decide,
    by decide⟩

/-! ## The main loop returns -/

theorem getDistanceToId_some (out : Dictionary) (c : Mat) (i : Nat)
    (hi : i < out.bytesList.length) : ∃ cd, out.getDistanceToId c (i : Int) true = some cd := by
  unfold Dictionary.getDistanceToId
  rw [if_pos ⟨by omega, by exact_mod_cast hi⟩]
  exact ⟨_, rfl⟩

theorem scanDistances_some (out : Dictionary) (c : Mat) (bestTau : Int) (L : List Nat)
    (md0 : Int) (hL : ∀ i ∈ L, i < out.bytesList.length) :
    ∃ md, scanDistances out c bestTau L md0 = some md := by
  induction L generalizing md0 with
  | nil => exact ⟨md0, rfl⟩
  | cons i rest ih =>
    obtain ⟨cd, hcd⟩ := getDistanceToId_some out c i (hL i (by simp))
    simp only [scanDistances, hcd, Option.some_bind]
    split_ifs
    · exact ⟨_, rfl⟩
    · exact ih _ (fun i' hi' => hL i' (by simp [hi']))

theorem candidateDistance_some (s : GenState) (c : Mat) :
    ∃ md, candidateDistance s c = some md := by
  unfold candidateDistance
  simp only []
  split_ifs
  · exact scanDistances_some _ _ _ _ _ (fun i hi => List.mem_range.mp hi)
  · exact ⟨_, rfl⟩

/-- An iteration of the main loop always yields a state: it appends a row and resets the
counter of unproductive iterations, or keeps the rows and counts one more of them, which
stay below 5000. -/
theorem generateStep_progress (s : GenState) (c : Mat)
    (hu : 0 ≤ s.unproductiveIterations ∧ s.unproductiveIterations < 5000) :
    ∃ s', generateStep s c = some s' ∧
      ((s'.out.bytesList.length = s.out.bytesList.length + 1 ∧ s'.unproductiveIterations = 0) ∨
       (s'.out.bytesList.length = s.out.bytesList.length ∧
        s'.unproductiveIterations = s.unproductiveIterations + 1 ∧
        s'.unproductiveIterations < 5000)) := by
  obtain ⟨md, hmd⟩ := candidateDistance_some s c
  unfold generateStep
  rw [hmd, Option.some_bind]
  by_cases hacc : md ≥ s.tau
  · rw [if_pos hacc]
    exact ⟨_, rfl, Or.inl ⟨length_pushBack _ _, rfl⟩⟩
  · rw [if_neg hacc]
    by_cases hforce : s.unproductiveIterations + 1 = maxUnproductiveIterations
    · rw [if_pos hforce]
      exact ⟨_, rfl, Or.inl ⟨length_pushBack _ _, rfl⟩⟩
    · rw [if_neg hforce]
      refine ⟨_, rfl, Or.inr ⟨rfl, rfl, ?_⟩⟩
      have : s.unproductiveIterations + 1 ≠ 5000 := hforce
      show s.unproductiveIterations + 1 < 5000
      omega

/-- The main loop returns once the fuel exceeds 5000 iterations for each codeword still
to be appended. -/
theorem generateLoop_completes (nMarkers : Int) (draw : Nat → Mat) (fuel t : Nat) (s : GenState)
    (hu : 0 ≤ s.unproductiveIterations ∧ s.unproductiveIterations < 5000)
    (hfuel : 5000 * (nMarkers - s.out.bytesList.length) - s.unproductiveIterations
      < (fuel : Int)) (hpos : 0 < fuel) :
    ∃ sf, generateLoop nMarkers draw fuel t s = some sf := by
  induction fuel generalizing t s with
  | zero => omega
  | succ fuel ih =>
    unfold generateLoop
    by_cases hcond : (s.out.bytesList.length : Int) < nMarkers
    · rw [if_pos hcond]
      obtain ⟨s', hstep, hcase⟩ := generateStep_progress s (draw t) hu
      rw [hstep, Option.some_bind]
      have hu' : 0 ≤ s'.unproductiveIterations ∧ s'.unproductiveIterations < 5000 := by
        rcases hcase with ⟨-, h0⟩ | ⟨-, h1, h2⟩
        · rw [h0]; exact ⟨le_refl _, by norm_num⟩
        · exact ⟨by omega, h2⟩
      have hfuel' : 5000 * (nMarkers - s'.out.bytesList.length) - s'.unproductiveIterations
          < (fuel : Int) := by
        rcases hcase with ⟨hl, h0⟩ | ⟨hl, h1, -⟩
        · rw [hl, h0]; push_cast; push_cast at hfuel; omega
        · rw [hl, h1]; push_cast at hfuel; omega
      have hpos' : 0 < fuel := by
        rcases hcase with ⟨hl, h0⟩ | ⟨hl, h1, h2⟩
        · rw [hl, h0] at hfuel'; push_cast at hfuel'; omega
        · rw [hl] at hfuel'; omega
      exact ih (t + 1) s' hu' hfuel' hpos'
    · rw [if_neg hcond]
      exact ⟨s, rfl⟩

/-- Without a base dictionary the generator returns, whatever `rand()` returns, once the
fuel exceeds `5000 * nMarkers`. -/
theorem generateFinal_completes (fuel : Nat) (nMarkers : Int) (markerSize : Nat)
    (rand : Nat → Nat → Nat) (hfuel : 5000 * nMarkers < (fuel : Int)) (hpos : 0 < fuel) :
    ∃ sf, generateFinal fuel nMarkers markerSize emptyDictionary rand = some sf := by
  unfold generateFinal
  rw [show generateInit markerSize emptyDictionary
    = some ⟨⟨[], markerSize, 0⟩, ((2 * (markerSize * markerSize / 4 * 4 / 3) : Nat) : Int), 0,
      Mat.empty, 0⟩ from rfl, Option.some_bind]
  exact generateLoop_completes nMarkers _ fuel 0 _ ⟨le_refl _, by norm_num⟩
    (by simpa using hfuel) hpos

/-! ## C19: the short final byte -/

theorem last_chunk (N : Nat) : min 8 (N - 8 * (N / 8)) = N % 8 := by omega

/-- C19 as stated fails: the encoding of the `3 × 3` matrix of ones has, in each of the 4
rotations, the bytes `255, 1`: with `q = 9 mod 8 = 1`, the low-order `8 - q = 7` bits of
the final byte hold the value 1, not 0. -/
theorem short_final_byte_counterexample :
    IsBitMat 3 markerOnes ∧ 3 * 3 % 8 = 1 ∧ (getByteListFromBits markerOnes).length = 2 ∧
    ∀ k, k < 4 → rotationBytes (getByteListFromBits markerOnes) k = [255, 1] ∧
      rowByte (getByteListFromBits markerOnes) k 1 % 2 ^ (8 - 3 * 3 % 8) = 1 := by
  decide

/-- C19, amended: for an `n × n` matrix with `q = n² mod 8 ≠ 0`, the encoding has
`n² / 8 + 1` byte positions and, in each of the 4 rotations, the final byte holds the last
`q` bits of the stream in its low-order positions: it is the value of these `q` bits read
most significant first, hence below `2 ^ q`, and its high-order `8 - q` bits are 0. -/
theorem short_final_byte (n : Nat) (M : Mat) (hrows : M.rows = n) (hcols : M.cols = n)
    (hq : n * n % 8 ≠ 0) (k : Nat) (hk : k < 4) :
    (getByteListFromBits M).length = n * n / 8 + 1 ∧
    rowByte (getByteListFromBits M) k (n * n / 8)
      = packByte (chunk (cellBit M k) (8 * (n * n / 8)) (n * n % 8)) ∧
    rowByte (getByteListFromBits M) k (n * n / 8) < 2 ^ (n * n % 8) ∧
    rowByte (getByteListFromBits M) k (n * n / 8) / 2 ^ (n * n % 8) = 0 := by
  have hbyte : rowByte (getByteListFromBits M) k (n * n / 8)
      = packByte (chunk (cellBit M k) (8 * (n * n / 8)) (n * n % 8)) := by
    rw [rowByte_getByteListFromBits M k _ hk, hrows, hcols, last_chunk]
  have hlt : rowByte (getByteListFromBits M) k (n * n / 8) < 2 ^ (n * n % 8) := by
    rw [hbyte]
    exact packByte_chunk_lt _ _ _
  refine ⟨?_, hbyte, hlt, Nat.div_eq_of_lt hlt⟩
  rw [length_getByteListFromBits, hrows, hcols]
  unfold nbytesOf
  rw [if_pos hq]

theorem short_final_byte_witness :
    (getByteListFromBits markerOnes).length = 3 * 3 / 8 + 1 ∧
    rowByte (getByteListFromBits markerOnes) 1 (3 * 3 / 8)
      = packByte (chunk (cellBit markerOnes 1) (8 * (3 * 3 / 8)) (3 * 3 % 8)) ∧
    rowByte (getByteListFromBits markerOnes) 1 (3 * 3 / 8) < 2 ^ (3 * 3 % 8) ∧
    rowByte (getByteListFromBits markerOnes) 1 (3 * 3 / 8) / 2 ^ (3 * 3 % 8) = 0 :=
  short_final_byte 3 markerOnes rfl rfl (by decide) 1 (by decide)

/-! ## C16: the assertion of the decoder -/

theorem getBitsFromByteList_none_iff (byteList : List Vec4b) (n : Nat) :
    getBitsFromByteList byteList n = none ↔
      (byteList.length = 0 ∨ byteList.length < (n * n) % 2 ^ 32 / 8 ∨
        (n * n) % 2 ^ 32 / 8 + 1 < byteList.length) := by
  rw [getBitsFromByteList_eq]
  split_ifs with h
  · simp only [false_iff]
    omega
  · simp only [true_iff]
    omega

theorem getBitsFromByteList_dims (byteList : List Vec4b) (n : Nat) (D : Mat)
    (h : getBitsFromByteList byteList n = some D) : D.rows = n ∧ D.cols = n := by
  rw [getBitsFromByteList_eq] at h
  split_ifs at h
  have := (Option.some.inj h).symm
  subst this
  exact decodeState_dims byteList n (n * n)

/-- The decoder accepts a list with `nbytes` byte positions, for `1 ≤ n` and `n² < 2 ^ 32`. -/
theorem getBitsFromByteList_some (byteList : List Vec4b) (n : Nat) (hn : 1 ≤ n)
    (h32 : n * n < 2 ^ 32) (hlen : byteList.length = nbytesOf (n * n)) :
    ∃ D, getBitsFromByteList byteList n = some D := by
  have hpos : 0 < n * n := Nat.mul_pos hn hn
  have hnb := nbytesOf_spec (n * n)
  have hnb' : nbytesOf (n * n) ≤ n * n / 8 + 1 := by
    unfold nbytesOf
    split_ifs <;> omega
  rw [getBitsFromByteList_eq, Nat.mod_eq_of_lt h32, if_pos ⟨by omega, by omega, by omega⟩]
  exact ⟨_, rfl⟩

/-- The lengths on which the assertion of the decoder decides as C16 says, for
`n² + 1 ≤ INT_MAX`: the decoder fails on a list with no byte position, with fewer than
`floor(n² / 8)` or with more than `floor(n² / 8) + 1` byte positions; for `n ≥ 1` it
succeeds, with an `n × n` matrix, on a list with `nBytes = ceil(n² / 8)` byte positions. -/
theorem decode_length_check (n : Nat) (byteList : List Vec4b)
    (hint : n * n + 1 ≤ 2 ^ 31 - 1) :
    ((byteList.length = 0 ∨ byteList.length < n * n / 8 ∨ n * n / 8 + 1 < byteList.length) →
      getBitsFromByteList byteList n = none) ∧
    nbytesOf (n * n) = (n * n + 7) / 8 ∧
    (1 ≤ n → byteList.length = nbytesOf (n * n) →
      ∃ D, getBitsFromByteList byteList n = some D ∧ D.rows = n ∧ D.cols = n) := by
  have h32 : n * n < 2 ^ 32 := by omega
  refine ⟨?_, ?_, ?_⟩
  · intro h
    rw [getBitsFromByteList_none_iff, Nat.mod_eq_of_lt h32]
    exact h
  · unfold nbytesOf
    split_ifs <;> omega
  · intro hn hlen
    obtain ⟨D, hD⟩ := getBitsFromByteList_some byteList n hn h32 hlen
    exact ⟨D, hD, getBitsFromByteList_dims byteList n D hD⟩

theorem decode_length_check_witness :
    (([⟨0, 0, 0, 0⟩, ⟨0, 0, 0, 0⟩] : List Vec4b).length = 0 ∨
        ([⟨0, 0, 0, 0⟩, ⟨0, 0, 0, 0⟩] : List Vec4b).length < 3 * 3 / 8 ∨
        3 * 3 / 8 + 1 < ([⟨0, 0, 0, 0⟩, ⟨0, 0, 0, 0⟩] : List Vec4b).length →
      getBitsFromByteList [⟨0, 0, 0, 0⟩, ⟨0, 0, 0, 0⟩] 3 = none) ∧
    nbytesOf (3 * 3) = (3 * 3 + 7) / 8 ∧
    (1 ≤ 3 → ([⟨0, 0, 0, 0⟩, ⟨0, 0, 0, 0⟩] : List Vec4b).length = nbytesOf (3 * 3) →
      ∃ D, getBitsFromByteList [⟨0, 0, 0, 0⟩, ⟨0, 0, 0, 0⟩] 3 = some D ∧
        D.rows = 3 ∧ D.cols = 3) :=
  decode_length_check 3 [⟨0, 0, 0, 0⟩, ⟨0, 0, 0, 0⟩] (by norm_num)

/-! ## C17: candidates of the wrong size -/

/-- C17, at the failing input: `twoRows` has `markerSize = 3`, and `getDistanceToId`
returns a distance for the `1 × 1` and the `5 × 5` zero matrix, with one and with all
rotations, where `identify` fails on both. The encoding of the `5 × 5` candidate has 4 byte
positions and the rows of the codebook have 2, so the loop over the bytes reads positions
2 and 3 past the end of the row. -/
theorem getDistanceToId_accepts_wrong_size :
    twoRows.markerSize = 3 ∧ twoRows.bytesList.length = 2 ∧ (twoRows.row 0).length = 2 ∧
    twoRows.getDistanceToId (Mat.zeros 1 1) 0 true = some 0 ∧
    twoRows.getDistanceToId (Mat.zeros 1 1) 0 false = some 1 ∧
    (getByteListFromBits (Mat.zeros 5 5)).length = 4 ∧
    twoRows.getDistanceToId (Mat.zeros 5 5) 1 true = some 2 ∧
    twoRows.getDistanceToId (Mat.zeros 5 5) 1 false = some 2 ∧
    twoRows.identify (Mat.zeros 1 1) 0 1 = none ∧
    twoRows.identify (Mat.zeros 5 5) 0 1 = none := by
  decide

/-- The assertion of `identify`: a candidate that is not `markerSize × markerSize` is
rejected, whatever the budget. -/
theorem identify_rejects_wrong_size (d : Dictionary) (X : Mat) (rotation b : Int)
    (hX : ¬ (X.rows = d.markerSize ∧ X.cols = d.markerSize)) :
    d.identify X rotation b = none := by
  unfold Dictionary.identify
  rw [if_neg hX]

theorem identify_rejects_wrong_size_witness :
    twoRows.identify (Mat.zeros 5 5) 0 1 = none :=
  identify_rejects_wrong_size twoRows (Mat.zeros 5 5) 0 1 (by decide)

/-- The assertion of `getDistanceToId`: an id below 0 or not below the number of rows is
rejected, whatever the candidate. -/
theorem getDistanceToId_rejects_bad_id (d : Dictionary) (X : Mat) (id : Int)
    (allRotations : Bool) (hid : id < 0 ∨ (d.bytesList.length : Int) ≤ id) :
    d.getDistanceToId X id allRotations = none := by
  unfold Dictionary.getDistanceToId
  rw [if_neg (by omega)]

theorem getDistanceToId_rejects_bad_id_witness :
    twoRows.getDistanceToId markerA 2 true = none :=
  getDistanceToId_rejects_bad_id twoRows markerA 2 true (by decide)

/-- `getDistanceToId` has no other assertion: with an id in range it returns a distance for
every candidate matrix, of any dimensions. -/
theorem getDistanceToId_any_size (d : Dictionary) (X : Mat) (id : Int) (allRotations : Bool)
    (hid : 0 ≤ id ∧ id < (d.bytesList.length : Int)) :
    ∃ dist, d.getDistanceToId X id allRotations = some dist := by
  unfold Dictionary.getDistanceToId
  rw [if_pos ⟨hid.1, hid.2⟩]
  exact ⟨_, rfl⟩

theorem getDistanceToId_any_size_witness :
    ∃ dist, twoRows.getDistanceToId (Mat.zeros 5 5) 1 false = some dist :=
  getDistanceToId_any_size twoRows (Mat.zeros 5 5) 1 false (by decide)

/-! ## C20: the rotation reported by `identify` -/

/-- C20, at the failing input: the constructor builds, from the 4 bytes `255` with
`markerSize = 2`, `dictsize = 1` and `maxCorrectionBits = 5`, a codebook with one row; the
`2 × 2` zero candidate is at Hamming distance 8 from it in each rotation, and with
`maxCorrectionRate = 1`, budget 5, `identify` returns `true` with `idx = 0` and
`rotation = -1`. -/
theorem identify_reports_no_rotation :
    (Dictionary.Dictionary [255, 255, 255, 255] 2 1 5).bytesList = [[⟨255, 255, 255, 255⟩]] ∧
    (Dictionary.Dictionary [255, 255, 255, 255] 2 1 5).markerSize = 2 ∧
    (Dictionary.Dictionary [255, 255, 255, 255] 2 1 5).maxCorrectionBits = 5 ∧
    (∀ r, r < 4 → rotDistance ((Dictionary.Dictionary [255, 255, 255, 255] 2 1 5).row 0)
      (getByteListFromBits (Mat.zeros 2 2)) r = 8) ∧
    (Dictionary.Dictionary [255, 255, 255, 255] 2 1 5).identify (Mat.zeros 2 2) 0 5
      = some (true, 0, -1) := by
  decide

theorem identifyRotations_range (n : Nat) (row cand : List Vec4b) :
    ((identifyRotations n row cand).2 = -1 ∧
        (identifyRotations n row cand).1 = ((n * n + 1 : Nat) : Int)) ∨
      (0 ≤ (identifyRotations n row cand).2 ∧ (identifyRotations n row cand).2 ≤ 3) := by
  unfold identifyRotations
  simp only [List.range_succ, List.range_zero, List.nil_append, List.foldl_cons, List.foldl_nil,
    List.cons_append]
  split_ifs <;> simp

theorem identifySearch_range (n : Nat) (cand : List Vec4b) (b rotation : Int)
    (rows : List (List Vec4b)) (m0 : Nat) :
    (identifySearch n cand b rotation rows m0 = (-1, rotation)) ∨
      (((m0 : Int) ≤ (identifySearch n cand b rotation rows m0).1 ∧
        (identifySearch n cand b rotation rows m0).1 < ((m0 + rows.length : Nat) : Int)) ∧
       (((identifySearch n cand b rotation rows m0).2 = -1 ∧ ((n * n + 1 : Nat) : Int) ≤ b) ∨
        (0 ≤ (identifySearch n cand b rotation rows m0).2 ∧
          (identifySearch n cand b rotation rows m0).2 ≤ 3))) := by
  induction rows generalizing m0 with
  | nil => exact Or.inl rfl
  | cons row rest ih =>
    unfold identifySearch
    simp only []
    by_cases hhit : (identifyRotations n row cand).1 ≤ b
    · rw [if_pos hhit]
      refine Or.inr ⟨⟨le_refl _, ?_⟩, ?_⟩
      · simp only [List.length_cons]
        push_cast
        omega
      · rcases identifyRotations_range n row cand with ⟨h1, h2⟩ | h
        · exact Or.inl ⟨h1, by rw [← h2]; exact hhit⟩
        · exact Or.inr h
    · rw [if_neg hhit]
      rcases ih (m0 + 1) with h | ⟨⟨h1, h2⟩, h3⟩
      · exact Or.inl h
      · refine Or.inr ⟨⟨?_, ?_⟩, h3⟩
        · push_cast at h1 ⊢
          omega
        · simp only [List.length_cons]
          push_cast at h2 ⊢
          omega

/-- What `identify` does guarantee when it returns `true`: `0 ≤ idx < count`, and the
rotation reported is one of 0, 1, 2, 3 unless the budget is at least
`markerSize * markerSize + 1`, in which case it can also be `-1`. -/
theorem identify_result_range (d : Dictionary) (X : Mat) (rotation b idx rot : Int)
    (h : d.identify X rotation b = some (true, idx, rot)) :
    (0 ≤ idx ∧ idx < (d.bytesList.length : Int)) ∧
      ((0 ≤ rot ∧ rot ≤ 3) ∨
        (rot = -1 ∧ ((d.markerSize * d.markerSize + 1 : Nat) : Int) ≤ b)) := by
  unfold Dictionary.identify at h
  split_ifs at h with hX
  simp only [Option.some.injEq, Prod.mk.injEq, decide_eq_true_eq] at h
  obtain ⟨hne, hidx, hrot⟩ := h
  rcases identifySearch_range d.markerSize (getByteListFromBits X) b rotation d.bytesList 0
    with hnone | ⟨⟨h1, h2⟩, h3⟩
  · rw [hnone] at hne
    exact absurd rfl hne
  · rw [hidx] at h1 h2
    rw [hrot] at h3
    refine ⟨⟨by simpa using h1, by simpa using h2⟩, ?_⟩
    rcases h3 with h3 | h3
    · exact Or.inr h3
    · exact Or.inl h3

theorem identify_result_range_witness :
    (0 ≤ (1 : Int) ∧ (1 : Int) < (twoRows.bytesList.length : Int)) ∧
      ((0 ≤ (0 : Int) ∧ (0 : Int) ≤ 3) ∨
        ((0 : Int) = -1 ∧ ((twoRows.markerSize * twoRows.markerSize + 1 : Nat) : Int) ≤ 0)) :=
  identify_result_range twoRows markerB 7 0 1 0 (by decide)

/-! ## The variables on entry to the main loop -/

theorem generateInit_entry (n : Nat) (base : Dictionary) (s0 : GenState)
    (hinit : generateInit n base = some s0) :
    s0.out.bytesList = base.bytesList ∧ s0.out.markerSize = n ∧ s0.bestTau = 0 ∧
      s0.unproductiveIterations = 0 := by
  unfold generateInit at hinit
  simp only [] at hinit
  split_ifs at hinit with h1 h2
  · simp only [Option.map_eq_some'] at hinit
    obtain ⟨md, -, hs0⟩ := hinit
    subst hs0
    exact ⟨rfl, rfl, rfl, rfl⟩
  · have := (Option.some.inj hinit).symm
    subst this
    have hnil : base.bytesList = [] := List.eq_nil_of_length_eq_zero (by omega)
    exact ⟨hnil.symm, rfl, rfl, rfl⟩

theorem generateCustomDictionary_eq (fuel : Nat) (nMarkers : Int) (markerSize : Nat)
    (base : Dictionary) (rand : Nat → Nat → Nat) (out : Dictionary)
    (h : generateCustomDictionary fuel nMarkers markerSize base rand = some out) :
    ∃ s0 sf, generateInit markerSize base = some s0 ∧
      generateLoop nMarkers (drawn markerSize rand) fuel 0 s0 = some sf ∧
      out = { sf.out with maxCorrectionBits := Int.tdiv (sf.tau - 1) 2 } := by
  unfold generateCustomDictionary generateFinal at h
  simp only [Option.map_eq_some', Option.bind_eq_some] at h
  obtain ⟨sf, ⟨s0, hinit, hloop⟩, hout⟩ := h
  exact ⟨s0, sf, hinit, hloop, hout.symm⟩

/-! ## C11: the number of codewords of the result -/

theorem generateStep_length (s s' : GenState) (c : Mat) (h : generateStep s c = some s') :
    s'.out.bytesList.length = s.out.bytesList.length ∨
      s'.out.bytesList.length = s.out.bytesList.length + 1 := by
  rcases generateStep_rows s s' c h with h1 | ⟨w, h1⟩
  · exact Or.inl (by rw [h1])
  · exact Or.inr (by rw [h1, List.length_append, List.length_singleton])

/-- The main loop leaves with `nMarkers` rows, or with the rows it was entered with when
these are `nMarkers` or more. -/
theorem generateLoop_length (nMarkers : Int) (draw : Nat → Mat) (fuel t : Nat)
    (s sf : GenState) (h : generateLoop nMarkers draw fuel t s = some sf) :
    (sf.out.bytesList.length : Int) = max nMarkers (s.out.bytesList.length : Int) ∧
      (¬ ((s.out.bytesList.length : Int) < nMarkers) → sf = s) := by
  induction fuel generalizing t s with
  | zero => simp [generateLoop] at h
  | succ fuel ih =>
    unfold generateLoop at h
    split_ifs at h with hcond
    · simp only [Option.bind_eq_some] at h
      obtain ⟨s', hstep, hrest⟩ := h
      have hlen := generateStep_length s s' (draw t) hstep
      have := (ih (t + 1) s' hrest).1
      refine ⟨?_, fun hc => absurd hcond hc⟩
      rcases hlen with hl | hl <;> rw [hl] at this <;> push_cast at this <;> omega
    · have := (Option.some.inj h).symm
      subst this
      exact ⟨by omega, fun _ => rfl⟩

/-- C11 as stated fails: seeded with the two codewords of `twoRows` and asked for one
codeword of side 3, the generator completes without entering its loop and returns a
codebook with 2 codewords. -/
theorem result_size_counterexample :
    twoRows.markerSize = 3 ∧ twoRows.bytesList.length = 2 ∧
    (generateCustomDictionary 1 1 3 twoRows (fun _ _ => 0)).map
      (fun out => out.bytesList.length) = some 2 ∧
    (2 : Int) ≠ 1 := by
  refine ⟨rfl, rfl, rfl, by decide⟩

/-- C11, amended: for every completed run of `generateCustomDictionary`, the output codebook
has `max(targetCount, c0)` codewords, `c0` being the number of rows of the base codebook:
exactly `targetCount` when the base codebook has at most `targetCount` rows, and the rows of
the base codebook when it has more. -/
theorem result_size (fuel : Nat) (nMarkers : Int) (markerSize : Nat) (base : Dictionary)
    (rand : Nat → Nat → Nat) (out : Dictionary)
    (h : generateCustomDictionary fuel nMarkers markerSize base rand = some out) :
    (out.bytesList.length : Int) = max nMarkers (base.bytesList.length : Int) ∧
    ((base.bytesList.length : Int) ≤ nMarkers → (out.bytesList.length : Int) = nMarkers) ∧
    (nMarkers < (base.bytesList.length : Int) → out.bytesList = base.bytesList) := by
  obtain ⟨s0, sf, hinit, hloop, hout⟩ := generateCustomDictionary_eq _ _ _ _ _ _ h
  obtain ⟨hrows, -, -, -⟩ := generateInit_entry _ _ _ hinit
  obtain ⟨hlen, hskip⟩ := generateLoop_length _ _ _ _ _ _ hloop
  rw [hrows] at hlen hskip
  have hout' : out.bytesList = sf.out.bytesList := by rw [hout]
  rw [hout']
  refine ⟨hlen, fun hle => by omega, fun hlt => ?_⟩
  rw [hskip (by omega), hrows]

theorem result_size_witness :
    ((acceptedC.out.bytesList.length : Nat) : Int) = max 3 (twoRows.bytesList.length : Int) ∧
    ((twoRows.bytesList.length : Int) ≤ 3 → ((acceptedC.out.bytesList.length : Nat) : Int) = 3) ∧
    ((3 : Int) < (twoRows.bytesList.length : Int) →
      acceptedC.out.bytesList = twoRows.bytesList) :=
  result_size 2 3 3 twoRows (fun _ => randC)
    { acceptedC.out with maxCorrectionBits := Int.tdiv (acceptedC.tau - 1) 2 } rfl

/-! ## C12: the rows of the base codebook -/

/-- C12: for every completed run of `generateCustomDictionary`, the rows of the base
codebook are the first rows of the output, unchanged and in the same order (each row with
all its bytes in the 4 rotations), and every iteration of the main loop that appends a
codeword appends it as the last row, at an index that is at least the number `c0` of rows
of the base codebook, where it still is in the output. The base codebook is an argument
that the function reads and never assigns. -/
theorem base_rows_kept (fuel : Nat) (nMarkers : Int) (markerSize : Nat) (base : Dictionary)
    (rand : Nat → Nat → Nat) (out : Dictionary)
    (h : generateCustomDictionary fuel nMarkers markerSize base rand = some out) :
    (∃ generated, out.bytesList = base.bytesList ++ generated) ∧
    (∀ i, i < base.bytesList.length → out.row i = base.row i) ∧
    ∃ s0, generateInit markerSize base = some s0 ∧
      ∀ t s s', generateTrace nMarkers (drawn markerSize rand) s0 t = some s →
        generateTrace nMarkers (drawn markerSize rand) s0 (t + 1) = some s' →
        s'.out.bytesList ≠ s.out.bytesList →
        ∃ w, s'.out.bytesList = s.out.bytesList ++ [w] ∧
          base.bytesList.length ≤ s.out.bytesList.length ∧
          out.row s.out.bytesList.length = w := by
  obtain ⟨s0, sf, hinit, hloop, hout⟩ := generateCustomDictionary_eq _ _ _ _ _ _ h
  obtain ⟨hrows, -, -, -⟩ := generateInit_entry _ _ _ hinit
  obtain ⟨T, -, hT, hexit⟩ :=
    generateLoop_trace nMarkers (drawn markerSize rand) s0 fuel 0 s0 sf rfl hloop
  have hout' : out.bytesList = sf.out.bytesList := by rw [hout]
  have hpre : base.bytesList <+: out.bytesList := by
    rw [hout', ← hrows]
    exact generateTrace_rows_grow nMarkers (drawn markerSize rand) s0 0 T s0 sf rfl
      (by rw [Nat.zero_add]; exact hT)
  obtain ⟨g0, hg0⟩ := hpre
  refine ⟨⟨g0, hg0.symm⟩, ?_, s0, hinit, ?_⟩
  · intro i hi
    unfold Dictionary.row
    rw [← hg0, List.getD_append _ _ _ _ hi]
  · intro t s s' ht ht' hne
    obtain ⟨s1, hs1, -, hstep⟩ := generateTrace_succ _ _ _ _ _ ht'
    rw [ht] at hs1
    have hs : s1 = s := (Option.some.inj hs1).symm
    rw [hs] at hstep
    rcases generateStep_rows s s' _ hstep with hsame | ⟨w, hw⟩
    · exact absurd hsame hne
    · refine ⟨w, hw, ?_, ?_⟩
      · have hp0 := generateTrace_rows_grow nMarkers (drawn markerSize rand) s0 0 t s0 s rfl
          (by rw [Nat.zero_add]; exact ht)
        rw [hrows] at hp0
        exact hp0.length_le
      · -- the run reaches `sf` at `T`, and `t + 1 ≤ T`
        have hle : t + 1 ≤ T := by
          by_contra hgt
          have hnone := generateTrace_after_exit nMarkers (drawn markerSize rand) s0 sf T
            (t - T) hT hexit
          rw [show T + 1 + (t - T) = t + 1 by omega, ht'] at hnone
          exact Option.noConfusion hnone
        obtain ⟨k, hk⟩ := Nat.exists_eq_add_of_le hle
        obtain ⟨g, hg⟩ := generateTrace_rows_grow nMarkers (drawn markerSize rand) s0 (t + 1) k
          s' sf ht' (by rw [← hk]; exact hT)
        unfold Dictionary.row
        rw [hout', ← hg, hw, List.append_assoc, List.getD_append_right _ _ _ _ (le_refl _)]
        simp

theorem base_rows_kept_witness :
    (∃ generated, acceptedC.out.bytesList = twoRows.bytesList ++ generated) ∧
    (∀ i, i < twoRows.bytesList.length →
      Dictionary.row { acceptedC.out with maxCorrectionBits := 0 } i = twoRows.row i) ∧
    ∃ s0, generateInit 3 twoRows = some s0 ∧
      ∀ t s s', generateTrace 3 (drawn 3 (fun _ => randC)) s0 t = some s →
        generateTrace 3 (drawn 3 (fun _ => randC)) s0 (t + 1) = some s' →
        s'.out.bytesList ≠ s.out.bytesList →
        ∃ w, s'.out.bytesList = s.out.bytesList ++ [w] ∧
          twoRows.bytesList.length ≤ s.out.bytesList.length ∧
          Dictionary.row { acceptedC.out with maxCorrectionBits := 0 } s.out.bytesList.length
            = w :=
  base_rows_kept 2 3 3 twoRows (fun _ => randC)
    { acceptedC.out with maxCorrectionBits := 0 } rfl

/-! ## C13: `tau` seeded from the base codebook -/

theorem getSelfDistance_le_total (c : Mat) : getSelfDistance c ≤ (c.total : Int) + 1 := by
  rw [getSelfDistance_eq]
  exact min_le_left _ _

theorem baseInner_attained (out : Dictionary) (D : Mat) (L : List Nat) (md0 md : Int)
    (h : baseInner out D L md0 = some md) :
    md = md0 ∨ ∃ j ∈ L, out.getDistanceToId D (j : Int) true = some md := by
  induction L generalizing md0 with
  | nil =>
    simp only [baseInner, Option.some.injEq] at h
    exact Or.inl h.symm
  | cons j rest ih =>
    simp only [baseInner, Option.bind_eq_some] at h
    obtain ⟨dist, hdist, hrest⟩ := h
    rcases ih _ hrest with hmd | ⟨j', hj', hj'd⟩
    · rcases min_choice md0 dist with hm | hm
      · exact Or.inl (by rw [hmd, hm])
      · exact Or.inr ⟨j, by simp, by rw [hmd, hm]; exact hdist⟩
    · exact Or.inr ⟨j', by simp [hj'], hj'd⟩

theorem baseOuter_attained (out : Dictionary) (L : List Nat) (md0 md : Int)
    (h : baseOuter out L md0 = some md) :
    md = md0 ∨ ∃ i ∈ L, ∃ D, getBitsFromByteList (out.row i) out.markerSize = some D ∧
      (md = getSelfDistance D ∨
        ∃ j, i < j ∧ j < out.bytesList.length ∧
          out.getDistanceToId D (j : Int) true = some md) := by
  induction L generalizing md0 with
  | nil =>
    simp only [baseOuter, Option.some.injEq] at h
    exact Or.inl h.symm
  | cons i rest ih =>
    simp only [baseOuter, Option.bind_eq_some] at h
    obtain ⟨D, hD, md1, hinner, hrest⟩ := h
    rcases ih _ hrest with hmd | ⟨i', hi', D', hD', hatt⟩
    · rcases baseInner_attained _ _ _ _ _ hinner with hm1 | ⟨j, hj, hjd⟩
      · rcases min_choice md0 (getSelfDistance D) with hm | hm
        · exact Or.inl (by rw [hmd, hm1, hm])
        · exact Or.inr ⟨i, by simp, D, hD, Or.inl (by rw [hmd, hm1, hm])⟩
      · rw [List.mem_range'_1] at hj
        exact Or.inr ⟨i, by simp, D, hD, Or.inr ⟨j, by omega, by omega, by rw [hmd]; exact hjd⟩⟩
    · exact Or.inr ⟨i', by simp [hi'], D', hD', hatt⟩

theorem baseInner_some (out : Dictionary) (D : Mat) (L : List Nat) (md0 : Int)
    (hL : ∀ j ∈ L, j < out.bytesList.length) : ∃ md, baseInner out D L md0 = some md := by
  induction L generalizing md0 with
  | nil => exact ⟨md0, rfl⟩
  | cons j rest ih =>
    obtain ⟨cd, hcd⟩ := getDistanceToId_some out D j (hL j (by simp))
    simp only [baseInner, hcd, Option.some_bind]
    exact ih _ (fun j' hj' => hL j' (by simp [hj']))

theorem baseOuter_some (out : Dictionary) (L : List Nat) (md0 : Int)
    (hL : ∀ i ∈ L, ∃ D, getBitsFromByteList (out.row i) out.markerSize = some D) :
    ∃ md, baseOuter out L md0 = some md := by
  induction L generalizing md0 with
  | nil => exact ⟨md0, rfl⟩
  | cons i rest ih =>
    obtain ⟨D, hD⟩ := hL i (by simp)
    obtain ⟨md1, hmd1⟩ := baseInner_some out D
      (List.range' (i + 1) (out.bytesList.length - (i + 1))) (min md0 (getSelfDistance D))
      (fun j hj => by rw [List.mem_range'_1] at hj; omega)
    simp only [baseOuter, hD, hmd1, Option.some_bind]
    exact ih _ (fun i' hi' => hL i' (by simp [hi']))

/-- The seeding of `tau` reads only the rows of the dictionary. -/
theorem getDistanceToId_rows (d d' : Dictionary) (h : d.bytesList = d'.bytesList) (X : Mat)
    (id : Int) (allRotations : Bool) :
    d.getDistanceToId X id allRotations = d'.getDistanceToId X id allRotations := by
  unfold Dictionary.getDistanceToId Dictionary.row
  rw [h]

/-- C13: for a non-empty base codebook, (1) the seeding completes when the base codebook has
the given `markerSize ≥ 1` (with `markerSize² < 2 ^ 32`) and rows of `nbytes` byte
positions, and (2) whenever it completes, the value of `tau` on entry to the main loop is the
minimum, over the base rows `i`, of the self-distance of the decoded row `i` and of the
all-rotation distances `getDistanceToId(decoded row i, j, true)` to the later rows `j > i`:
it is at most each of these values and it is one of them. -/
theorem seeded_tau (n : Nat) (base : Dictionary) (hne : 0 < base.bytesList.length) :
    (base.markerSize = n → WellSized base → 1 ≤ n → n * n < 2 ^ 32 →
      ∃ s0, generateInit n base = some s0) ∧
    ∀ s0, generateInit n base = some s0 →
      (∀ i, i < base.bytesList.length →
        ∃ D, getBitsFromByteList (base.row i) n = some D ∧ s0.tau ≤ getSelfDistance D ∧
          ∀ j, i < j → j < base.bytesList.length →
            ∃ cd, base.getDistanceToId D (j : Int) true = some cd ∧ s0.tau ≤ cd) ∧
      ∃ i, i < base.bytesList.length ∧
        ∃ D, getBitsFromByteList (base.row i) n = some D ∧
          (s0.tau = getSelfDistance D ∨
            ∃ j, i < j ∧ j < base.bytesList.length ∧
              base.getDistanceToId D (j : Int) true = some s0.tau) := by
  have hrow : ∀ i, (Dictionary.mk base.bytesList n 0).row i = base.row i := fun _ => rfl
  have hdist : ∀ (D : Mat) (j : Nat), (Dictionary.mk base.bytesList n 0).getDistanceToId D
      (j : Int) true = base.getDistanceToId D (j : Int) true :=
    fun D j => getDistanceToId_rows _ _ rfl D _ true
  constructor
  · intro hsize hwf hn h32
    have hdec : ∀ i ∈ List.range base.bytesList.length,
        ∃ D, getBitsFromByteList ((Dictionary.mk base.bytesList n 0).row i) n = some D := by
      intro i hi
      rw [hrow]
      have := hwf i (List.mem_range.mp hi)
      rw [hsize] at this
      exact getBitsFromByteList_some _ n hn h32 this
    obtain ⟨md, hmd⟩ := baseOuter_some (Dictionary.mk base.bytesList n 0)
      (List.range base.bytesList.length) ((n * n + 1 : Nat) : Int) hdec
    unfold generateInit
    simp only []
    rw [if_pos hne, if_pos hsize, hmd]
    exact ⟨_, rfl⟩
  · intro s0 hinit
    unfold generateInit at hinit
    simp only [] at hinit
    rw [if_pos hne] at hinit
    split_ifs at hinit with hsize
    simp only [Option.map_eq_some'] at hinit
    obtain ⟨md, hmd, hs0⟩ := hinit
    have htau : s0.tau = md := by rw [← hs0]
    rw [htau]
    obtain ⟨hle, hlow⟩ := baseOuter_spec _ _ _ _ hmd
    have hlow' : ∀ i, i < base.bytesList.length →
        ∃ D, getBitsFromByteList (base.row i) n = some D ∧ md ≤ getSelfDistance D ∧
          ∀ j, i < j → j < base.bytesList.length →
            ∃ cd, base.getDistanceToId D (j : Int) true = some cd ∧ md ≤ cd := by
      intro i hi
      obtain ⟨D, hD, hsd, hpair⟩ := hlow i (List.mem_range.mpr hi)
      refine ⟨D, hD, hsd, fun j hij hj => ?_⟩
      obtain ⟨cd, hcd, hle'⟩ := hpair j hij hj
      exact ⟨cd, by rw [← hdist]; exact hcd, hle'⟩
    refine ⟨hlow', ?_⟩
    rcases baseOuter_attained _ _ _ _ hmd with hinit0 | ⟨i, hi, D, hD, hatt⟩
    · -- the initial value `markerSize * markerSize + 1` bounds the self-distance of row 0
      obtain ⟨D, hD, hsd, -⟩ := hlow' 0 hne
      obtain ⟨hr, hc⟩ := getBitsFromByteList_dims _ _ _ hD
      have htot := getSelfDistance_le_total D
      have hT : (D.total : Int) = ((n * n : Nat) : Int) := by
        unfold Mat.total
        rw [hr, hc]
      refine ⟨0, hne, D, hD, Or.inl ?_⟩
      rw [hT] at htot
      push_cast at hinit0 htot
      omega
    · refine ⟨i, List.mem_range.mp hi, D, hD, ?_⟩
      rcases hatt with h1 | ⟨j, hij, hj, hjd⟩
      · exact Or.inl h1
      · exact Or.inr ⟨j, hij, hj, by rw [← hdist]; exact hjd⟩

/-- C13 at the base codebook `twoRows`, of side 3, where `tau` is 1 on entry. -/
theorem seeded_tau_witness :
    (generateInit 3 twoRows).map (fun s => s.tau) = some 1 ∧
    ((twoRows.markerSize = 3 → WellSized twoRows → 1 ≤ 3 → 3 * 3 < 2 ^ 32 →
      ∃ s0, generateInit 3 twoRows = some s0) ∧
    ∀ s0, generateInit 3 twoRows = some s0 →
      (∀ i, i < twoRows.bytesList.length →
        ∃ D, getBitsFromByteList (twoRows.row i) 3 = some D ∧ s0.tau ≤ getSelfDistance D ∧
          ∀ j, i < j → j < twoRows.bytesList.length →
            ∃ cd, twoRows.getDistanceToId D (j : Int) true = some cd ∧ s0.tau ≤ cd) ∧
      ∃ i, i < twoRows.bytesList.length ∧
        ∃ D, getBitsFromByteList (twoRows.row i) 3 = some D ∧
          (s0.tau = getSelfDistance D ∨
            ∃ j, i < j ∧ j < twoRows.bytesList.length ∧
              twoRows.getDistanceToId D (j : Int) true = some s0.tau)) :=
  ⟨rfl, seeded_tau 3 twoRows (by decide)⟩

/-! ## The counter of unproductive iterations -/

/-- A run of the loop that returns has left the loop after fewer iterations than its fuel. -/
theorem generateLoop_trace_bound (nMarkers : Int) (draw : Nat → Mat) (s0 : GenState)
    (fuel t : Nat) (s sf : GenState) (ht : generateTrace nMarkers draw s0 t = some s)
    (h : generateLoop nMarkers draw fuel t s = some sf) :
    ∃ T, t ≤ T ∧ T < t + fuel ∧ generateTrace nMarkers draw s0 T = some sf ∧
      ¬ ((sf.out.bytesList.length : Int) < nMarkers) := by
  induction fuel generalizing t s with
  | zero => simp [generateLoop] at h
  | succ fuel ih =>
    unfold generateLoop at h
    split_ifs at h with hcond
    · simp only [Option.bind_eq_some] at h
      obtain ⟨s1, hstep, hrest⟩ := h
      obtain ⟨T, hT, hlt, htr, hexit⟩ :=
        ih (t + 1) s1 (generateTrace_step nMarkers draw s0 s s1 t ht hcond hstep) hrest
      exact ⟨T, by omega, by omega, htr, hexit⟩
    · have := Option.some.inj h
      subst this
      exact ⟨t, le_refl _, by omega, ht, hcond⟩

/-- Along a run, the counter of unproductive iterations stays in `0 .. 4999`. -/
theorem generateTrace_counter (nMarkers : Int) (draw : Nat → Mat) (s0 : GenState)
    (h0 : 0 ≤ s0.unproductiveIterations ∧ s0.unproductiveIterations < 5000)
    (t : Nat) (s : GenState) (h : generateTrace nMarkers draw s0 t = some s) :
    0 ≤ s.unproductiveIterations ∧ s.unproductiveIterations < 5000 := by
  induction t generalizing s with
  | zero =>
    have := Option.some.inj h
    subst this
    exact h0
  | succ t ih =>
    obtain ⟨s1, h1, -, hstep⟩ := generateTrace_succ nMarkers draw s0 s t h
    obtain ⟨s', hs', hcase⟩ := generateStep_progress s1 (draw t) (ih s1 h1)
    rw [hstep] at hs'
    have := Option.some.inj hs'
    subst this
    rcases hcase with ⟨-, hz⟩ | ⟨-, h2, h3⟩
    · rw [hz]
      exact ⟨le_refl _, by norm_num⟩
    · have := (ih s1 h1).1
      exact ⟨by omega, h3⟩

/-! ## The cases of one iteration of the main loop -/

theorem generateStep_accepts (s : GenState) (c : Mat) (md : Int)
    (hmd : candidateDistance s c = some md) (h1 : md ≥ s.tau) :
    generateStep s c
      = some ⟨pushBack s.out (getByteListFromBits c), s.tau, 0, s.bestMarker, 0⟩ := by
  unfold generateStep
  rw [hmd, Option.some_bind, if_pos h1]

theorem generateStep_unproductive (s : GenState) (c : Mat) (md : Int)
    (hmd : candidateDistance s c = some md) (h1 : md < s.tau) (h2 : md ≤ s.bestTau)
    (h3 : s.unproductiveIterations + 1 ≠ 5000) :
    generateStep s c
      = some ⟨s.out, s.tau, s.bestTau, s.bestMarker, s.unproductiveIterations + 1⟩ := by
  unfold generateStep
  rw [hmd, Option.some_bind, if_neg (not_le.mpr h1)]
  simp only []
  rw [if_neg (show ¬ (s.unproductiveIterations + 1 = maxUnproductiveIterations) from h3),
    if_neg (not_lt.mpr h2), if_neg (not_lt.mpr h2)]

theorem generateStep_improves (s : GenState) (c : Mat) (md : Int)
    (hmd : candidateDistance s c = some md) (h1 : md < s.tau) (h2 : s.bestTau < md)
    (h3 : s.unproductiveIterations + 1 ≠ 5000) :
    generateStep s c = some ⟨s.out, s.tau, md, c, s.unproductiveIterations + 1⟩ := by
  unfold generateStep
  rw [hmd, Option.some_bind, if_neg (not_le.mpr h1)]
  simp only []
  rw [if_neg (show ¬ (s.unproductiveIterations + 1 = maxUnproductiveIterations) from h3),
    if_pos h2, if_pos h2]

theorem generateStep_forced_kept (s : GenState) (c : Mat) (md : Int)
    (hmd : candidateDistance s c = some md) (h1 : md < s.tau) (h2 : md ≤ s.bestTau)
    (h3 : s.unproductiveIterations + 1 = 5000) :
    generateStep s c
      = some ⟨pushBack s.out (getByteListFromBits s.bestMarker), s.bestTau, 0, s.bestMarker,
          0⟩ := by
  unfold generateStep
  rw [hmd, Option.some_bind, if_neg (not_le.mpr h1)]
  simp only []
  rw [if_pos (show s.unproductiveIterations + 1 = maxUnproductiveIterations from h3),
    if_neg (not_lt.mpr h2), if_neg (not_lt.mpr h2)]

theorem generateStep_forced_improves (s : GenState) (c : Mat) (md : Int)
    (hmd : candidateDistance s c = some md) (h1 : md < s.tau) (h2 : s.bestTau < md)
    (h3 : s.unproductiveIterations + 1 = 5000) :
    generateStep s c = some ⟨pushBack s.out (getByteListFromBits c), md, 0, c, 0⟩ := by
  unfold generateStep
  rw [hmd, Option.some_bind, if_neg (not_le.mpr h1)]
  simp only []
  rw [if_pos (show s.unproductiveIterations + 1 = maxUnproductiveIterations from h3),
    if_pos h2, if_pos h2]

/-- A stretch of `k` iterations of a run that goes through the states `st 0, ..., st k`. -/
theorem generateTrace_run (nMarkers : Int) (draw : Nat → Mat) (s0 : GenState)
    (st : Nat → GenState) (t0 k : Nat)
    (h0 : generateTrace nMarkers draw s0 t0 = some (st 0))
    (hstep : ∀ j, j < k → ((st j).out.bytesList.length : Int) < nMarkers ∧
      generateStep (st j) (draw (t0 + j)) = some (st (j + 1))) :
    generateTrace nMarkers draw s0 (t0 + k) = some (st k) := by
  induction k with
  | zero => exact h0
  | succ k ih =>
    have hprev := ih (fun j hj => hstep j (by omega))
    obtain ⟨hcond, hs⟩ := hstep k (by omega)
    exact generateTrace_step nMarkers draw s0 _ _ (t0 + k) hprev hcond hs

/-! ## Distances that are not negative -/

theorem foldl_min_bounds (f : Nat → Nat) (L : List Nat) (init : Int) :
    L.foldl (fun (m : Int) r => if ((f r : Nat) : Int) < m then ((f r : Nat) : Int) else m) init
        ≤ init ∧
      (0 ≤ init → 0 ≤ L.foldl
        (fun (m : Int) r => if ((f r : Nat) : Int) < m then ((f r : Nat) : Int) else m) init) := by
  induction L generalizing init with
  | nil => exact ⟨le_refl _, fun h => h⟩
  | cons r rest ih =>
    simp only [List.foldl_cons]
    split_ifs with h
    · obtain ⟨h1, h2⟩ := ih ((f r : Nat) : Int)
      exact ⟨by omega, fun _ => h2 (by omega)⟩
    · exact ih init

/-- The distance returned by `getDistanceToId` is at most its initial value
`int(bits.total() * bits.total())`, and is not negative when this value is not. -/
theorem getDistanceToId_bounds (d : Dictionary) (X : Mat) (id : Int) (allRotations : Bool)
    (cd : Int) (h : d.getDistanceToId X id allRotations = some cd) :
    cd ≤ distanceInit X ∧ (0 ≤ distanceInit X → 0 ≤ cd) := by
  unfold Dictionary.getDistanceToId at h
  by_cases hid : id ≥ 0 ∧ id < d.bytesList.length
  · rw [if_pos hid] at h
    have := (Option.some.inj h).symm
    subst this
    exact foldl_min_bounds
      (fun r => hammingSum (getByteListFromBits X).length (rowByte (d.row id.toNat) r)
        (rowByte (getByteListFromBits X) 0)) _ _
  · rw [if_neg hid] at h
    exact Option.noConfusion h

theorem getSelfDistance_nonneg (c : Mat) : 0 ≤ getSelfDistance c := by
  rw [getSelfDistance_eq]
  omega

theorem scanDistances_nonneg (out : Dictionary) (c : Mat) (bestTau : Int) (L : List Nat)
    (md0 md : Int) (hinit : 0 ≤ distanceInit c) (h0 : 0 ≤ md0)
    (h : scanDistances out c bestTau L md0 = some md) : 0 ≤ md := by
  induction L generalizing md0 with
  | nil =>
    simp only [scanDistances, Option.some.injEq] at h
    omega
  | cons i rest ih =>
    simp only [scanDistances, Option.bind_eq_some] at h
    obtain ⟨cd, hcd, hrest⟩ := h
    have hcd0 := (getDistanceToId_bounds out c _ true cd hcd).2 hinit
    split_ifs at hrest with hbr
    · have := Option.some.inj hrest
      omega
    · exact ih _ (by omega) hrest

theorem candidateDistance_nonneg (s : GenState) (c : Mat) (md : Int)
    (hinit : 0 ≤ distanceInit c) (h : candidateDistance s c = some md) : 0 ≤ md := by
  unfold candidateDistance at h
  simp only [] at h
  have hsd := getSelfDistance_nonneg c
  split_ifs at h
  · exact scanDistances_nonneg _ _ _ _ _ _ hinit hsd h
  · have := Option.some.inj h
    omega

/-! ## C14: the changes of `tau` -/

/-- One iteration of the main loop: the best option stays below `tau`; `tau` is kept unless
the acceptance is forced; a forced acceptance leaves `tau ≥ 0`, and sets it to a smaller
value when the distance found for the marker drawn is not negative. -/
theorem generateStep_tau (s s' : GenState) (c : Mat) (hb : BestBelowTau s)
    (h : generateStep s c = some s') :
    BestBelowTau s' ∧ (¬ ForcedAcceptance s c → s'.tau = s.tau) ∧
    (ForcedAcceptance s c → 0 ≤ s'.tau ∧ s'.tau ≤ max s.tau 0 ∧
      ∀ md, candidateDistance s c = some md → 0 ≤ md → s'.tau < s.tau) := by
  obtain ⟨md, hmd⟩ := candidateDistance_some s c
  obtain ⟨hb0, hb1⟩ := hb
  by_cases hacc : md ≥ s.tau
  · rw [generateStep_accepts s c md hmd hacc] at h
    have := (Option.some.inj h).symm
    subst this
    refine ⟨⟨le_refl _, fun h0 => absurd h0 (lt_irrefl _)⟩, fun _ => rfl, ?_⟩
    rintro ⟨md', hmd', hlt, -⟩
    rw [hmd] at hmd'
    have := Option.some.inj hmd'
    omega
  · have hlt : md < s.tau := not_le.mp hacc
    by_cases hforce : s.unproductiveIterations + 1 = 5000
    · have hF : ForcedAcceptance s c := ⟨md, hmd, hlt, hforce⟩
      by_cases himp : s.bestTau < md
      · rw [generateStep_forced_improves s c md hmd hlt himp hforce] at h
        have := (Option.some.inj h).symm
        subst this
        refine ⟨⟨le_refl _, fun h0 => absurd h0 (lt_irrefl _)⟩, fun hn => absurd hF hn, ?_⟩
        intro _
        refine ⟨?_, ?_, fun _ _ _ => hlt⟩
        · show 0 ≤ md
          omega
        · show md ≤ max s.tau 0
          omega
      · rw [generateStep_forced_kept s c md hmd hlt (not_lt.mp himp) hforce] at h
        have := (Option.some.inj h).symm
        subst this
        refine ⟨⟨le_refl _, fun h0 => absurd h0 (lt_irrefl _)⟩, fun hn => absurd hF hn, ?_⟩
        intro _
        refine ⟨hb0, ?_, fun md' hmd' hnn => ?_⟩
        · show s.bestTau ≤ max s.tau 0
          rcases lt_or_eq_of_le hb0 with hpos | hzero
          · have := hb1 hpos
            omega
          · omega
        · show s.bestTau < s.tau
          rw [hmd] at hmd'
          have := Option.some.inj hmd'
          rcases lt_or_eq_of_le hb0 with hpos | hzero
          · exact hb1 hpos
          · omega
    · have hnF : ¬ ForcedAcceptance s c := by
        rintro ⟨-, -, -, h5⟩
        exact hforce h5
      by_cases himp : s.bestTau < md
      · rw [generateStep_improves s c md hmd hlt himp hforce] at h
        have := (Option.some.inj h).symm
        subst this
        exact ⟨⟨by show 0 ≤ md; omega, fun _ => hlt⟩, fun _ => rfl, fun hF => absurd hF hnF⟩
      · rw [generateStep_unproductive s c md hmd hlt (not_lt.mp himp) hforce] at h
        have := (Option.some.inj h).symm
        subst this
        exact ⟨⟨hb0, hb1⟩, fun _ => rfl, fun hF => absurd hF hnF⟩

theorem generateTrace_bestBelowTau (nMarkers : Int) (draw : Nat → Mat) (s0 : GenState)
    (h0 : BestBelowTau s0) (t : Nat) (s : GenState)
    (h : generateTrace nMarkers draw s0 t = some s) : BestBelowTau s := by
  induction t generalizing s with
  | zero =>
    have := Option.some.inj h
    subst this
    exact h0
  | succ t ih =>
    obtain ⟨s1, h1, -, hstep⟩ := generateTrace_succ nMarkers draw s0 s t h
    exact (generateStep_tau s1 s (draw t) (ih s1 h1) hstep).1

/-- The changes of `tau` in the main loop, for markers of side at most 215: for every base
codebook on which the seeding completes and every stream of drawn markers, in every
iteration the value of `tau` after it is at most the value before it, it differs from it only
when the acceptance is forced, and every forced acceptance sets `tau` to a smaller value that
is not negative. -/
theorem tau_decreases_small_markers (nMarkers : Int) (markerSize : Nat) (base : Dictionary)
    (rand : Nat → Nat → Nat) (s0 : GenState) (hn : markerSize ≤ 215)
    (hinit : generateInit markerSize base = some s0) :
    ∀ t s s', generateTrace nMarkers (drawn markerSize rand) s0 t = some s →
      generateTrace nMarkers (drawn markerSize rand) s0 (t + 1) = some s' →
      s'.tau ≤ s.tau ∧
      (s'.tau ≠ s.tau → ForcedAcceptance s (drawn markerSize rand t)) ∧
      (ForcedAcceptance s (drawn markerSize rand t) → s'.tau < s.tau ∧ 0 ≤ s'.tau) := by
  intro t s s' ht ht'
  obtain ⟨-, -, hbest, -⟩ := generateInit_entry _ _ _ hinit
  have hb0 : BestBelowTau s0 := by
    unfold BestBelowTau
    rw [hbest]
    exact ⟨le_refl _, fun h => absurd h (lt_irrefl _)⟩
  have hb := generateTrace_bestBelowTau nMarkers _ s0 hb0 t s ht
  obtain ⟨s1, hs1, -, hstep⟩ := generateTrace_succ _ _ _ _ _ ht'
  rw [ht] at hs1
  have hs : s1 = s := (Option.some.inj hs1).symm
  rw [hs] at hstep
  obtain ⟨-, hkeep, hforced⟩ := generateStep_tau s s' _ hb hstep
  have hd0 : 0 ≤ distanceInit (drawn markerSize rand t) := by
    rw [(distanceInit_small markerSize _ (drawn_dims markerSize rand t) hn).1]
    exact Int.natCast_nonneg _
  have hstrict : ForcedAcceptance s (drawn markerSize rand t) → s'.tau < s.tau ∧ 0 ≤ s'.tau := by
    intro hF
    obtain ⟨h1, -, h3⟩ := hforced hF
    obtain ⟨md, hmd, -, -⟩ := hF
    exact ⟨h3 md hmd (candidateDistance_nonneg s _ md hd0 hmd), h1⟩
  refine ⟨?_, ?_, hstrict⟩
  · by_cases hF : ForcedAcceptance s (drawn markerSize rand t)
    · exact le_of_lt (hstrict hF).1
    · rw [hkeep hF]
  · intro hne
    by_contra hF
    exact hne (hkeep hF)

/-- The forced acceptance of `drawnA` in the run that accepts `drawnB` first: `tau` goes from
4 to 1. -/
theorem tau_decreases_small_markers_witness :
    forcedA.tau ≤ (streakA 4999).tau ∧
      (forcedA.tau ≠ (streakA 4999).tau →
        ForcedAcceptance (streakA 4999) (drawn 3 randBA 5000)) ∧
      (ForcedAcceptance (streakA 4999) (drawn 3 randBA 5000) →
        forcedA.tau < (streakA 4999).tau ∧ 0 ≤ forcedA.tau) :=
  tau_decreases_small_markers 2 3 emptyDictionary randBA entryState3 (by decide) rfl 5000
    (streakA 4999) forcedA (trace_streak_A 4999 (by norm_num) (by norm_num)) trace_force_A

/-! ## C18: a forced acceptance after a streak without a best option -/

theorem drawn_randBAB_zero : drawn 3 randBAB 0 = drawnB := rfl

theorem drawn_randBAB_A (t : Nat) (h1 : 1 ≤ t) (h2 : t ≤ 5000) : drawn 3 randBAB t = drawnA := by
  unfold drawn randBAB
  rw [if_neg (by omega), if_pos h2]
  rfl

theorem drawn_randBAB_B (t : Nat) (h : 5000 < t) : drawn 3 randBAB t = drawnB := by
  unfold drawn randBAB
  rw [if_neg (by omega), if_neg (by omega)]
  rfl

theorem candidateDistance_streakB (u : Nat) : candidateDistance (streakB u) drawnB = some 0 := by
  have hsd : getSelfDistance drawnB = 4 := by decide
  have hscan : scanDistances forcedA.out drawnB 0
      (List.range forcedA.out.bytesList.length) 4 = some 0 := by decide
  unfold candidateDistance
  simp only [hsd]
  rw [if_pos (show (4 : Int) ≥ (streakB u).bestTau by show (4 : Int) ≥ 0; decide)]
  exact hscan

theorem step_streak_B (u : Nat) (hu : u + 1 ≠ 5000) :
    generateStep (streakB u) drawnB = some (streakB (u + 1)) := by
  rw [generateStep_unproductive (streakB u) drawnB 0 (candidateDistance_streakB u)
    (by show (0 : Int) < 1; decide) (by show (0 : Int) ≤ 0; decide)
    (by show ((u : Int) + 1 ≠ 5000); omega)]
  unfold streakB
  simp only [Nat.cast_add, Nat.cast_one]

theorem step_force_stale : generateStep (streakB 4999) drawnB = some forcedStale := by
  rw [generateStep_forced_kept (streakB 4999) drawnB 0 (candidateDistance_streakB 4999)
    (by show (0 : Int) < 1; decide) (by show (0 : Int) ≤ 0; decide)
    (by show (((4999 : Nat) : Int) + 1 = 5000); norm_num)]
  rfl

theorem trace_BAB_first : generateTrace 3 (drawn 3 randBAB) entryState3 1 = some acceptedB :=
  generateTrace_step 3 (drawn 3 randBAB) entryState3 entryState3 acceptedB 0 rfl (by decide)
    step_accept_B

theorem trace_BAB_streakA :
    generateTrace 3 (drawn 3 randBAB) entryState3 5000 = some (streakA 4999) := by
  have h := generateTrace_run 3 (drawn 3 randBAB) entryState3 phaseA 1 4999 trace_BAB_first
    (fun j hj => by
      rw [drawn_randBAB_A (1 + j) (by omega) (by omega)]
      rcases Nat.eq_zero_or_pos j with h0 | hpos
      · subst h0
        exact ⟨by decide, step_first_A⟩
      · have e1 : phaseA j = streakA (j : Int) := if_neg (by omega)
        have e2 : phaseA (j + 1) = streakA ((j : Int) + 1) := by
          unfold phaseA
          rw [if_neg (by omega)]
          simp only [Nat.cast_add, Nat.cast_one]
        rw [e1, e2]
        refine ⟨?_, step_streak_A (j : Int) (by omega)⟩
        show ((acceptedB.out.bytesList.length : Nat) : Int) < 3
        decide)
  exact h

theorem trace_BAB_forcedA : generateTrace 3 (drawn 3 randBAB) entryState3 5001 = some forcedA := by
  have hstep := step_force_A
  rw [← drawn_randBAB_A 5000 (by norm_num) (by norm_num)] at hstep
  exact generateTrace_step 3 (drawn 3 randBAB) entryState3 _ _ 5000 trace_BAB_streakA (by decide)
    hstep

theorem trace_BAB_streakB :
    generateTrace 3 (drawn 3 randBAB) entryState3 10000 = some (streakB 4999) := by
  have h := generateTrace_run 3 (drawn 3 randBAB) entryState3 streakB 5001 4999
    trace_BAB_forcedA
    (fun j hj => by
      rw [drawn_randBAB_B (5001 + j) (by omega)]
      refine ⟨?_, step_streak_B j (by omega)⟩
      show ((forcedA.out.bytesList.length : Nat) : Int) < 3
      decide)
  exact h

theorem trace_BAB_forcedStale :
    generateTrace 3 (drawn 3 randBAB) entryState3 10001 = some forcedStale := by
  have hstep := step_force_stale
  rw [← drawn_randBAB_B 10000 (by norm_num)] at hstep
  exact generateTrace_step 3 (drawn 3 randBAB) entryState3 _ _ 10000 trace_BAB_streakB
    (by decide) hstep

/-- C18, at the failing input: no base codebook, markers of side 3, three codewords asked
for, and values of `rand()` that draw `drawnB`, then `drawnA` 5000 times, then `drawnB`
5000 times. `drawnB` is accepted in iteration 0 and `drawnA` by force in iteration 5000.
Every marker drawn after this acceptance is `drawnB`, found at distance 0, which does not
exceed `bestTau = 0`, so `bestMarker` still holds `drawnA` when the counter reaches 5000 in
iteration 10000: the codeword appended is the encoding of `drawnA`, which is not the encoding
of `drawnB`, the only marker drawn since the last acceptance, and `tau` becomes 0. -/
theorem forced_acceptance_stale_marker :
    generateFinal 10002 3 3 emptyDictionary randBAB = some forcedStale ∧
    generateTrace 3 (drawn 3 randBAB) entryState3 5000 = some (streakA 4999) ∧
    generateTrace 3 (drawn 3 randBAB) entryState3 5001 = some forcedA ∧
    forcedA.out.bytesList.length = (streakA 4999).out.bytesList.length + 1 ∧
    (∀ t, 5000 < t → drawn 3 randBAB t = drawnB) ∧
    generateTrace 3 (drawn 3 randBAB) entryState3 10000 = some (streakB 4999) ∧
    (streakB 4999).unproductiveIterations + 1 = maxUnproductiveIterations ∧
    candidateDistance (streakB 4999) drawnB = some 0 ∧ (0 : Int) < (streakB 4999).tau ∧
    generateTrace 3 (drawn 3 randBAB) entryState3 10001 = some forcedStale ∧
    forcedStale.out.bytesList = (streakB 4999).out.bytesList ++ [getByteListFromBits drawnA] ∧
    getByteListFromBits drawnA ≠ getByteListFromBits drawnB ∧
    forcedStale.tau = 0 := by
  refine ⟨?_, trace_BAB_streakA, trace_BAB_forcedA, by decide, drawn_randBAB_B, trace_BAB_streakB,
    by decide, candidateDistance_streakB 4999, by decide, trace_BAB_forcedStale, rfl, by decide,
    rfl⟩
  have hloop := generateLoop_of_trace 3 (drawn 3 randBAB) entryState3 forcedStale 10001
    trace_BAB_forcedStale (by decide) 10001 0 entryState3 (by norm_num) rfl 0
  unfold generateFinal
  rw [show generateInit 3 emptyDictionary = some entryState3 from rfl, Option.some_bind]
  exact hloop

/-! ## The self-distance of a marker with one cell set -/

theorem streamDiff_indicators (a b N : Nat) (ha : a < N) (hb : b < N) (hab : a ≠ b) :
    streamDiff (fun i => decide (i = a)) (fun i => decide (i = b)) N = 2 := by
  unfold streamDiff
  have hsplit : ∀ i, (decide (i = a) != decide (i = b)).toNat
      = (if i = a then 1 else 0) + (if i = b then 1 else 0) := by
    intro i
    by_cases h1 : i = a
    · have h2 : i ≠ b := fun h => hab (h1.symm.trans h)
      simp [h1, hab]
    · by_cases h2 : i = b
      · subst h2
        simp [h1]
      · simp [h1, h2]
  simp only [hsplit]
  rw [Finset.sum_add_distrib, Finset.sum_ite_eq', Finset.sum_ite_eq',
    if_pos (Finset.mem_range.mpr ha), if_pos (Finset.mem_range.mpr hb)]

theorem drawnWide_cell (r c : Nat) : drawnWide.at_ r c ≠ 0 ↔ (r = 0 ∧ c = 0) := by
  show (if r < 216 ∧ c < 216 then (if r * 216 + c = 0 then 1 else 0) % 2 else 0) ≠ 0 ↔ _
  by_cases h : r < 216 ∧ c < 216
  · rw [if_pos h]
    by_cases h0 : r * 216 + c = 0
    · rw [if_pos h0]
      simp only [Nat.one_mod, ne_eq, one_ne_zero, not_false_eq_true, true_iff]
      omega
    · rw [if_neg h0]
      simp only [Nat.zero_mod, ne_eq, not_true_eq_false, false_iff]
      omega
  · rw [if_neg h]
    simp only [ne_eq, not_true_eq_false, false_iff]
    omega

theorem cellBit_drawnWide (i : Nat) (hi : i < 216 * 216) :
    cellBit drawnWide 0 i = decide (i = 0) ∧ cellBit drawnWide 1 i = decide (i = 46440) ∧
    cellBit drawnWide 2 i = decide (i = 46655) ∧ cellBit drawnWide 3 i = decide (i = 215) := by
  refine ⟨?_, ?_, ?_, ?_⟩
  · show decide (drawnWide.at_ (i / 216) (i % 216) ≠ 0) = _
    rw [decide_eq_decide, drawnWide_cell]
    omega
  · show decide (drawnWide.at_ (i % 216) (216 - 1 - i / 216) ≠ 0) = _
    rw [decide_eq_decide, drawnWide_cell]
    omega
  · show decide (drawnWide.at_ (216 - 1 - i / 216) (216 - 1 - i % 216) ≠ 0) = _
    rw [decide_eq_decide, drawnWide_cell]
    omega
  · show decide (drawnWide.at_ (216 - 1 - i % 216) (i / 216) ≠ 0) = _
    rw [decide_eq_decide, drawnWide_cell]
    omega

theorem hammingDistance_drawnWide (k p : Nat) (hk : k < 4) (hp : p < 216 * 216) (hp0 : 0 ≠ p)
    (hcell : ∀ i, i < 216 * 216 → cellBit drawnWide k i = decide (i = p)) :
    hammingDistance (rotationBytes (getByteListFromBits drawnWide) 0)
      (rotationBytes (getByteListFromBits drawnWide) k) = 2 := by
  rw [← hammingSum_eq_hammingDistance _ _ 0 k rfl,
    hammingSum_encodings drawnWide drawnWide 0 k (by norm_num) hk rfl]
  show streamDiff (cellBit drawnWide 0) (cellBit drawnWide k) (216 * 216) = 2
  rw [streamDiff_congr _ _ (fun i => decide (i = 0)) (fun i => decide (i = p)) _
    (fun i hi => (cellBit_drawnWide i hi).1) hcell]
  exact streamDiff_indicators 0 p _ (by norm_num) hp hp0

theorem getSelfDistance_drawnWide : getSelfDistance drawnWide = 2 := by
  rw [getSelfDistance_eq]
  unfold selfDistanceOfRow
  rw [hammingDistance_drawnWide 1 46440 (by norm_num) (by norm_num) (by norm_num)
      (fun i hi => (cellBit_drawnWide i hi).2.1),
    hammingDistance_drawnWide 2 46655 (by norm_num) (by norm_num) (by norm_num)
      (fun i hi => (cellBit_drawnWide i hi).2.2.1),
    hammingDistance_drawnWide 3 215 (by norm_num) (by norm_num) (by norm_num)
      (fun i hi => (cellBit_drawnWide i hi).2.2.2)]
  show min (((216 * 216 : Nat) : Int) + 1) ((min (min 2 2) 2 : Nat) : Int) = 2
  decide

/-! ## Candidates of side 216 against a codebook that is not empty -/

theorem distanceInit_drawnWide : distanceInit drawnWide = -2118184960 := by decide

/-- With a row in the codebook and no best option, a marker whose initial distance
`int(bits.total() * bits.total())` is negative is found at a negative distance. -/
theorem candidateDistance_negative (s : GenState) (c : Mat) (hrows : 0 < s.out.bytesList.length)
    (hbest : s.bestTau = 0) (hinit : distanceInit c < 0) :
    ∃ md, candidateDistance s c = some md ∧ md < 0 := by
  obtain ⟨k, hk⟩ := Nat.exists_eq_succ_of_ne_zero (Nat.pos_iff_ne_zero.mp hrows)
  obtain ⟨cd, hcd⟩ := getDistanceToId_some s.out c 0 hrows
  have hle := (getDistanceToId_bounds s.out c _ true cd hcd).1
  have hsd := getSelfDistance_nonneg c
  unfold candidateDistance
  simp only []
  rw [if_pos (by rw [hbest]; exact hsd), hk, List.range_succ_eq_map]
  simp only [scanDistances, hcd, Option.some_bind]
  rw [if_pos (by rw [hbest]; omega)]
  exact ⟨_, rfl, by omega⟩

/-! ## C14: a run in which a forced acceptance keeps `tau` -/

theorem drawn_wide (t : Nat) : drawn 216 (fun _ => randA) t = drawnWide := rfl

theorem candidateDistance_wideFirst (s : GenState) (hout : s.out.bytesList = [])
    (hbest : s.bestTau ≤ 2) : candidateDistance s drawnWide = some 2 := by
  unfold candidateDistance
  simp only [getSelfDistance_drawnWide]
  rw [if_pos hbest, hout]
  rfl

theorem trace_wide_first :
    generateTrace 3 (drawn 216 (fun _ => randA)) entryWide 4999 = some (wideFirst 4999) := by
  have h := generateTrace_run 3 (drawn 216 (fun _ => randA)) entryWide wideFirst 0 4999 rfl
    (fun j hj => by
      rw [drawn_wide]
      rcases Nat.eq_zero_or_pos j with h0 | hpos
      · subst h0
        refine ⟨by decide, ?_⟩
        rw [generateStep_improves (wideFirst 0) drawnWide 2
          (candidateDistance_wideFirst _ rfl (by decide)) (by decide) (by decide) (by decide)]
        rfl
      · have e1 : wideFirst j = ⟨⟨[], 216, 0⟩, 31104, 2, drawnWide, (j : Int)⟩ :=
          if_neg (by omega)
        have e2 : wideFirst (j + 1) = ⟨⟨[], 216, 0⟩, 31104, 2, drawnWide, (j : Int) + 1⟩ := by
          unfold wideFirst
          rw [if_neg (by omega)]
          simp only [Nat.cast_add, Nat.cast_one]
        rw [e1, e2]
        refine ⟨show ((0 : Nat) : Int) < 3 by decide, ?_⟩
        rw [generateStep_unproductive _ drawnWide 2
          (candidateDistance_wideFirst _ rfl (le_refl _)) (show (2 : Int) < 31104 by decide)
          (le_refl _) (by show ((j : Int) + 1 ≠ 5000); omega)])
  rw [Nat.zero_add] at h
  exact h

theorem trace_wide_forced1 :
    generateTrace 3 (drawn 216 (fun _ => randA)) entryWide 5000 = some wideForced1 := by
  have e1 : wideFirst 4999 = ⟨⟨[], 216, 0⟩, 31104, 2, drawnWide, 4999⟩ := rfl
  have hstep : generateStep (wideFirst 4999) (drawn 216 (fun _ => randA) 4999)
      = some wideForced1 := by
    rw [drawn_wide, e1, generateStep_forced_kept _ drawnWide 2
      (candidateDistance_wideFirst _ rfl (le_refl _)) (by decide) (le_refl _) (by decide)]
    rfl
  exact generateTrace_step 3 _ entryWide _ _ 4999 trace_wide_first (by decide) hstep

theorem trace_wide_second :
    generateTrace 3 (drawn 216 (fun _ => randA)) entryWide 9999 = some (wideSecond 4999) := by
  have h := generateTrace_run 3 (drawn 216 (fun _ => randA)) entryWide wideSecond 5000 4999
    trace_wide_forced1
    (fun j hj => by
      rw [drawn_wide]
      obtain ⟨md, hmd, hneg⟩ := candidateDistance_negative (wideSecond j) drawnWide
        (Nat.succ_pos 0) rfl (by rw [distanceInit_drawnWide]; decide)
      refine ⟨show ((1 : Nat) : Int) < 3 by decide, ?_⟩
      rw [generateStep_unproductive _ drawnWide md hmd
        (by show md < 2; omega) (by show md ≤ 0; omega)
        (by show ((j : Int) + 1 ≠ 5000); omega)]
      unfold wideSecond
      simp only [Nat.cast_add, Nat.cast_one])
  exact h

theorem trace_wide_forced2 :
    generateTrace 3 (drawn 216 (fun _ => randA)) entryWide 10000 = some wideForced2 := by
  obtain ⟨md, hmd, hneg⟩ := candidateDistance_negative (wideSecond 4999) drawnWide
    (Nat.succ_pos 0) rfl (by rw [distanceInit_drawnWide]; decide)
  have hstep : generateStep (wideSecond 4999) (drawn 216 (fun _ => randA) 9999)
      = some wideForced2 := by
    rw [drawn_wide, generateStep_forced_kept _ drawnWide md hmd
      (by show md < 2; omega) (by show md ≤ 0; omega)
      (by show (((4999 : Nat) : Int) + 1 = 5000); norm_num)]
    rfl
  exact generateTrace_step 3 _ entryWide _ _ 9999 trace_wide_second
    (show ((1 : Nat) : Int) < 3 by decide) hstep

theorem trace_wide_third :
    generateTrace 3 (drawn 216 (fun _ => randA)) entryWide 14999 = some (wideThird 4999) := by
  have h := generateTrace_run 3 (drawn 216 (fun _ => randA)) entryWide wideThird 10000 4999
    trace_wide_forced2
    (fun j hj => by
      rw [drawn_wide]
      obtain ⟨md, hmd, hneg⟩ := candidateDistance_negative (wideThird j) drawnWide
        (Nat.succ_pos 1) rfl (by rw [distanceInit_drawnWide]; decide)
      refine ⟨show ((2 : Nat) : Int) < 3 by decide, ?_⟩
      rw [generateStep_unproductive _ drawnWide md hmd
        (by show md < 0; omega) (by show md ≤ 0; omega)
        (by show ((j : Int) + 1 ≠ 5000); omega)]
      unfold wideThird
      simp only [Nat.cast_add, Nat.cast_one])
  exact h

theorem step_wide_forced3 :
    generateStep (wideThird 4999) (drawn 216 (fun _ => randA) 14999) = some wideForced3 ∧
      ForcedAcceptance (wideThird 4999) (drawn 216 (fun _ => randA) 14999) := by
  obtain ⟨md, hmd, hneg⟩ := candidateDistance_negative (wideThird 4999) drawnWide
    (Nat.succ_pos 1) rfl (by rw [distanceInit_drawnWide]; decide)
  have hu : (wideThird 4999).unproductiveIterations + 1 = 5000 := by
    show (((4999 : Nat) : Int) + 1 = 5000)
    norm_num
  constructor
  · rw [drawn_wide, generateStep_forced_kept _ drawnWide md hmd
      (by show md < 0; omega) (by show md ≤ 0; omega) hu]
    rfl
  · exact ⟨md, hmd, by show md < 0; omega, hu⟩

theorem trace_wide_forced3 :
    generateTrace 3 (drawn 216 (fun _ => randA)) entryWide 15000 = some wideForced3 :=
  generateTrace_step 3 _ entryWide _ _ 14999 trace_wide_third
    (show ((2 : Nat) : Int) < 3 by decide) step_wide_forced3.1

/-- C14, at the failing input: no base codebook, markers of side 216, three codewords asked
for, and values of `rand()` that set the cell `(0, 0)` of every marker drawn and no other.
The marker is at self-distance 2, below `tau = 31104`, and is accepted by force in iteration
4999, with `tau = 2`. From then on `getDistanceToId` returns -2118184960 for it, its initial
value `int(bits.total() * bits.total())` wrapped around, so no marker is accepted and none
becomes the best option: the acceptance of iteration 9999 is forced and sets `tau = 0`, and
the acceptance of iteration 14999 is forced and leaves `tau` at 0, not at a smaller value.
The run completes with 3 codewords. -/
theorem forced_acceptance_keeps_tau :
    generateFinal 15001 3 216 emptyDictionary (fun _ => randA) = some wideForced3 ∧
    generateTrace 3 (drawn 216 (fun _ => randA)) entryWide 14999 = some (wideThird 4999) ∧
    generateTrace 3 (drawn 216 (fun _ => randA)) entryWide 15000 = some wideForced3 ∧
    ForcedAcceptance (wideThird 4999) (drawn 216 (fun _ => randA) 14999) ∧
    (wideThird 4999).tau = 0 ∧ wideForced3.tau = 0 ∧
    wideForced3.out.bytesList.length = (wideThird 4999).out.bytesList.length + 1 ∧
    distanceInit (drawn 216 (fun _ => randA) 14999) = -2118184960 := by
  refine ⟨?_, trace_wide_third, trace_wide_forced3, step_wide_forced3.2, rfl, rfl, rfl,
    distanceInit_drawnWide⟩
  have hloop := generateLoop_of_trace 3 (drawn 216 (fun _ => randA)) entryWide wideForced3 15000
    trace_wide_forced3 (show ¬ (((3 : Nat) : Int) < 3) by decide) 15000 0 entryWide
    (by norm_num) rfl 0
  unfold generateFinal
  rw [show generateInit 216 emptyDictionary = some entryWide from rfl, Option.some_bind]
  exact hloop

/-! ## The distance found for a marker that becomes the best option -/

theorem scanDistances_exact (out : Dictionary) (c : Mat) (bestTau : Int) (L : List Nat)
    (md0 md : Int) (h : scanDistances out c bestTau L md0 = some md) (hbest : bestTau < md) :
    md ≤ md0 ∧
    (∀ i ∈ L, ∃ cd, out.getDistanceToId c (i : Int) true = some cd ∧ md ≤ cd) ∧
    (md = md0 ∨ ∃ i ∈ L, out.getDistanceToId c (i : Int) true = some md) := by
  induction L generalizing md0 with
  | nil =>
    simp only [scanDistances, Option.some.injEq] at h
    exact ⟨by omega, fun i hi => absurd hi (List.not_mem_nil i), Or.inl h.symm⟩
  | cons i rest ih =>
    simp only [scanDistances, Option.bind_eq_some] at h
    obtain ⟨cd, hcd, hrest⟩ := h
    by_cases hbr : min cd md0 ≤ bestTau
    · rw [if_pos hbr] at hrest
      have := Option.some.inj hrest
      omega
    · rw [if_neg hbr] at hrest
      obtain ⟨h1, h2, h3⟩ := ih _ hrest
      refine ⟨by omega, ?_, ?_⟩
      · intro i' hi'
        rcases List.mem_cons.mp hi' with heq | hmem
        · subst heq
          exact ⟨cd, hcd, by omega⟩
        · exact h2 i' hmem
      · rcases h3 with h3 | ⟨i', hi', hd⟩
        · rcases min_choice cd md0 with hm | hm
          · exact Or.inr ⟨i, by simp, by rw [h3, hm]; exact hcd⟩
          · exact Or.inl (by rw [h3, hm])
        · exact Or.inr ⟨i', by simp [hi'], hd⟩

/-- A distance above `bestTau` is found after a scan of the whole codebook: it is the
achieved distance of the marker. -/
theorem candidateDistance_exact (s : GenState) (c : Mat) (md : Int)
    (h : candidateDistance s c = some md) (hbest : s.bestTau < md) :
    AchievedDistance s.out c md := by
  unfold candidateDistance at h
  simp only [] at h
  by_cases hsd : getSelfDistance c ≥ s.bestTau
  · rw [if_pos hsd] at h
    obtain ⟨h1, h2, h3⟩ := scanDistances_exact _ _ _ _ _ _ h hbest
    refine ⟨h1, fun i hi => h2 i (List.mem_range.mpr hi), ?_⟩
    rcases h3 with h3 | ⟨i, hi, hd⟩
    · exact Or.inl h3
    · exact Or.inr ⟨i, List.mem_range.mp hi, hd⟩
  · rw [if_neg hsd] at h
    have := Option.some.inj h
    omega

/-! ## The streak of unproductive iterations -/

theorem generateStep_streak (nMarkers : Int) (draw : Nat → Mat) (s0 : GenState) (t : Nat)
    (s s' : GenState) (ht : generateTrace nMarkers draw s0 t = some s)
    (ht' : generateTrace nMarkers draw s0 (t + 1) = some s')
    (hstep : generateStep s (draw t) = some s')
    (hinv : StreakInv nMarkers draw s0 t s) : StreakInv nMarkers draw s0 (t + 1) s' := by
  obtain ⟨k, hk, hu, ⟨sb, hsb, hsbout⟩, hstart, hb0, hbest⟩ := hinv
  obtain ⟨md, hmd⟩ := candidateDistance_some s (draw t)
  have hfresh : ∀ s'' : GenState, generateTrace nMarkers draw s0 (t + 1) = some s'' →
      s''.out.bytesList.length = s.out.bytesList.length + 1 → s''.unproductiveIterations = 0 →
      s''.bestTau = 0 → StreakInv nMarkers draw s0 (t + 1) s'' := by
    intro s'' htr hlen hu0 hbt
    refine ⟨0, Nat.zero_le _, by rw [hu0]; rfl, ⟨s'', htr, rfl⟩, Or.inr ⟨s, ?_, hlen⟩,
      by rw [hbt], fun hpos => ?_⟩
    · rw [show t + 1 - 0 - 1 = t by omega]
      exact ht
    · rw [hbt] at hpos
      exact absurd hpos (lt_irrefl _)
  have hkeep : (t + 1 - (k + 1) = t - k) := by omega
  by_cases hacc : md ≥ s.tau
  · have e := generateStep_accepts s (draw t) md hmd hacc
    rw [hstep] at e
    have e' := Option.some.inj e
    subst e'
    exact hfresh _ ht' (length_pushBack _ _) rfl rfl
  · have hlt : md < s.tau := not_le.mp hacc
    by_cases hforce : s.unproductiveIterations + 1 = 5000
    · by_cases himp : s.bestTau < md
      · have e := generateStep_forced_improves s (draw t) md hmd hlt himp hforce
        rw [hstep] at e
        have e' := Option.some.inj e
        subst e'
        exact hfresh _ ht' (length_pushBack _ _) rfl rfl
      · have e := generateStep_forced_kept s (draw t) md hmd hlt (not_lt.mp himp) hforce
        rw [hstep] at e
        have e' := Option.some.inj e
        subst e'
        exact hfresh _ ht' (length_pushBack _ _) rfl rfl
    · by_cases himp : s.bestTau < md
      · have e := generateStep_improves s (draw t) md hmd hlt himp hforce
        rw [hstep] at e
        have e' := Option.some.inj e
        subst e'
        refine ⟨k + 1, by omega, ?_, ⟨sb, by rw [hkeep]; exact hsb, hsbout⟩, ?_, ?_, ?_⟩
        · show s.unproductiveIterations + 1 = ((k + 1 : Nat) : Int)
          rw [hu]
          push_cast
          rfl
        · rw [hkeep]
          exact hstart
        · show 0 ≤ md
          omega
        · intro _
          exact ⟨t, by omega, by omega, rfl, candidateDistance_exact s (draw t) md hmd himp⟩
      · have e := generateStep_unproductive s (draw t) md hmd hlt (not_lt.mp himp) hforce
        rw [hstep] at e
        have e' := Option.some.inj e
        subst e'
        refine ⟨k + 1, by omega, ?_, ⟨sb, by rw [hkeep]; exact hsb, hsbout⟩, ?_, hb0, ?_⟩
        · show s.unproductiveIterations + 1 = ((k + 1 : Nat) : Int)
          rw [hu]
          push_cast
          rfl
        · rw [hkeep]
          exact hstart
        · intro hpos
          obtain ⟨t', h1, h2, h3, h4⟩ := hbest hpos
          exact ⟨t', by omega, by omega, h3, h4⟩

theorem generateTrace_streakInv (nMarkers : Int) (draw : Nat → Mat) (s0 : GenState)
    (hu0 : s0.unproductiveIterations = 0) (hb0 : s0.bestTau = 0) (t : Nat) (s : GenState)
    (h : generateTrace nMarkers draw s0 t = some s) : StreakInv nMarkers draw s0 t s := by
  induction t generalizing s with
  | zero =>
    have := Option.some.inj h
    subst this
    refine ⟨0, le_refl _, by rw [hu0]; rfl, ⟨_, rfl, rfl⟩, Or.inl rfl, by rw [hb0], fun hpos => ?_⟩
    rw [hb0] at hpos
    exact absurd hpos (lt_irrefl _)
  | succ t ih =>
    obtain ⟨s1, h1, -, hstep⟩ := generateTrace_succ nMarkers draw s0 s t h
    exact generateStep_streak nMarkers draw s0 t s1 s h1 h hstep (ih s1 h1)

/-- The forced acceptance when the streak has a best option: for every run of the main loop
of `generateCustomDictionary`, if the acceptance of iteration `t` is forced and sets `tau` to
a positive value, then the codeword appended is `getByteListFromBits` of a
`markerSize × markerSize` marker drawn in an iteration `t'` of the current streak (the
iterations since the last acceptance, or since the start of the loop, during which the
codebook has not changed), and the new value of `tau` is the achieved distance of this
marker: the minimum of its self-distance and of its all-rotation distances to the
codewords of the codebook. -/
theorem forced_acceptance_best_of_streak (nMarkers : Int) (markerSize : Nat)
    (base : Dictionary) (rand : Nat → Nat → Nat) (s0 : GenState)
    (hinit : generateInit markerSize base = some s0) (t : Nat) (s s' : GenState)
    (ht : generateTrace nMarkers (drawn markerSize rand) s0 t = some s)
    (ht' : generateTrace nMarkers (drawn markerSize rand) s0 (t + 1) = some s')
    (hforced : ForcedAcceptance s (drawn markerSize rand t)) (hpos : 0 < s'.tau) :
    ∃ k t' : Nat, s.unproductiveIterations = (k : Int) ∧ t - k ≤ t' ∧ t' ≤ t ∧
      (∃ sb, generateTrace nMarkers (drawn markerSize rand) s0 (t - k) = some sb ∧
        sb.out = s.out) ∧
      (t - k = 0 ∨ ∃ sp, generateTrace nMarkers (drawn markerSize rand) s0 (t - k - 1) = some sp ∧
        s.out.bytesList.length = sp.out.bytesList.length + 1) ∧
      s'.out.bytesList
        = s.out.bytesList ++ [getByteListFromBits (drawn markerSize rand t')] ∧
      (drawn markerSize rand t').rows = markerSize ∧
      (drawn markerSize rand t').cols = markerSize ∧
      AchievedDistance s.out (drawn markerSize rand t') s'.tau := by
  obtain ⟨-, -, hbest0, hu0⟩ := generateInit_entry _ _ _ hinit
  obtain ⟨k, hk, hu, hsb, hstart, hb0, hbest⟩ :=
    generateTrace_streakInv nMarkers (drawn markerSize rand) s0 hu0 hbest0 t s ht
  obtain ⟨s1, hs1, -, hstep⟩ := generateTrace_succ _ _ _ _ _ ht'
  rw [ht] at hs1
  have hs : s1 = s := (Option.some.inj hs1).symm
  rw [hs] at hstep
  obtain ⟨md, hmd, hlt, hforce⟩ := hforced
  have hdims := drawn_dims markerSize rand
  by_cases himp : s.bestTau < md
  · have e := generateStep_forced_improves s _ md hmd hlt himp hforce
    rw [hstep] at e
    have e' := Option.some.inj e
    subst e'
    exact ⟨k, t, hu, Nat.sub_le _ _, le_refl _, hsb, hstart, rfl, (hdims t).1, (hdims t).2,
      candidateDistance_exact s _ md hmd himp⟩
  · have e := generateStep_forced_kept s _ md hmd hlt (not_lt.mp himp) hforce
    rw [hstep] at e
    have e' := Option.some.inj e
    subst e'
    obtain ⟨t', h1, h2, h3, h4⟩ := hbest hpos
    refine ⟨k, t', hu, h1, by omega, hsb, hstart, ?_, (hdims t').1, (hdims t').2, h4⟩
    show (pushBack s.out (getByteListFromBits s.bestMarker)).bytesList = _
    rw [h3]
    rfl

/-- The forced acceptance of `drawnA` in the run that accepts `drawnB` first: the streak is
the iterations 1 to 5000, and `tau` becomes 1. -/
theorem forced_acceptance_best_of_streak_witness :
    ∃ k t' : Nat, (streakA 4999).unproductiveIterations = (k : Int) ∧ 5000 - k ≤ t' ∧
      t' ≤ 5000 ∧
      (∃ sb, generateTrace 2 (drawn 3 randBA) entryState3 (5000 - k) = some sb ∧
        sb.out = (streakA 4999).out) ∧
      (5000 - k = 0 ∨ ∃ sp, generateTrace 2 (drawn 3 randBA) entryState3 (5000 - k - 1) = some sp ∧
        (streakA 4999).out.bytesList.length = sp.out.bytesList.length + 1) ∧
      forcedA.out.bytesList
        = (streakA 4999).out.bytesList ++ [getByteListFromBits (drawn 3 randBA t')] ∧
      (drawn 3 randBA t').rows = 3 ∧ (drawn 3 randBA t').cols = 3 ∧
      AchievedDistance (streakA 4999).out (drawn 3 randBA t') forcedA.tau :=
  forced_acceptance_best_of_streak 2 3 emptyDictionary randBA entryState3 rfl 5000
    (streakA 4999) forcedA (trace_streak_A 4999 (by norm_num) (by norm_num)) trace_force_A
    ⟨1, candidateDistance_streakA 4999, by decide, by decide⟩ (by decide)

/-! ## C22: the all-rotation distance is symmetric -/

theorem hammingDistance_comm (a b : List Nat) : hammingDistance a b = hammingDistance b a := by
  unfold hammingDistance
  rw [List.zipWith_comm_of_comm _ (fun x y => by rw [Nat.xor_comm])]

theorem allRotationDistance_eq (a b : List Vec4b) :
    allRotationDistance a b = minRotDistance b a := by
  unfold allRotationDistance minRotDistance rotDistance
  rw [hammingDistance_comm (rotationBytes a 0) (rotationBytes b 0),
    hammingDistance_comm (rotationBytes a 0) (rotationBytes b 1),
    hammingDistance_comm (rotationBytes a 0) (rotationBytes b 2),
    hammingDistance_comm (rotationBytes a 0) (rotationBytes b 3)]

theorem distanceInit_dims (n : Nat) (A B : Mat) (hA : A.rows = n ∧ A.cols = n)
    (hB : B.rows = n ∧ B.cols = n) : distanceInit A = distanceInit B := by
  unfold distanceInit Mat.total
  rw [hA.1, hA.2, hB.1, hB.2]

/-- C22: for all `n × n` matrices `A` and `B`, the minimum over `r = 0..3` of the Hamming
distance between the rotation-0 bytes of `getByteListFromBits(A)` and the rotation-`r` bytes
of `getByteListFromBits(B)` is the same with `A` and `B` exchanged; and in a codebook that
holds the encodings of `A` and of `B` at the ids `idA` and `idB`, `getDistanceToId` returns
a distance for `A` against `idB` and the same distance for `B` against `idA`, with all
rotations. -/
theorem all_rotation_distance_symmetric (n : Nat) (A B : Mat) (hA : A.rows = n ∧ A.cols = n)
    (hB : B.rows = n ∧ B.cols = n) (d : Dictionary) (idA idB : Nat)
    (hidA : idA < d.bytesList.length) (hidB : idB < d.bytesList.length)
    (hrowA : d.row idA = getByteListFromBits A) (hrowB : d.row idB = getByteListFromBits B) :
    allRotationDistance (getByteListFromBits A) (getByteListFromBits B)
      = allRotationDistance (getByteListFromBits B) (getByteListFromBits A) ∧
    d.getDistanceToId A (idB : Int) true = d.getDistanceToId B (idA : Int) true ∧
    ∃ dist, d.getDistanceToId A (idB : Int) true = some dist := by
  have hlen : (getByteListFromBits B).length = (getByteListFromBits A).length := by
    rw [length_getByteListFromBits, length_getByteListFromBits, hA.1, hA.2, hB.1, hB.2]
  have h1 := getDistanceToId_all d A idB hidB (by rw [hrowB]; exact hlen)
  have h2 := getDistanceToId_all d B idA hidA (by rw [hrowA]; exact hlen.symm)
  have hsym := minRotDistance_symm n A B hA hB
  refine ⟨?_, ?_, _, h1⟩
  · rw [allRotationDistance_eq, allRotationDistance_eq, hsym]
  · rw [h1, h2, hrowA, hrowB, hsym, distanceInit_dims n A B hA hB]

/-- C22 at the codebook `twoRows`, which holds the encodings of `markerA` and `markerB`: the
distance is 1 both ways. -/
theorem all_rotation_distance_symmetric_witness :
    (allRotationDistance (getByteListFromBits markerA) (getByteListFromBits markerB)
      = allRotationDistance (getByteListFromBits markerB) (getByteListFromBits markerA) ∧
    twoRows.getDistanceToId markerA ((1 : Nat) : Int) true
      = twoRows.getDistanceToId markerB ((0 : Nat) : Int) true ∧
    ∃ dist, twoRows.getDistanceToId markerA ((1 : Nat) : Int) true = some dist) ∧
    twoRows.getDistanceToId markerA 1 true = some 1 :=
  ⟨all_rotation_distance_symmetric 3 markerA markerB ⟨rfl, rfl⟩ ⟨rfl, rfl⟩ twoRows 0 1
    (by decide) (by decide) rfl rfl, by decide⟩

/-! ## C21: the reads of the decoder -/

theorem decodeReads_succ (byteList : List Vec4b) (n i : Nat) :
    decodeReads byteList n (i + 1)
      = (bitsCell byteList (decodeReads byteList n i).1 (i / n) (i % n),
          bitsCellReads (decodeReads byteList n i).1 (decodeReads byteList n i).2) := by
  simp [decodeReads, List.range_succ, List.foldl_append]

theorem decodeReads_fst (byteList : List Vec4b) (n i : Nat) :
    (decodeReads byteList n i).1 = decodeState byteList n i := by
  induction i with
  | zero => rfl
  | succ i ih => rw [decodeReads_succ, decodeState_succ, ih]

theorem getBitsFromByteListReads_eq (byteList : List Vec4b) (n : Nat) :
    getBitsFromByteListReads byteList n =
      if byteList.length > 0 ∧ byteList.length ≥ (n * n) % 2 ^ 32 / 8 ∧
          byteList.length ≤ (n * n) % 2 ^ 32 / 8 + 1 then
        some ((decodeReads byteList n (n * n)).1.bits, (decodeReads byteList n (n * n)).2)
      else none := by
  unfold getBitsFromByteListReads decodeReads
  simp only []
  rw [foldl_range_nested]

/-- The record of the reads does not change the matrix returned. -/
theorem getBitsFromByteListReads_fst (byteList : List Vec4b) (n : Nat) :
    (getBitsFromByteListReads byteList n).map Prod.fst = getBitsFromByteList byteList n := by
  rw [getBitsFromByteListReads_eq, getBitsFromByteList_eq]
  split_ifs
  · rw [Option.map_some', decodeReads_fst]
  · rfl

theorem bitsCellReads_base2 (s : BitsState) (reads : DecodeReads) :
    (bitsCellReads s reads).base2Idx = reads.base2Idx ++ [s.currentBit] := by
  unfold bitsCellReads
  simp only []
  split_ifs <;> rfl

theorem bitsCellReads_byte (s : BitsState) (reads : DecodeReads) :
    (bitsCellReads s reads).byteIdx
      = if s.currentBit + 1 = 8 then reads.byteIdx ++ [s.currentByteIdx + 1]
        else reads.byteIdx := by
  unfold bitsCellReads
  simp only []
  split_ifs <;> rfl

/-- The reads of the decoder of a matrix of at least 8 cells, whatever the bytes: before the
last cell the bytes `0 .. i / 8` have been read, each index into `base2List` is at most 7,
and the last cell reads the byte at index `nbytes`. -/
theorem decodeReads_inv (byteList : List Vec4b) (n : Nat) (h8 : 8 ≤ n * n) (i : Nat)
    (hi : i ≤ n * n) :
    (∀ x ∈ (decodeReads byteList n i).2.base2Idx, x ≤ 7) ∧
    (i < n * n →
      (decodeReads byteList n i).1.currentByteIdx = i / 8 ∧
      (decodeReads byteList n i).1.currentBit = 8 - min 8 (n * n - 8 * (i / 8)) + i % 8 ∧
      (decodeReads byteList n i).2.byteIdx = List.range (i / 8 + 1)) ∧
    (i = n * n → (decodeReads byteList n i).2.byteIdx = List.range (nbytesOf (n * n) + 1)) := by
  induction i with
  | zero =>
    refine ⟨fun x hx => ?_, fun _ => ⟨rfl, ?_, rfl⟩, fun h0 => ?_⟩
    · simp [decodeReads] at hx
    · simp only [decodeReads, List.range_zero, List.foldl_nil]
      omega
    · omega
  | succ i ih =>
    obtain ⟨htab, hst, -⟩ := ih (by omega)
    obtain ⟨hidx, hbit, hreads⟩ := hst (by omega)
    have htot : (decodeReads byteList n i).1.bits.total = n * n := by
      rw [decodeReads_fst]
      unfold Mat.total
      rw [(decodeState_dims byteList n i).1, (decodeState_dims byteList n i).2]
    have hnb : nbytesOf (n * n) = (n * n + 7) / 8 := by
      unfold nbytesOf
      split_ifs <;> omega
    rw [decodeReads_succ]
    simp only []
    generalize hN : n * n = N at *
    refine ⟨?_, ?_, ?_⟩
    · intro x hx
      rw [bitsCellReads_base2, List.mem_append, List.mem_singleton] at hx
      rcases hx with hx | hx
      · exact htab x hx
      · rw [hx, hbit]
        omega
    · intro hlt
      rw [bitsCell_idx, bitsCell_bit, bitsCellReads_byte, hidx, hreads, htot]
      by_cases hlast : (decodeReads byteList n i).1.currentBit + 1 = 8
      · rw [if_pos hlast, if_pos hlast, if_pos hlast]
        have h1 : (i + 1) / 8 = i / 8 + 1 := by omega
        have h2 : (i + 1) % 8 = 0 := by omega
        refine ⟨h1.symm, ?_, ?_⟩
        · split_ifs <;> omega
        · rw [h1, ← List.range_succ]
      · rw [if_neg hlast, if_neg hlast, if_neg hlast]
        have h1 : (i + 1) / 8 = i / 8 := by omega
        have h2 : (i + 1) % 8 = i % 8 + 1 := by omega
        exact ⟨h1.symm, by rw [h1, h2]; omega, by rw [h1]⟩
    · intro hend
      rw [bitsCellReads_byte, hidx, hreads]
      have hlast : (decodeReads byteList n i).1.currentBit + 1 = 8 := by
        rw [hbit]
        omega
      rw [if_pos hlast, ← List.range_succ, hnb]
      congr 1
      omega

/-- The reads of the decoder of a matrix of fewer than 8 cells: the byte 0 only. -/
theorem decodeReads_small (byteList : List Vec4b) (n : Nat) (h8 : n * n < 8) (i : Nat)
    (hi : i ≤ n * n) :
    (∀ x ∈ (decodeReads byteList n i).2.base2Idx, x ≤ 7) ∧
    (decodeReads byteList n i).1.currentByteIdx = 0 ∧
    (decodeReads byteList n i).1.currentBit = i ∧
    (decodeReads byteList n i).2.byteIdx = [0] := by
  induction i with
  | zero =>
    refine ⟨fun x hx => ?_, rfl, rfl, rfl⟩
    simp [decodeReads] at hx
  | succ i ih =>
    obtain ⟨htab, hidx, hbit, hreads⟩ := ih (by omega)
    rw [decodeReads_succ]
    simp only []
    have hlast : ¬ ((decodeReads byteList n i).1.currentBit + 1 = 8) := by
      rw [hbit]
      omega
    refine ⟨?_, ?_, ?_, ?_⟩
    · intro x hx
      rw [bitsCellReads_base2, List.mem_append, List.mem_singleton] at hx
      rcases hx with hx | hx
      · exact htab x hx
      · rw [hx, hbit]
        omega
    · rw [bitsCell_idx, if_neg hlast, hidx]
    · rw [bitsCell_bit, if_neg hlast, hbit]
    · rw [bitsCellReads_byte, if_neg hlast, hreads]

/-- C21, at the failing input: for `n = 3` and the list `getByteListFromBits(markerB)`, which
has `nBytes = 2` byte positions (indices 0 and 1), the decoder returns a matrix, and the
bytes it reads are those at the indices 0, 1 and 2: when the last cell is decoded `currentBit`
reaches 8 and `byteList.ptr< Vec4b >(0)[currentByteIdx]` is read once more, at
`currentByteIdx = 2`. The same happens for `n = 4` with a list of 2 byte positions. The
indices into `base2List` are at most 7. -/
theorem decode_reads_past_end :
    (getByteListFromBits markerB).length = 2 ∧ nbytesOf (3 * 3) = 2 ∧
    (getBitsFromByteListReads (getByteListFromBits markerB) 3).map (fun p => p.2)
      = some ⟨[0, 1, 2], [0, 1, 2, 3, 4, 5, 6, 7, 7]⟩ ∧
    ¬ (2 < nbytesOf (3 * 3)) ∧
    nbytesOf (4 * 4) = 2 ∧
    (getBitsFromByteListReads [⟨0, 0, 0, 0⟩, ⟨0, 0, 0, 0⟩] 4).map (fun p => p.2.byteIdx)
      = some [0, 1, 2] := by
  decide

/-- The reads of `Dictionary::getBitsFromByteList` on a list with `nBytes = ceil(n² / 8)` byte
positions, for `n ≥ 1` and `n² < 2 ^ 32`, whatever the bytes: the decoder returns a matrix,
every index into `base2List` is in `0..7`, and the bytes read are the byte 0 alone when
`n ≤ 2`, and the bytes `0, 1, ..., nBytes` in this order when `n ≥ 3`: every read but the last
is inside the list, and the last one, made when the last cell is decoded, is at the index
`nBytes`, one past the last byte. -/
theorem decode_reads (n : Nat) (byteList : List Vec4b) (hn : 1 ≤ n) (h32 : n * n < 2 ^ 32)
    (hlen : byteList.length = nbytesOf (n * n)) :
    ∃ D reads, getBitsFromByteListReads byteList n = some (D, reads) ∧
      getBitsFromByteList byteList n = some D ∧
      (∀ x ∈ reads.base2Idx, x ≤ 7) ∧
      (n * n < 8 → reads.byteIdx = [0]) ∧
      (8 ≤ n * n → reads.byteIdx = List.range (nbytesOf (n * n) + 1) ∧
        reads.byteIdx.getLast? = some byteList.length ∧
        ∀ x ∈ reads.byteIdx.dropLast, x < byteList.length) := by
  have hpos : 0 < n * n := Nat.mul_pos hn hn
  have hnb := nbytesOf_spec (n * n)
  have hnb' : nbytesOf (n * n) ≤ n * n / 8 + 1 := by
    unfold nbytesOf
    split_ifs <;> omega
  have hassert : byteList.length > 0 ∧ byteList.length ≥ (n * n) % 2 ^ 32 / 8 ∧
      byteList.length ≤ (n * n) % 2 ^ 32 / 8 + 1 := by
    rw [Nat.mod_eq_of_lt h32]
    exact ⟨by omega, by omega, by omega⟩
  refine ⟨_, _, by rw [getBitsFromByteListReads_eq, if_pos hassert], ?_, ?_, ?_, ?_⟩
  · rw [getBitsFromByteList_eq, if_pos hassert, decodeReads_fst]
  · by_cases h8 : 8 ≤ n * n
    · exact (decodeReads_inv byteList n h8 (n * n) (le_refl _)).1
    · exact (decodeReads_small byteList n (by omega) (n * n) (le_refl _)).1
  · intro h8
    exact (decodeReads_small byteList n h8 (n * n) (le_refl _)).2.2.2
  · intro h8
    have hr := (decodeReads_inv byteList n h8 (n * n) (le_refl _)).2.2 rfl
    refine ⟨hr, ?_, ?_⟩
    · rw [hr, List.range_succ, List.getLast?_append, hlen]
      rfl
    · intro x hx
      rw [hr, List.range_succ, List.dropLast_concat, List.mem_range] at hx
      omega

theorem decode_reads_witness :
    ∃ D reads, getBitsFromByteListReads (getByteListFromBits markerB) 3 = some (D, reads) ∧
      getBitsFromByteList (getByteListFromBits markerB) 3 = some D ∧
      (∀ x ∈ reads.base2Idx, x ≤ 7) ∧
      (3 * 3 < 8 → reads.byteIdx = [0]) ∧
      (8 ≤ 3 * 3 → reads.byteIdx = List.range (nbytesOf (3 * 3) + 1) ∧
        reads.byteIdx.getLast? = some (getByteListFromBits markerB).length ∧
        ∀ x ∈ reads.byteIdx.dropLast, x < (getByteListFromBits markerB).length) :=
  decode_reads 3 (getByteListFromBits markerB) (by norm_num) (by norm_num) (by decide)

/-! ## C15: a forced acceptance without a best option -/

theorem candidateDistance_streakEmpty (u : Nat) :
    candidateDistance (streakEmpty u) drawnB = some 0 := by
  have hsd : getSelfDistance drawnB = 4 := by decide
  have hscan : scanDistances acceptedB.out drawnB 0
      (List.range acceptedB.out.bytesList.length) 4 = some 0 := by decide
  unfold candidateDistance
  simp only [hsd]
  rw [if_pos (show (4 : Int) ≥ (streakEmpty u).bestTau by show (4 : Int) ≥ 0; decide)]
  exact hscan

theorem step_streakEmpty (u : Nat) (hu : u + 1 ≠ 5000) :
    generateStep (streakEmpty u) drawnB = some (streakEmpty (u + 1)) := by
  rw [generateStep_unproductive (streakEmpty u) drawnB 0 (candidateDistance_streakEmpty u)
    (by show (0 : Int) < 4; decide) (by show (0 : Int) ≤ 0; decide)
    (by show ((u : Int) + 1 ≠ 5000); omega)]
  unfold streakEmpty
  simp only [Nat.cast_add, Nat.cast_one]

theorem trace_streakEmpty (u : Nat) (hu : u ≤ 4999) :
    generateTrace 2 (drawn 3 (fun _ => randB)) entryState3 (1 + u) = some (streakEmpty u) :=
  generateTrace_run 2 (drawn 3 (fun _ => randB)) entryState3 streakEmpty 1 u
    (generateTrace_step 2 (drawn 3 (fun _ => randB)) entryState3 entryState3 acceptedB 0 rfl
      (by decide) step_accept_B)
    (fun j hj => ⟨show ((acceptedB.out.bytesList.length : Nat) : Int) < 2 by decide,
      step_streakEmpty j (by omega)⟩)

/-- C15, at the failing input: no base codebook, markers of side 3, two codewords asked for,
and values of `rand()` that draw `drawnB` in every iteration. `drawnB` is accepted in
iteration 0 as codeword 0, with 2 byte positions. In each of the iterations 1 to 4999 it is
drawn again and found at distance 0, below `tau = 4` and not above `bestTau = 0`: no
codeword is appended and `bestMarker` stays the empty `Mat`. In iteration 5000 the distance
is 0 again and the counter reaches 5000, so the acceptance is forced with `bestMarker` still
empty: the row handed to `push_back` is its encoding, of no byte position, where the rows of
the codebook have 2. -/
theorem forced_acceptance_without_option :
    generateTrace 2 (drawn 3 (fun _ => randB)) entryState3 1 = some acceptedB ∧
    acceptedB.out.bytesList = [getByteListFromBits drawnB] ∧
    (getByteListFromBits drawnB).length = 2 ∧
    (∀ u, u ≤ 4999 →
      generateTrace 2 (drawn 3 (fun _ => randB)) entryState3 (1 + u) = some (streakEmpty u)) ∧
    (∀ u, (streakEmpty u).out.bytesList = acceptedB.out.bytesList) ∧
    ((streakEmpty 4999).out.bytesList.length : Int) < 2 ∧
    ForcedAcceptance (streakEmpty 4999) (drawn 3 (fun _ => randB) 5000) ∧
    candidateDistance (streakEmpty 4999) (drawn 3 (fun _ => randB) 5000) = some 0 ∧
    ¬ ((0 : Int) > (streakEmpty 4999).bestTau) ∧
    (streakEmpty 4999).bestMarker.rows = 0 ∧ (streakEmpty 4999).bestMarker.cols = 0 ∧
    (getByteListFromBits (streakEmpty 4999).bestMarker).length = 0 := by
  refine ⟨trace_streakEmpty 0 (by norm_num), rfl, by decide, trace_streakEmpty, fun _ => rfl,
    by decide, ⟨0, candidateDistance_streakEmpty 4999, by decide, by decide⟩,
    candidateDistance_streakEmpty 4999, by decide, rfl, rfl, by decide⟩

/-! ## C16: a list one byte position short -/

/-- C16, at the failing input: for `n = 3`, where `nBytes = 2`, the list with the single
byte position `(192, 0, 0, 0)` passes the assertion, `1 ≥ 9 / 8` and `1 ≤ 9 / 8 + 1`, and
is decoded: the bytes read are those at the indices 0, 1 and 2, the last two past the end
of the list. For `n = 4`, where `nBytes = 2`, a list with 3 byte positions passes the
assertion too. -/
theorem decode_accepts_short_list :
    nbytesOf (3 * 3) = 2 ∧ ([⟨192, 0, 0, 0⟩] : List Vec4b).length = 1 ∧
    (getBitsFromByteList [⟨192, 0, 0, 0⟩] 3).isSome = true ∧
    (getBitsFromByteListReads [⟨192, 0, 0, 0⟩] 3).map (fun p => p.2.byteIdx)
      = some [0, 1, 2] ∧
    nbytesOf (4 * 4) = 2 ∧
    (getBitsFromByteList [⟨0, 0, 0, 0⟩, ⟨0, 0, 0, 0⟩, ⟨0, 0, 0, 0⟩] 4).isSome = true := by
  decide

end Aruco
